import Mathlib

/-!
# The queue of `queue.c`: a shallow embedding and its verification

`queue.c` implements a queue of strings on an intrusive circular doubly-linked
list (`struct list_head { prev, next }` embedded in `element_t { value, list }`).

The embedding is a heap of link cells: an address is a natural number, `0` is
`NULL`, and an `element_t` is identified with the address of its embedded
`list` member (`container_of` / `list_entry` is a constant offset).  Loops whose
termination depends on the shape of the heap take a `fuel` argument and return
`none` when it runs out; the theorems show that a fuel above the number of
elements always gives a result.
-/

namespace Queue

/-! ## Machine integers -/

/-- Largest value of the C type `int` (32 bits). -/
def INT_MAX : Nat := 2147483647

/-- Conversion of an integer to `int` (two's complement, 32 bits). -/
def wrap_int (z : Int) : Int := (z + 2147483648) % 4294967296 - 2147483648

/-- Conversion of an integer to `size_t` (64 bits, arithmetic modulo `2^64`). -/
def wrap_size (z : Int) : Nat := (z % 18446744073709551616).toNat

/-! ## Strings

A `char *` is the list of the bytes stored from its address on; the bytes after
the end of the list read as `0`, and the string ends at its first `0` byte. -/

/-- The byte `s[i]`. -/
def char_at (s : List Nat) (i : Nat) : Nat := s.getD i 0

/-- The function `strlen(s)`: the number of bytes before the first `0`. -/
def strlen : List Nat → Nat
  | [] => 0
  | c :: s => if c = 0 then 0 else strlen s + 1

/-- The bytes of the string held by `s`, without the terminator. -/
def cstr : List Nat → List Nat
  | [] => []
  | c :: s => if c = 0 then [] else c :: cstr s

/-- The function `strcmp(a, b)`: byte-wise comparison (as `unsigned char`) up to the first
difference or the terminator; only the sign of the result is meaningful. -/
def strcmp : List Nat → List Nat → Int
  | [], [] => 0
  | [], b :: _ => - (b : Int)
  | a :: _, [] => (a : Int)
  | a :: as, b :: bs =>
    if a ≠ b then (a : Int) - (b : Int) else if a = 0 then 0 else strcmp as bs

/-! ## The heap -/

/-- The memory the queue functions work on: for every address the two links of
the `struct list_head` there, the bytes of the buffer `value` of the element
there, and the log of the elements handed to `free`. -/
structure Heap where
  next : Nat → Nat
  prev : Nat → Nat
  value : Nat → List Nat
  freed : List Nat

/-- The assignment `a->next = v`. -/
def Heap.setNext (h : Heap) (a v : Nat) : Heap :=
  { h with next := fun x => if x = a then v else h.next x }

/-- The assignment `a->prev = v`. -/
def Heap.setPrev (h : Heap) (a v : Nat) : Heap :=
  { h with prev := fun x => if x = a then v else h.prev x }

/-- The assignment `a->value = buf` (with the contents of the buffer). -/
def Heap.setValue (h : Heap) (a : Nat) (buf : List Nat) : Heap :=
  { h with value := fun x => if x = a then buf else h.value x }

/-- The call `free(a)` of an element (or of its storage). -/
def Heap.free (h : Heap) (a : Nat) : Heap :=
  { h with freed := a :: h.freed }

/-! ## The list primitives of `list.h`

`list.h` is not among the sources.  Its link primitives are modelled below from
the description the specification gives of them.  Its iteration macros are
expanded where `queue.c` uses them, as the ring walk the specification
describes: `list_for_each (i, head)` is
`for (i = head->next; i != head; i = i->next)`, and the `_safe` variants keep in
`safe` the successor read before the body runs
(`for (i = head->next, safe = i->next; i != head; i = safe, safe = i->next)`). -/

/-- Modelled from the spec: `list.h` is not among the sources; `init(anchor)`
"sets `anchor.next = anchor.prev = anchor`". -/
def INIT_LIST_HEAD (h : Heap) (head : Nat) : Heap :=
  (h.setNext head head).setPrev head head

/-- Modelled from the spec: `list.h` is not among the sources; `list_add` is
`insert_between(new, dest, dest.next)`, which "links `new` between two
currently-adjacent ring members". -/
def list_add (h : Heap) (node head : Nat) : Heap :=
  let next := h.next head
  let h := h.setPrev next node
  let h := h.setNext node next
  let h := h.setPrev node head
  h.setNext head node

/-- Modelled from the spec: `list.h` is not among the sources; `list_add_tail`
is `insert_between(new, dest.prev, dest)`, the symmetric insertion. -/
def list_add_tail (h : Heap) (node head : Nat) : Heap :=
  let prev := h.prev head
  let h := h.setNext prev node
  let h := h.setNext node head
  let h := h.setPrev node prev
  h.setPrev head node

/-- Modelled from the spec: `list.h` is not among the sources; `unlink(node)`
"removes `node` from its ring by connecting its neighbors directly; does not
clear or free `node`". -/
def list_del (h : Heap) (node : Nat) : Heap :=
  let next := h.next node
  let prev := h.prev node
  let h := h.setPrev next prev
  h.setNext prev next

/-- Modelled from the spec: `list.h` is not among the sources; `list_del_init`
is `unlink(node)` followed by `init(node)`. -/
def list_del_init (h : Heap) (node : Nat) : Heap :=
  INIT_LIST_HEAD (list_del h node) node

/-- Modelled from the spec: `list.h` is not among the sources; `is_empty(anchor)`
is "true iff `anchor.next == anchor`". -/
def list_empty (h : Heap) (head : Nat) : Bool :=
  h.next head = head

/-- Modelled from the spec: `list.h` is not among the sources;
`is_singular(anchor)` is `anchor.next == anchor.prev && anchor.next != anchor`. -/
def list_is_singular (h : Heap) (head : Nat) : Bool :=
  !list_empty h head && h.prev head = h.next head

/-- Modelled from the spec: `list.h` is not among the sources;
`move_after(node, dest)` is "detach `node` then re-insert immediately after
`dest`". -/
def list_move (h : Heap) (node head : Nat) : Heap :=
  list_add (list_del h node) node head

/-! ## The functions of `queue.c` -/

/-- The function `q_new`: `new_node` is what `malloc` returned (`0` when it
failed). -/
def q_new (h : Heap) (new_node : Nat) : Nat × Heap :=
  if new_node = 0 then (0, h) else (new_node, INIT_LIST_HEAD h new_node)

/-- The loop `for (int i = lo; ...; i++) dst[i] = src[i];` on an allocated
buffer `dst`, run for `n` iterations from `i`.  The buffer is the list of its
bytes; the theorems give it the `len + 1` bytes asked of `malloc`, so that
every write of the loop lands in it. -/
def copy_loop (src : List Nat) : Nat → Nat → List Nat → List Nat
  | 0, _, dst => dst
  | n + 1, i, dst => copy_loop src n (i + 1) (dst.set i (char_at src i))

/-- The function `q_insert_head`: `s` is the string (`none` for `NULL`),
`new_node` what `malloc(sizeof(*new_node))` returned (`0` when it failed) and
`buf` the fresh buffer `malloc(len + 1)` returned (`none` when it failed);
`len` is an `int`. -/
def q_insert_head (h : Heap) (head : Nat) (s : Option (List Nat)) (new_node : Nat)
    (buf : Option (List Nat)) : Bool × Heap :=
  if head = 0 then (false, h) else
  match s with
  | none => (false, h)
  | some s =>
    if new_node = 0 then (false, h) else
    let len : Int := wrap_int (strlen s)
    match buf with
    | none => (false, h.free new_node)
    | some buf =>
      let buf := copy_loop s len.toNat 0 buf
      let buf := buf.set len.toNat 0
      let h := h.setValue new_node buf
      (true, list_add h new_node head)

/-- The function `q_insert_tail`: as `q_insert_head`, but the copy loop runs
while `i <= len` and the element is linked before the sentinel. -/
def q_insert_tail (h : Heap) (head : Nat) (s : Option (List Nat)) (new_node : Nat)
    (buf : Option (List Nat)) : Bool × Heap :=
  if head = 0 then (false, h) else
  match s with
  | none => (false, h)
  | some s =>
    if new_node = 0 then (false, h) else
    let len : Int := wrap_int (strlen s)
    match buf with
    | none => (false, h.free new_node)
    | some buf =>
      let buf := copy_loop s (len + 1).toNat 0 buf
      let buf := buf.set len.toNat 0
      let h := h.setValue new_node buf
      (true, list_add_tail h new_node head)

/-- The loop `for (int i = 0; i <= len; i++) sp[i] = s[i];` into the caller's
memory `sp` (offset to byte), run for `n` iterations from `i`. -/
def copy_out (s : List Nat) : Nat → Nat → (Nat → Nat) → (Nat → Nat)
  | 0, _, sp => sp
  | n + 1, i, sp => copy_out s n (i + 1) (fun j => if j = i then char_at s i else sp j)

/-- The block `if (sp) { ... }` of `q_remove_head` and `q_remove_tail`: `len`
is an `int`, `bufsize` a `size_t`, the comparison `len > bufsize - 1` is made
in `size_t`. -/
def remove_copy (s : List Nat) (sp : Nat → Nat) (bufsize : Nat) : Nat → Nat :=
  let len : Int := wrap_int (strlen s)
  let len : Int :=
    if wrap_size len > wrap_size ((bufsize : Int) - 1) then
      wrap_int (wrap_size ((bufsize : Int) - 1))
    else len
  let sp := copy_out s (len + 1).toNat 0 sp
  fun j => if j = wrap_size ((bufsize : Int) - 1) then 0 else sp j

/-- The function `q_remove_head`: returns the removed element (`0` for `NULL`),
the heap and the caller's buffer (`none` when `sp` is `NULL`). -/
def q_remove_head (h : Heap) (head : Nat) (sp : Option (Nat → Nat)) (bufsize : Nat) :
    Nat × Heap × Option (Nat → Nat) :=
  if head = 0 then (0, h, sp) else
  if list_empty h head then (0, h, sp) else
  let remove := h.next head
  let h := list_del_init h (h.next head)
  match sp with
  | some sp => (remove, h, some (remove_copy (h.value remove) sp bufsize))
  | none => (remove, h, none)

/-- The function `q_remove_tail`: as `q_remove_head` on the element before the
sentinel. -/
def q_remove_tail (h : Heap) (head : Nat) (sp : Option (Nat → Nat)) (bufsize : Nat) :
    Nat × Heap × Option (Nat → Nat) :=
  if head = 0 then (0, h, sp) else
  if list_empty h head then (0, h, sp) else
  let remove := h.prev head
  let h := list_del_init h (h.prev head)
  match sp with
  | some sp => (remove, h, some (remove_copy (h.value remove) sp bufsize))
  | none => (remove, h, none)

/-- The function `q_release_element`: frees the buffer and the element. -/
def q_release_element (h : Heap) (e : Nat) : Heap := h.free e

/-- The loop `list_for_each (i, head) size++;` of `q_size`. -/
def q_size_loop (h : Heap) (head : Nat) : Nat → Nat → Int → Option Int
  | 0, _, _ => none
  | fuel + 1, i, size =>
    if i = head then some size
    else q_size_loop h head fuel (h.next i) (wrap_int (size + 1))

/-- The function `q_size`. -/
def q_size (h : Heap) (head : Nat) (fuel : Nat) : Option Int :=
  if head = 0 then some 0 else
  if list_empty h head then some 0 else
  q_size_loop h head fuel (h.next head) 0

/-- The loop of `q_delete_mid`; returns `i` when the loop is left. -/
def q_delete_mid_loop (h : Heap) (head : Nat) : Nat → Nat → Nat → Option Nat
  | 0, _, _ => none
  | fuel + 1, i, i_doubleSpeed =>
    if i = head then some i
    else if i_doubleSpeed = head ∨ h.next i_doubleSpeed = head then some i
    else q_delete_mid_loop h head fuel (h.next i) (h.next (h.next i_doubleSpeed))

/-- The function `q_delete_mid`. -/
def q_delete_mid (h : Heap) (head : Nat) (fuel : Nat) : Option (Bool × Heap) :=
  if head = 0 then some (false, h) else
  if list_empty h head then some (false, h) else
  match q_delete_mid_loop h head fuel (h.next head) (h.next head) with
  | none => none
  | some i =>
    let h := list_del h i
    some (true, q_release_element h i)

/-- The loop `list_for_each_entry_safe (i, safe, head, list)` of
`q_delete_dup`; `compare` is `none` for `NULL`. -/
def q_delete_dup_loop (head : Nat) :
    Nat → Heap → Nat → Nat → Option (List Nat) → Option Heap
  | 0, _, _, _, _ => none
  | fuel + 1, h, i, safe, compare =>
    if i = head then some h
    else if safe ≠ head then
      if strcmp (h.value i) (h.value (h.next i)) = 0 then
        let compare := some (h.value safe)
        let h := list_del h i
        let h := q_release_element h i
        q_delete_dup_loop head fuel h safe (h.next safe) compare
      else if compare.isSome then
        let h := list_del h i
        let h := q_release_element h i
        q_delete_dup_loop head fuel h safe (h.next safe) none
      else q_delete_dup_loop head fuel h safe (h.next safe) compare
    else
      if compare.isSome then
        let h := list_del h i
        let h := q_release_element h i
        q_delete_dup_loop head fuel h safe (h.next safe) none
      else q_delete_dup_loop head fuel h safe (h.next safe) compare

/-- The function `q_delete_dup`. -/
def q_delete_dup (h : Heap) (head : Nat) (fuel : Nat) : Option (Bool × Heap) :=
  if head = 0 then some (false, h) else
  match q_delete_dup_loop head fuel h (h.next head) (h.next (h.next head)) none with
  | none => none
  | some h => some (true, h)

/-- The `while` loop of `q_swap`. -/
def q_swap_loop (head : Nat) : Nat → Heap → Nat → Option Heap
  | 0, _, _ => none
  | fuel + 1, h, prev =>
    if h.next prev ≠ head ∧ h.next (h.next prev) ≠ head then
      let h := list_move h (h.next (h.next prev)) prev
      q_swap_loop head fuel h (h.next (h.next prev))
    else some h

/-- The function `q_swap`. -/
def q_swap (h : Heap) (head : Nat) (fuel : Nat) : Option Heap :=
  if head = 0 then some h else
  if list_empty h head then some h else
  q_swap_loop head fuel h head

/-- The loop `list_for_each_safe (i, safe, head)` of `q_reverse`. -/
def q_reverse_loop (head : Nat) : Nat → Heap → Nat → Nat → Option Heap
  | 0, _, _, _ => none
  | fuel + 1, h, i, safe =>
    if i = head then some h
    else
      let tmp := h.next i
      let h := h.setNext i (h.prev i)
      let h := h.setPrev i tmp
      q_reverse_loop head fuel h safe (h.next safe)

/-- The function `q_reverse`. -/
def q_reverse (h : Heap) (head : Nat) (fuel : Nat) : Option Heap :=
  if head = 0 then some h else
  if list_empty h head then some h else
  if list_is_singular h head then some h else
  match q_reverse_loop head fuel h (h.next head) (h.next (h.next head)) with
  | none => none
  | some h =>
    let tmp := h.next head
    let h := h.setNext head (h.prev head)
    some (h.setPrev head tmp)

/-- The `while (a != NULL)` loop of `merge`.  The pointer `p` always holds the
address of the `next` member of a node and is represented by that node, so
`*p = a` is `p->next = a` and `p = &((*p)->next)` moves to the node `*p`.
Returns the heap, `b` and `p` when the loop is left. -/
def merge_loop : Nat → Heap → Nat → Nat → Nat → Option (Heap × Nat × Nat)
  | 0, _, _, _, _ => none
  | fuel + 1, h, a, b, p =>
    if a ≠ 0 then
      if b = 0 then some (h, a, p)
      else if strcmp (h.value a) (h.value b) ≤ 0 then
        let h := h.setNext p a
        let p := h.next p
        merge_loop fuel h (h.next a) b p
      else
        let h := h.setNext p b
        let p := h.next p
        merge_loop fuel h a (h.next b) p
    else some (h, b, p)

/-- The part of `merge` after the first node `head` of the result is chosen:
the loop from `p = &(head->next)`, then `*p = b; return head;`. -/
def merge_from (fuel : Nat) (h : Heap) (head a b : Nat) : Option (Nat × Heap) :=
  match merge_loop fuel h a b head with
  | none => none
  | some (h, b, p) => some (head, h.setNext p b)

/-- The function `merge`. -/
def merge (fuel : Nat) (h : Heap) (a b : Nat) : Option (Nat × Heap) :=
  if a = 0 then some (b, h) else
  if b = 0 then some (a, h) else
  if strcmp (h.value a) (h.value b) ≤ 0 then merge_from fuel h a (h.next a) b
  else merge_from fuel h b a (h.next b)

/-- The slow/fast `for` loop of `merge_sort`; returns `p_speed`. -/
def merge_sort_split (h : Heap) : Nat → Nat → Nat → Option Nat
  | 0, _, _ => none
  | fuel + 1, p_speed, p_doublespeed =>
    if p_doublespeed ≠ 0 ∧ h.next p_doublespeed ≠ 0 then
      merge_sort_split h fuel (h.next p_speed) (h.next (h.next p_doublespeed))
    else some p_speed

/-- The function `merge_sort`; the fuel bounds the depth of the recursion and the loops. -/
def merge_sort : Nat → Heap → Nat → Option (Nat × Heap)
  | 0, _, _ => none
  | fuel + 1, h, first =>
    if first = 0 then some (0, h) else
    if h.next first = 0 then some (first, h) else
    match merge_sort_split h (fuel + 1) first (h.next first) with
    | none => none
    | some p_speed =>
      let p_doublespeed := h.next p_speed
      let h := h.setNext p_speed 0
      match merge_sort fuel h first with
      | none => none
      | some (p_speed, h) =>
        match merge_sort fuel h p_doublespeed with
        | none => none
        | some (p_doublespeed, h) => merge (fuel + 1) h p_speed p_doublespeed

/-- The rebuild loop of `q_sort`; returns the heap and `p` when it is left. -/
def q_sort_rebuild : Nat → Heap → Nat → Option (Heap × Nat)
  | 0, _, _ => none
  | fuel + 1, h, p =>
    if h.next p ≠ 0 then
      let h := h.setPrev (h.next p) p
      q_sort_rebuild fuel h (h.next p)
    else some (h, p)

/-- The function `q_sort`. -/
def q_sort (h : Heap) (head : Nat) (fuel : Nat) : Option Heap :=
  if head = 0 then some h else
  if list_empty h head then some h else
  if list_is_singular h head then some h else
  let h := h.setNext (h.prev head) 0
  match merge_sort fuel h (h.next head) with
  | none => none
  | some (first, h) =>
    let h := h.setNext head first
    match q_sort_rebuild fuel h head with
    | none => none
    | some (h, p) =>
      let h := h.setNext p head
      some (h.setPrev head p)

/-! ## Sequences of calls -/

/-- A call of one of the four insert and remove functions, with what the
allocator returned to it (inserts: the new element and its buffer, both
allocations succeeding) or the buffer it was given (removes). -/
inductive Op where
  | insert_head (s : List Nat) (new_node : Nat) (buf : List Nat)
  | insert_tail (s : List Nat) (new_node : Nat) (buf : List Nat)
  | remove_head (sp : Option (Nat → Nat)) (bufsize : Nat)
  | remove_tail (sp : Option (Nat → Nat)) (bufsize : Nat)

/-- Runs the calls in order on the queue `head`; returns the heap, the number of
inserts and the number of removes that returned an element. -/
def run_ops (head : Nat) : Heap → List Op → Heap × Nat × Nat
  | h, [] => (h, 0, 0)
  | h, Op.insert_head s new_node buf :: ops =>
    let r := run_ops head (q_insert_head h head (some s) new_node (some buf)).2 ops
    (r.1, r.2.1 + 1, r.2.2)
  | h, Op.insert_tail s new_node buf :: ops =>
    let r := run_ops head (q_insert_tail h head (some s) new_node (some buf)).2 ops
    (r.1, r.2.1 + 1, r.2.2)
  | h, Op.remove_head sp bufsize :: ops =>
    let e := q_remove_head h head sp bufsize
    let r := run_ops head e.2.1 ops
    (r.1, r.2.1, r.2.2 + if e.1 = 0 then 0 else 1)
  | h, Op.remove_tail sp bufsize :: ops =>
    let e := q_remove_tail h head sp bufsize
    let r := run_ops head e.2.1 ops
    (r.1, r.2.1, r.2.2 + if e.1 = 0 then 0 else 1)

/-- The allocator contract along a sequence of calls on a queue whose elements
are `l`: the element an insert receives is not `NULL` and is not a node of the
queue at that moment. -/
def AllocOk (head : Nat) : List Nat → List Op → Prop
  | _, [] => True
  | l, Op.insert_head _ new_node _ :: ops =>
    new_node ≠ 0 ∧ new_node ∉ head :: l ∧ AllocOk head (new_node :: l) ops
  | l, Op.insert_tail _ new_node _ :: ops =>
    new_node ≠ 0 ∧ new_node ∉ head :: l ∧ AllocOk head (l ++ [new_node]) ops
  | l, Op.remove_head _ _ :: ops => AllocOk head l.tail ops
  | l, Op.remove_tail _ _ :: ops => AllocOk head l.dropLast ops

instance AllocOk.decide (head : Nat) : (l : List Nat) → (ops : List Op) →
    Decidable (AllocOk head l ops)
  | _, [] => inferInstanceAs (Decidable True)
  | l, Op.insert_head _ new_node _ :: ops =>
    have := AllocOk.decide head (new_node :: l) ops
    inferInstanceAs (Decidable (new_node ≠ 0 ∧ new_node ∉ head :: l ∧ _))
  | l, Op.insert_tail _ new_node _ :: ops =>
    have := AllocOk.decide head (l ++ [new_node]) ops
    inferInstanceAs (Decidable (new_node ≠ 0 ∧ new_node ∉ head :: l ∧ _))
  | l, Op.remove_head _ _ :: ops => AllocOk.decide head l.tail ops
  | l, Op.remove_tail _ _ :: ops => AllocOk.decide head l.dropLast ops

/-- Inserts strings at the tail in order, one `q_insert_tail` per item; an item
is the string, and the element and the buffer the allocator returns for it. -/
def insert_tail_all (head : Nat) : Heap → List (List Nat × Nat × List Nat) → Heap
  | h, [] => h
  | h, (s, new_node, buf) :: items =>
    insert_tail_all head (q_insert_tail h head (some s) new_node (some buf)).2 items

/-- Calls `q_remove_head` (without a buffer) `n` times; returns, call by call,
the element returned with the string it holds, and the heap after the calls. -/
def remove_head_all (head : Nat) : Nat → Heap → List (Nat × List Nat) × Heap
  | 0, h => ([], h)
  | n + 1, h =>
    let r := q_remove_head h head none 0
    let rest := remove_head_all head n r.2.1
    ((r.1, cstr (r.2.1.value r.1)) :: rest.1, rest.2)

/-! ## Rings -/

/-- The pointer `p` leads through exactly the nodes `l`, following `f`, and
then holds `q`. -/
def Seg (f : Nat → Nat) : Nat → List Nat → Nat → Prop
  | p, [], q => p = q
  | p, x :: xs, q => p = x ∧ Seg f (f x) xs q

instance Seg.decide (f : Nat → Nat) : (p : Nat) → (l : List Nat) → (q : Nat) →
    Decidable (Seg f p l q)
  | p, [], q => inferInstanceAs (Decidable (p = q))
  | p, x :: xs, q =>
    have := Seg.decide f (f x) xs q
    inferInstanceAs (Decidable (p = x ∧ Seg f (f x) xs q))

/-- The first node of `l`, or `d` when `l` is empty. -/
def first_or (d : Nat) : List Nat → Nat
  | [] => d
  | x :: _ => x

/-- The last node of `l`, or `d` when `l` is empty. -/
def last_or (d : Nat) : List Nat → Nat
  | [] => d
  | x :: xs => last_or x xs

/-- The node at position `j` of `l`, or `d` beyond the end of `l`. -/
def nth_or (d : Nat) : List Nat → Nat → Nat
  | [], _ => d
  | x :: _, 0 => x
  | _ :: xs, j + 1 => nth_or d xs j

/-- The list with every two adjacent positions `2k`, `2k + 1` exchanged. -/
def swap_pairs : List Nat → List Nat
  | a :: b :: rest => b :: a :: swap_pairs rest
  | [a] => [a]
  | [] => []

/-- The test `strcmp(x->value, y->value) == 0` of `q_delete_dup`. -/
def eq_value (h : Heap) (x y : Nat) : Bool := strcmp (h.value x) (h.value y) = 0

/-- The elements the loop of `q_delete_dup` keeps of the remaining elements,
`flag` telling whether `compare` is set: an element goes when it equals its
successor or when `compare` is set. -/
def dedup_from (eq : Nat → Nat → Bool) : Bool → List Nat → List Nat
  | _, [] => []
  | flag, [x] => if flag then [] else [x]
  | flag, x :: y :: rest =>
    if eq x y then dedup_from eq true (y :: rest)
    else if flag then dedup_from eq false (y :: rest)
    else x :: dedup_from eq false (y :: rest)

/-- The heap holds a well-formed ring with sentinel `head` whose elements are,
read forward from the sentinel, the nodes `l`: following `next` from the
sentinel leads through `l` back to the sentinel, following `prev` leads through
`l` backwards, and the nodes are distinct and not `NULL`. -/
def Ring (h : Heap) (head : Nat) (l : List Nat) : Prop :=
  head ≠ 0 ∧ 0 ∉ l ∧ (head :: l).Nodup ∧
    Seg h.next (h.next head) l head ∧ Seg h.prev (h.prev head) l.reverse head

instance Ring.decide (h : Heap) (head : Nat) (l : List Nat) : Decidable (Ring h head l) :=
  inferInstanceAs (Decidable (_ ∧ _ ∧ _ ∧ _ ∧ _))

/-- The pointwise ring invariant: every node `n` of the ring, sentinel
included, has `n.next.prev == n` and `n.prev.next == n`. -/
def LinkInv (h : Heap) (head : Nat) (l : List Nat) : Prop :=
  ∀ n ∈ head :: l, h.prev (h.next n) = n ∧ h.next (h.prev n) = n

/-- Ring well-formedness as the links state it: no node is `NULL`, every node
`n`, sentinel included, has `n.next.prev == n` and `n.prev.next == n`, and
following `next` from the sentinel leads through the elements `l` and returns
to the sentinel, which is met only there. -/
def RingInv (h : Heap) (head : Nat) (l : List Nat) : Prop :=
  head ≠ 0 ∧ 0 ∉ l ∧ head ∉ l ∧ LinkInv h head l ∧ Seg h.next (h.next head) l head

instance LinkInv.decide (h : Heap) (head : Nat) (l : List Nat) :
    Decidable (LinkInv h head l) :=
  inferInstanceAs (Decidable (∀ n ∈ head :: l, _))

instance RingInv.decide (h : Heap) (head : Nat) (l : List Nat) :
    Decidable (RingInv h head l) :=
  inferInstanceAs (Decidable (_ ∧ _ ∧ _ ∧ _ ∧ _))

/-- The order of `q_sort`: `strcmp(x->value, y->value) <= 0`. -/
def le_value (h : Heap) (x y : Nat) : Bool := strcmp (h.value x) (h.value y) ≤ 0

/-- Walks `next` from `i` to the sentinel and collects the nodes met. -/
def ring_nodes (h : Heap) (head : Nat) : Nat → Nat → Option (List Nat)
  | 0, _ => none
  | fuel + 1, i =>
    if i = head then some []
    else (ring_nodes h head fuel (h.next i)).map (fun l => i :: l)

/-- What the remove functions promise about the caller's buffer: `out` holds
the first `min len (bufsize - 1)` bytes of the string `s`, a terminator right
after them, the whole string when it fits (`len <= bufsize - 1`), and the bytes
of `sp` at every offset from `bufsize` on. -/
def TruncatedCopy (s : List Nat) (bufsize : Nat) (sp out : Nat → Nat) : Prop :=
  (∀ i, i < min (strlen s) (bufsize - 1) → out i = char_at s i) ∧
  out (min (strlen s) (bufsize - 1)) = 0 ∧
  (strlen s ≤ bufsize - 1 → ∀ i, i ≤ strlen s → out i = char_at s i) ∧
  (∀ i, bufsize ≤ i → out i = sp i)

/-! ## Concrete queues -/

/-- The memory before anything is allocated. -/
def Heap.empty : Heap := ⟨fun _ => 0, fun _ => 0, fun _ => [], []⟩

/-- The queue built by `q_new` (sentinel at address `1`) and one `q_insert_tail`
per string of `strs`, the elements allocated at the addresses `2`, `3`, ... -/
def queue_of (strs : List (List Nat)) : Heap :=
  (strs.foldl
    (fun (p : Heap × Nat) s =>
      ((q_insert_tail p.1 1 (some s) p.2 (some (List.replicate (strlen s + 1) 85))).2,
        p.2 + 1))
    ((q_new Heap.empty 1).2, 2)).1

/-- The string "banana". -/
def banana : List Nat := [98, 97, 110, 97, 110, 97]

/-- The string "apple". -/
def apple : List Nat := [97, 112, 112, 108, 101]

/-- The string "cherry". -/
def cherry : List Nat := [99, 104, 101, 114, 114, 121]

/-- The strings of the elements of the queue, read forward from the sentinel. -/
def q_strings (h : Heap) (head : Nat) (fuel : Nat) : Option (List (List Nat)) :=
  (ring_nodes h head fuel (h.next head)).map (fun l => l.map (fun x => cstr (h.value x)))

/-! ## Queues built by calls -/

/-- A call of one of the queue functions on a queue made by `q_new`, with what
the allocator returned to it (inserts: the new element and its buffer, both
allocations succeeding) or the buffer it was given (removes). -/
inductive Call where
  | insert_head (s : List Nat) (new_node : Nat) (buf : List Nat)
  | insert_tail (s : List Nat) (new_node : Nat) (buf : List Nat)
  | remove_head (sp : Option (Nat → Nat)) (bufsize : Nat)
  | remove_tail (sp : Option (Nat → Nat)) (bufsize : Nat)
  | delete_mid
  | delete_dup
  | swap
  | reverse
  | sort

/-- The heap after one call on the queue `head` (`none` when a loop runs out of
fuel). -/
def run_call (head fuel : Nat) (h : Heap) : Call → Option Heap
  | Call.insert_head s new_node buf =>
    some (q_insert_head h head (some s) new_node (some buf)).2
  | Call.insert_tail s new_node buf =>
    some (q_insert_tail h head (some s) new_node (some buf)).2
  | Call.remove_head sp bufsize => some (q_remove_head h head sp bufsize).2.1
  | Call.remove_tail sp bufsize => some (q_remove_tail h head sp bufsize).2.1
  | Call.delete_mid => (q_delete_mid h head fuel).map (fun r => r.2)
  | Call.delete_dup => (q_delete_dup h head fuel).map (fun r => r.2)
  | Call.swap => q_swap h head fuel
  | Call.reverse => q_reverse h head fuel
  | Call.sort => q_sort h head fuel

/-- The heap after the calls, made in order on the queue `head`. -/
def run_calls (head fuel : Nat) : Heap → List Call → Option Heap
  | h, [] => some h
  | h, c :: cs =>
    match run_call head fuel h c with
    | none => none
    | some h => run_calls head fuel h cs

/-- The allocator contract for the element of an insert: `malloc` returns an
address that is not `NULL` and is no node of the queue at that moment. -/
def FreshNode (h : Heap) (head fuel new_node : Nat) : Prop :=
  new_node ≠ 0 ∧ new_node ≠ head ∧
    new_node ∉ (ring_nodes h head fuel (h.next head)).getD []

instance FreshNode.decide (h : Heap) (head fuel new_node : Nat) :
    Decidable (FreshNode h head fuel new_node) :=
  inferInstanceAs (Decidable (_ ∧ _ ∧ _))

/-- The allocator contract for the buffer of an insert: `malloc(len + 1)`
returns a block of the number of bytes asked for, which is the `int` `len + 1`
converted to `size_t`, and no block has more than `PTRDIFF_MAX` bytes. -/
def BufOk (s buf : List Nat) : Prop :=
  buf.length = wrap_size (wrap_int (wrap_int (strlen s) + 1)) ∧
    buf.length ≤ 9223372036854775807

instance BufOk.decide (s buf : List Nat) : Decidable (BufOk s buf) :=
  inferInstanceAs (Decidable (_ ∧ _))

/-- The allocator contract for one call: the inserts receive a fresh element
and a buffer of the size they ask for. -/
def CallOk (head fuel : Nat) (h : Heap) : Call → Prop
  | Call.insert_head s new_node buf => FreshNode h head fuel new_node ∧ BufOk s buf
  | Call.insert_tail s new_node buf => FreshNode h head fuel new_node ∧ BufOk s buf
  | _ => True

instance CallOk.decide (head fuel : Nat) (h : Heap) : (c : Call) →
    Decidable (CallOk head fuel h c)
  | Call.insert_head s new_node buf =>
    inferInstanceAs (Decidable (FreshNode h head fuel new_node ∧ BufOk s buf))
  | Call.insert_tail s new_node buf =>
    inferInstanceAs (Decidable (FreshNode h head fuel new_node ∧ BufOk s buf))
  | Call.remove_head _ _ => inferInstanceAs (Decidable True)
  | Call.remove_tail _ _ => inferInstanceAs (Decidable True)
  | Call.delete_mid => inferInstanceAs (Decidable True)
  | Call.delete_dup => inferInstanceAs (Decidable True)
  | Call.swap => inferInstanceAs (Decidable True)
  | Call.reverse => inferInstanceAs (Decidable True)
  | Call.sort => inferInstanceAs (Decidable True)

/-- The allocator contract along a sequence of calls, each call judged on the
heap it is made on. -/
def CallsOk (head fuel : Nat) : Heap → List Call → Prop
  | _, [] => True
  | h, c :: cs =>
    CallOk head fuel h c ∧
      match run_call head fuel h c with
      | none => True
      | some h => CallsOk head fuel h cs

instance CallsOk.decide (head fuel : Nat) : (h : Heap) → (cs : List Call) →
    Decidable (CallsOk head fuel h cs)
  | _, [] => inferInstanceAs (Decidable True)
  | h, c :: cs =>
    have : Decidable (match run_call head fuel h c with
        | none => True
        | some h => CallsOk head fuel h cs) :=
      match run_call head fuel h c with
      | none => inferInstanceAs (Decidable True)
      | some h => CallsOk.decide head fuel h cs
    inferInstanceAs (Decidable (CallOk head fuel h c ∧ _))

/-- A string of `2^32 + 1` bytes `A`; its length, converted to `int`, is `1`. -/
def long_string : List Nat := List.replicate 4294967297 65

/-! # Verification -/

/-! ## Heap updates -/

@[simp] theorem setNext_next (h : Heap) (a v x : Nat) :
    (h.setNext a v).next x = if x = a then v else h.next x := rfl
@[simp] theorem setNext_prev (h : Heap) (a v : Nat) : (h.setNext a v).prev = h.prev := rfl
@[simp] theorem setNext_value (h : Heap) (a v : Nat) : (h.setNext a v).value = h.value := rfl
@[simp] theorem setNext_freed (h : Heap) (a v : Nat) : (h.setNext a v).freed = h.freed := rfl
@[simp] theorem setPrev_prev (h : Heap) (a v x : Nat) :
    (h.setPrev a v).prev x = if x = a then v else h.prev x := rfl
@[simp] theorem setPrev_next (h : Heap) (a v : Nat) : (h.setPrev a v).next = h.next := rfl
@[simp] theorem setPrev_value (h : Heap) (a v : Nat) : (h.setPrev a v).value = h.value := rfl
@[simp] theorem setPrev_freed (h : Heap) (a v : Nat) : (h.setPrev a v).freed = h.freed := rfl
@[simp] theorem setValue_value (h : Heap) (a : Nat) (b : List Nat) (x : Nat) :
    (h.setValue a b).value x = if x = a then b else h.value x := rfl
@[simp] theorem setValue_next (h : Heap) (a : Nat) (b : List Nat) :
    (h.setValue a b).next = h.next := rfl
@[simp] theorem setValue_prev (h : Heap) (a : Nat) (b : List Nat) :
    (h.setValue a b).prev = h.prev := rfl
@[simp] theorem setValue_freed (h : Heap) (a : Nat) (b : List Nat) :
    (h.setValue a b).freed = h.freed := rfl
@[simp] theorem free_next (h : Heap) (a : Nat) : (h.free a).next = h.next := rfl
@[simp] theorem free_prev (h : Heap) (a : Nat) : (h.free a).prev = h.prev := rfl
@[simp] theorem free_value (h : Heap) (a : Nat) : (h.free a).value = h.value := rfl
@[simp] theorem free_freed (h : Heap) (a : Nat) : (h.free a).freed = a :: h.freed := rfl

/-! ## Segments -/

@[simp] theorem Seg_nil (f : Nat → Nat) (p q : Nat) : Seg f p [] q ↔ p = q := Iff.rfl

@[simp] theorem Seg_cons (f : Nat → Nat) (p x q : Nat) (xs : List Nat) :
    Seg f p (x :: xs) q ↔ p = x ∧ Seg f (f x) xs q := Iff.rfl

theorem Seg_append (f : Nat → Nat) (l2 : List Nat) (q : Nat) :
    ∀ (l1 : List Nat) (p : Nat),
      Seg f p (l1 ++ l2) q ↔ ∃ m, Seg f p l1 m ∧ Seg f m l2 q
  | [], p => by simp
  | x :: xs, p => by
    simp only [List.cons_append, Seg_cons, Seg_append f l2 q xs (f x)]
    constructor
    · rintro ⟨h1, m, h2, h3⟩
      exact ⟨m, ⟨h1, h2⟩, h3⟩
    · rintro ⟨m, ⟨h1, h2⟩, h3⟩
      exact ⟨h1, m, h2, h3⟩

theorem Seg_snoc (f : Nat → Nat) (l : List Nat) (p x q : Nat) :
    Seg f p (l ++ [x]) q ↔ Seg f p l x ∧ f x = q := by
  rw [Seg_append]
  constructor
  · rintro ⟨m, h1, h2, h3⟩
    subst h2
    exact ⟨h1, h3⟩
  · rintro ⟨h1, h3⟩
    exact ⟨x, h1, rfl, h3⟩

theorem Seg_middle (f : Nat → Nat) (l1 l2 : List Nat) (p x q : Nat) :
    Seg f p (l1 ++ x :: l2) q ↔ Seg f p l1 x ∧ Seg f (f x) l2 q := by
  rw [Seg_append]
  constructor
  · rintro ⟨m, h1, h2, h3⟩
    subst h2
    exact ⟨h1, h3⟩
  · rintro ⟨h1, h3⟩
    exact ⟨x, h1, rfl, h3⟩

theorem Seg_congr {f g : Nat → Nat} :
    ∀ (l : List Nat) (p q : Nat), (∀ x ∈ l, f x = g x) → (Seg f p l q ↔ Seg g p l q)
  | [], _, _, _ => Iff.rfl
  | x :: xs, p, q, hfg => by
    have hx : f x = g x := hfg x (List.mem_cons_self _ _)
    have ih := Seg_congr xs (f x) q (fun y hy => hfg y (List.mem_cons_of_mem _ hy))
    simp only [Seg_cons, ih]
    rw [hx]

theorem Seg_start {f : Nat → Nat} {l : List Nat} {p q : Nat} (hs : Seg f p l q) :
    p = first_or q l := by
  cases l with
  | nil => exact hs
  | cons x xs => exact hs.1

@[simp] theorem first_or_nil (d : Nat) : first_or d [] = d := rfl
@[simp] theorem first_or_cons (d x : Nat) (xs : List Nat) : first_or d (x :: xs) = x := rfl
@[simp] theorem last_or_nil (d : Nat) : last_or d [] = d := rfl
@[simp] theorem last_or_cons (d x : Nat) (xs : List Nat) :
    last_or d (x :: xs) = last_or x xs := rfl

@[simp] theorem last_or_snoc : ∀ (l : List Nat) (d x : Nat), last_or d (l ++ [x]) = x
  | [], _, _ => rfl
  | y :: l, _, x => by simp [last_or_snoc l y x]

theorem last_or_append_cons : ∀ (l1 l2 : List Nat) (d x : Nat),
    last_or d (l1 ++ x :: l2) = last_or x l2
  | [], _, _, _ => rfl
  | y :: l1, l2, _, x => by simp [last_or_append_cons l1 l2 y x]

theorem first_or_append_cons (l1 l2 : List Nat) (d x : Nat) :
    first_or d (l1 ++ x :: l2) = first_or x l1 := by
  cases l1 <;> rfl

/-- The forward and the backward description of a list end agree. -/
theorem last_or_reverse (l : List Nat) (d : Nat) : last_or d l.reverse = first_or d l := by
  cases l with
  | nil => rfl
  | cons x xs => simp

theorem first_or_reverse (l : List Nat) (d : Nat) : first_or d l.reverse = last_or d l := by
  have := last_or_reverse l.reverse d
  rw [List.reverse_reverse] at this
  exact this.symm

theorem last_or_mem : ∀ (l : List Nat) (d : Nat), last_or d l ∈ d :: l
  | [], d => by simp
  | x :: xs, d => by
    have := last_or_mem xs x
    simp only [last_or_cons, List.mem_cons] at this ⊢
    rcases this with h | h
    · exact Or.inr (Or.inl h)
    · exact Or.inr (Or.inr h)

theorem first_or_mem (l : List Nat) (d : Nat) : first_or d l ∈ d :: l := by
  cases l <;> simp

/-- Unlinking a node of a cycle: any `g` that sends the predecessor of `x` to
the successor of `x` and agrees with `f` away from the predecessor and `x`
describes the cycle without `x`. -/
theorem Seg_unlink {f g : Nat → Nat} (x q : Nat) (l2 : List Nat) :
    ∀ (l1 : List Nat) (a : Nat),
      Seg f (f a) (l1 ++ x :: l2) q → (a :: (l1 ++ x :: l2)).Nodup →
      g (last_or a l1) = f x →
      (∀ y, y ≠ last_or a l1 → y ≠ x → g y = f y) →
      Seg g (g a) (l1 ++ l2) q
  | [], a, hs, hnd, hp, hg => by
    simp only [List.nil_append, Seg_cons, last_or_nil] at hs hp hg ⊢
    rw [hp]
    simp only [List.nil_append, List.nodup_cons, List.mem_cons, not_or] at hnd
    refine (Seg_congr l2 (f x) q ?_).1 hs.2
    intro y hy
    refine (hg y ?_ ?_).symm
    · rintro rfl; exact hnd.1.2 hy
    · rintro rfl; exact hnd.2.1 hy
  | y :: l1, a, hs, hnd, hp, hg => by
    simp only [List.cons_append, Seg_cons, last_or_cons] at hs hp hg ⊢
    have hnd2 : (y :: (l1 ++ x :: l2)).Nodup := (List.nodup_cons.1 hnd).2
    have hmem : last_or y l1 ∈ y :: l1 := last_or_mem l1 y
    have ha : a ∉ y :: (l1 ++ x :: l2) := (List.nodup_cons.1 hnd).1
    have ha1 : a ≠ last_or y l1 := by
      intro e
      apply ha
      rw [← e] at hmem
      simp only [List.mem_cons, List.mem_append] at hmem ⊢
      rcases hmem with h | h
      · exact Or.inl h
      · exact Or.inr (Or.inl h)
    have ha2 : a ≠ x := by
      rintro rfl
      apply ha
      simp
    rw [hg a ha1 ha2]
    exact ⟨hs.1, Seg_unlink x q l2 l1 y hs.2 hnd2 hp hg⟩

/-- Linking a fresh node `x` into a cycle after the node `p`: any `g` that
sends `p` to `x`, `x` to the old successor of `p`, and agrees with `f`
elsewhere describes the cycle with `x` inserted. -/
theorem Seg_link {f g : Nat → Nat} (x q : Nat) (l2 : List Nat) :
    ∀ (l1 : List Nat) (a : Nat),
      Seg f (f a) (l1 ++ l2) q → x ∉ a :: (l1 ++ l2) → (a :: (l1 ++ l2)).Nodup →
      g (last_or a l1) = x → g x = f (last_or a l1) →
      (∀ y, y ≠ last_or a l1 → y ≠ x → g y = f y) →
      Seg g (g a) (l1 ++ x :: l2) q
  | [], a, hs, hx, hnd, hp, hgx, hg => by
    simp only [List.nil_append, Seg_cons, last_or_nil] at hs hp hgx hg ⊢
    refine ⟨hp, ?_⟩
    rw [hgx]
    simp only [List.nil_append, List.mem_cons, not_or, List.nodup_cons] at hx hnd
    refine (Seg_congr l2 (f a) q ?_).1 hs
    intro y hy
    refine (hg y ?_ ?_).symm
    · rintro rfl; exact hnd.1 hy
    · rintro rfl; exact hx.2 hy
  | y :: l1, a, hs, hx, hnd, hp, hgx, hg => by
    simp only [List.cons_append, Seg_cons, last_or_cons] at hs hp hgx hg ⊢
    have hnd2 : (y :: (l1 ++ l2)).Nodup := (List.nodup_cons.1 hnd).2
    have hmem : last_or y l1 ∈ y :: l1 := last_or_mem l1 y
    have ha : a ∉ y :: (l1 ++ l2) := (List.nodup_cons.1 hnd).1
    have ha1 : a ≠ last_or y l1 := by
      intro e
      apply ha
      rw [← e] at hmem
      simp only [List.mem_cons, List.mem_append] at hmem ⊢
      rcases hmem with h | h
      · exact Or.inl h
      · exact Or.inr (Or.inl h)
    have ha2 : a ≠ x := by
      rintro rfl
      apply hx
      simp
    have hx2 : x ∉ y :: (l1 ++ l2) := fun hm => hx (List.mem_cons_of_mem _ hm)
    rw [hg a ha1 ha2]
    exact ⟨hs.1, Seg_link x q l2 l1 y hs.2 hx2 hnd2 hp hgx hg⟩

/-! ## Rings: reading the links -/

theorem Ring.head_ne {h : Heap} {head : Nat} {l : List Nat} (hr : Ring h head l) :
    head ≠ 0 := hr.1

theorem Ring.zero_nmem {h : Heap} {head : Nat} {l : List Nat} (hr : Ring h head l) :
    0 ∉ l := hr.2.1

theorem Ring.nodup {h : Heap} {head : Nat} {l : List Nat} (hr : Ring h head l) :
    (head :: l).Nodup := hr.2.2.1

theorem Ring.head_nmem {h : Heap} {head : Nat} {l : List Nat} (hr : Ring h head l) :
    head ∉ l := (List.nodup_cons.1 hr.nodup).1

theorem Ring.nodup_nodes {h : Heap} {head : Nat} {l : List Nat} (hr : Ring h head l) :
    l.Nodup := (List.nodup_cons.1 hr.nodup).2

theorem Ring.fwd {h : Heap} {head : Nat} {l : List Nat} (hr : Ring h head l) :
    Seg h.next (h.next head) l head := hr.2.2.2.1

theorem Ring.bwd {h : Heap} {head : Nat} {l : List Nat} (hr : Ring h head l) :
    Seg h.prev (h.prev head) l.reverse head := hr.2.2.2.2

theorem Ring.next_head {h : Heap} {head : Nat} {l : List Nat} (hr : Ring h head l) :
    h.next head = first_or head l := Seg_start hr.fwd

theorem Ring.prev_head {h : Heap} {head : Nat} {l : List Nat} (hr : Ring h head l) :
    h.prev head = last_or head l := by
  rw [Seg_start hr.bwd, first_or_reverse]

theorem Ring.next_mid {h : Heap} {head : Nat} {l1 l2 : List Nat} {x : Nat}
    (hr : Ring h head (l1 ++ x :: l2)) : h.next x = first_or head l2 :=
  Seg_start ((Seg_middle _ _ _ _ _ _).1 hr.fwd).2

theorem Ring.prev_mid {h : Heap} {head : Nat} {l1 l2 : List Nat} {x : Nat}
    (hr : Ring h head (l1 ++ x :: l2)) : h.prev x = last_or head l1 := by
  have hb := hr.bwd
  rw [List.reverse_append, List.reverse_cons, List.append_assoc, List.singleton_append,
    Seg_middle] at hb
  rw [Seg_start hb.2, first_or_reverse]

theorem Ring.mem_ne_zero {h : Heap} {head : Nat} {l : List Nat} (hr : Ring h head l)
    {x : Nat} (hx : x ∈ l) : x ≠ 0 := by
  rintro rfl
  exact hr.zero_nmem hx

theorem Ring.mem_ne_head {h : Heap} {head : Nat} {l : List Nat} (hr : Ring h head l)
    {x : Nat} (hx : x ∈ l) : x ≠ head := by
  rintro rfl
  exact hr.head_nmem hx

/-- A ring is empty exactly when the sentinel points to itself. -/
theorem Ring.list_empty_iff {h : Heap} {head : Nat} {l : List Nat} (hr : Ring h head l) :
    list_empty h head = true ↔ l = [] := by
  unfold list_empty
  rw [hr.next_head]
  cases l with
  | nil => simp
  | cons x xs =>
    have := hr.mem_ne_head (List.mem_cons_self x xs)
    simp [this]

/-- The ring determines the list of its elements. -/
theorem Seg_unique {f : Nat → Nat} {q : Nat} :
    ∀ (l l' : List Nat) (p : Nat), Seg f p l q → Seg f p l' q → q ∉ l → q ∉ l' → l = l'
  | [], [], _, _, _, _, _ => rfl
  | [], y :: ys, p, h1, h2, _, hq => by
    simp only [Seg_nil, Seg_cons] at h1 h2
    exfalso
    apply hq
    rw [← h1, h2.1]
    simp
  | x :: xs, [], p, h1, h2, hq, _ => by
    simp only [Seg_nil, Seg_cons] at h1 h2
    exfalso
    apply hq
    rw [← h2, h1.1]
    simp
  | x :: xs, y :: ys, p, h1, h2, hq, hq' => by
    simp only [Seg_cons] at h1 h2
    have hxy : x = y := h1.1.symm.trans h2.1
    subst hxy
    have := Seg_unique xs ys (f x) h1.2 h2.2 (fun hm => hq (List.mem_cons_of_mem _ hm))
      (fun hm => hq' (List.mem_cons_of_mem _ hm))
    rw [this]

theorem Ring.unique {h : Heap} {head : Nat} {l l' : List Nat} (hr : Ring h head l)
    (hr' : Ring h head l') : l = l' :=
  Seg_unique l l' _ hr.fwd hr'.fwd hr.head_nmem hr'.head_nmem

/-- A ring only depends on the links of its nodes. -/
theorem Ring.congr {h h' : Heap} {head : Nat} {l : List Nat} (hr : Ring h head l)
    (hn : ∀ x ∈ head :: l, h'.next x = h.next x)
    (hp : ∀ x ∈ head :: l, h'.prev x = h.prev x) : Ring h' head l := by
  refine ⟨hr.1, hr.2.1, hr.2.2.1, ?_, ?_⟩
  · rw [hn head (List.mem_cons_self _ _)]
    exact (Seg_congr l _ _ (fun x hx => (hn x (List.mem_cons_of_mem _ hx)).symm)).1 hr.fwd
  · rw [hp head (List.mem_cons_self _ _)]
    refine (Seg_congr l.reverse _ _ (fun x hx => (hp x ?_).symm)).1 hr.bwd
    exact List.mem_cons_of_mem _ (List.mem_reverse.1 hx)

/-! ## Rings: unlinking and linking a node -/

/-- Unlinking, in terms of the links after the operation. -/
theorem Ring.unlink {h h' : Heap} {head x : Nat} {l1 l2 : List Nat}
    (hr : Ring h head (l1 ++ x :: l2))
    (hn1 : h'.next (last_or head l1) = first_or head l2)
    (hn2 : ∀ y, y ≠ last_or head l1 → y ≠ x → h'.next y = h.next y)
    (hp1 : h'.prev (first_or head l2) = last_or head l1)
    (hp2 : ∀ y, y ≠ first_or head l2 → y ≠ x → h'.prev y = h.prev y) :
    Ring h' head (l1 ++ l2) := by
  have hnd := hr.nodup
  refine ⟨hr.1, ?_, ?_, ?_, ?_⟩
  · intro hm
    apply hr.zero_nmem
    simp only [List.mem_append, List.mem_cons] at hm ⊢
    tauto
  · refine List.Nodup.sublist ?_ hnd
    exact List.Sublist.cons₂ _ (List.Sublist.append_left (List.sublist_cons_self _ _) _)
  · refine Seg_unlink x head l2 l1 head hr.fwd hnd ?_ hn2
    rw [hn1, hr.next_mid]
  · have hb := hr.bwd
    rw [List.reverse_append, List.reverse_cons, List.append_assoc, List.singleton_append] at hb
    rw [List.reverse_append]
    have hnd' : (head :: (l2.reverse ++ x :: l1.reverse)).Nodup := by
      refine (List.Perm.nodup_iff ?_).2 hnd
      refine List.Perm.cons _ ?_
      have := (List.reverse_perm (l1 ++ x :: l2))
      rw [List.reverse_append, List.reverse_cons, List.append_assoc,
        List.singleton_append] at this
      exact this
    refine Seg_unlink x head l1.reverse l2.reverse head hb hnd' ?_ ?_
    · rw [last_or_reverse, hp1, hr.prev_mid]
    · intro y hy1 hy2
      rw [last_or_reverse] at hy1
      exact hp2 y hy1 hy2

/-- Linking, in terms of the links after the operation. -/
theorem Ring.link {h h' : Heap} {head x : Nat} {l1 l2 : List Nat}
    (hr : Ring h head (l1 ++ l2)) (hx0 : x ≠ 0) (hx : x ∉ head :: (l1 ++ l2))
    (hn1 : h'.next (last_or head l1) = x) (hn2 : h'.next x = first_or head l2)
    (hn3 : ∀ y, y ≠ last_or head l1 → y ≠ x → h'.next y = h.next y)
    (hp1 : h'.prev (first_or head l2) = x) (hp2 : h'.prev x = last_or head l1)
    (hp3 : ∀ y, y ≠ first_or head l2 → y ≠ x → h'.prev y = h.prev y) :
    Ring h' head (l1 ++ x :: l2) := by
  have hnd := hr.nodup
  have hfwd := hr.fwd
  have hnext : h.next (last_or head l1) = first_or head l2 := by
    rcases List.eq_nil_or_concat l1 with rfl | ⟨l1', z, rfl⟩
    · simpa using hr.next_head
    · rw [List.concat_eq_append, List.append_assoc, List.singleton_append] at hr
      simpa using hr.next_mid
  have hprev : h.prev (first_or head l2) = last_or head l1 := by
    cases l2 with
    | nil => simpa using hr.prev_head
    | cons z l2' => simpa using hr.prev_mid
  refine ⟨hr.1, ?_, ?_, ?_, ?_⟩
  · intro hm
    simp only [List.mem_append, List.mem_cons] at hm
    rcases hm with hm | hm | hm
    · exact hr.zero_nmem (List.mem_append_left _ hm)
    · exact hx0 hm.symm
    · exact hr.zero_nmem (List.mem_append_right _ hm)
  · refine (List.Perm.nodup_iff (List.Perm.cons _ List.perm_middle)).2 ?_
    refine (List.Perm.nodup_iff (List.Perm.swap _ _ _)).2 ?_
    exact List.nodup_cons.2 ⟨hx, hnd⟩
  · exact Seg_link x head l2 l1 head hfwd hx hnd hn1 (hn2.trans hnext.symm) hn3
  · have hb := hr.bwd
    rw [List.reverse_append] at hb
    rw [List.reverse_append, List.reverse_cons, List.append_assoc, List.singleton_append]
    have hx' : x ∉ head :: (l2.reverse ++ l1.reverse) := by
      intro hm
      apply hx
      simp only [List.mem_cons, List.mem_append, List.mem_reverse] at hm ⊢
      tauto
    have hnd' : (head :: (l2.reverse ++ l1.reverse)).Nodup := by
      refine (List.Perm.nodup_iff ?_).2 hnd
      refine List.Perm.cons _ ?_
      have := (List.reverse_perm (l1 ++ l2))
      rw [List.reverse_append] at this
      exact this
    refine Seg_link x head l1.reverse l2.reverse head hb hx' hnd' ?_ ?_ ?_
    · rw [last_or_reverse, hp1]
    · rw [last_or_reverse, hp2, hprev]
    · intro y hy1 hy2
      rw [last_or_reverse] at hy1
      exact hp3 y hy1 hy2

/-! ## The list primitives on rings -/

theorem list_del_next (h : Heap) (x y : Nat) :
    (list_del h x).next y = if y = h.prev x then h.next x else h.next y := rfl

theorem list_del_prev (h : Heap) (x y : Nat) :
    (list_del h x).prev y = if y = h.next x then h.prev x else h.prev y := rfl

@[simp] theorem list_del_value (h : Heap) (x : Nat) : (list_del h x).value = h.value := rfl

@[simp] theorem list_del_freed (h : Heap) (x : Nat) : (list_del h x).freed = h.freed := rfl

theorem list_del_init_next (h : Heap) (x y : Nat) :
    (list_del_init h x).next y =
      if y = x then x else if y = h.prev x then h.next x else h.next y := rfl

theorem list_del_init_prev (h : Heap) (x y : Nat) :
    (list_del_init h x).prev y =
      if y = x then x else if y = h.next x then h.prev x else h.prev y := rfl

@[simp] theorem list_del_init_value (h : Heap) (x : Nat) :
    (list_del_init h x).value = h.value := rfl

@[simp] theorem list_del_init_freed (h : Heap) (x : Nat) :
    (list_del_init h x).freed = h.freed := rfl

theorem list_add_next (h : Heap) (x d y : Nat) :
    (list_add h x d).next y =
      if y = d then x else if y = x then h.next d else h.next y := rfl

theorem list_add_prev (h : Heap) (x d y : Nat) :
    (list_add h x d).prev y =
      if y = x then d else if y = h.next d then x else h.prev y := rfl

@[simp] theorem list_add_value (h : Heap) (x d : Nat) : (list_add h x d).value = h.value := rfl

@[simp] theorem list_add_freed (h : Heap) (x d : Nat) : (list_add h x d).freed = h.freed := rfl

theorem list_add_tail_next (h : Heap) (x d y : Nat) :
    (list_add_tail h x d).next y =
      if y = x then d else if y = h.prev d then x else h.next y := rfl

theorem list_add_tail_prev (h : Heap) (x d y : Nat) :
    (list_add_tail h x d).prev y =
      if y = d then x else if y = x then h.prev d else h.prev y := rfl

@[simp] theorem list_add_tail_value (h : Heap) (x d : Nat) :
    (list_add_tail h x d).value = h.value := rfl

@[simp] theorem list_add_tail_freed (h : Heap) (x d : Nat) :
    (list_add_tail h x d).freed = h.freed := rfl

theorem Ring.mid_ne_last {h : Heap} {head x : Nat} {l1 l2 : List Nat}
    (hr : Ring h head (l1 ++ x :: l2)) : x ≠ last_or head l1 := by
  intro e
  have hm := last_or_mem l1 head
  rw [← e] at hm
  have hnd := hr.nodup
  rw [← List.cons_append] at hnd
  have := (List.nodup_append.1 hnd).2.2
  exact this hm (List.mem_cons_self _ _)

theorem Ring.mid_ne_first {h : Heap} {head x : Nat} {l1 l2 : List Nat}
    (hr : Ring h head (l1 ++ x :: l2)) : x ≠ first_or head l2 := by
  intro e
  have hm := first_or_mem l2 head
  rw [← e] at hm
  have hnd := hr.nodup
  simp only [List.mem_cons] at hm
  rcases hm with hm | hm
  · exact hr.head_nmem (by rw [← hm]; simp)
  · have h2 := (List.nodup_append.1 hr.nodup_nodes).2.1
    exact (List.nodup_cons.1 h2).1 hm

/-- The function `list_del` of a node of the ring leaves the ring of the other nodes. -/
theorem Ring.list_del {h : Heap} {head x : Nat} {l1 l2 : List Nat}
    (hr : Ring h head (l1 ++ x :: l2)) : Ring (list_del h x) head (l1 ++ l2) := by
  refine hr.unlink ?_ ?_ ?_ ?_
  · rw [list_del_next, hr.prev_mid, hr.next_mid]; simp
  · intro y hy _
    rw [list_del_next, hr.prev_mid, if_neg hy]
  · rw [list_del_prev, hr.prev_mid, hr.next_mid]; simp
  · intro y hy _
    rw [list_del_prev, hr.next_mid, if_neg hy]

/-- The function `list_del_init` of a node of the ring leaves the ring of the other nodes. -/
theorem Ring.list_del_init {h : Heap} {head x : Nat} {l1 l2 : List Nat}
    (hr : Ring h head (l1 ++ x :: l2)) : Ring (list_del_init h x) head (l1 ++ l2) := by
  refine hr.unlink ?_ ?_ ?_ ?_
  · rw [list_del_init_next, hr.prev_mid, hr.next_mid, if_neg hr.mid_ne_last.symm]; simp
  · intro y hy hyx
    rw [list_del_init_next, hr.prev_mid, if_neg hyx, if_neg hy]
  · rw [list_del_init_prev, hr.prev_mid, hr.next_mid, if_neg hr.mid_ne_first.symm]; simp
  · intro y hy hyx
    rw [list_del_init_prev, hr.next_mid, if_neg hyx, if_neg hy]

theorem Ring.next_last {h : Heap} {head : Nat} {l1 l2 : List Nat}
    (hr : Ring h head (l1 ++ l2)) : h.next (last_or head l1) = first_or head l2 := by
  rcases List.eq_nil_or_concat l1 with rfl | ⟨l1', z, rfl⟩
  · simpa using hr.next_head
  · rw [List.concat_eq_append, List.append_assoc, List.singleton_append] at hr
    simpa using hr.next_mid

theorem Ring.prev_first {h : Heap} {head : Nat} {l1 l2 : List Nat}
    (hr : Ring h head (l1 ++ l2)) : h.prev (first_or head l2) = last_or head l1 := by
  cases l2 with
  | nil => simpa using hr.prev_head
  | cons z l2' => simpa using hr.prev_mid

/-- The function `list_add` of a fresh node after a node of the ring (or the sentinel). -/
theorem Ring.list_add {h : Heap} {head x : Nat} {l1 l2 : List Nat}
    (hr : Ring h head (l1 ++ l2)) (hx0 : x ≠ 0) (hx : x ∉ head :: (l1 ++ l2)) :
    Ring (list_add h x (last_or head l1)) head (l1 ++ x :: l2) := by
  have hxl : x ≠ last_or head l1 := by
    intro e
    apply hx
    have hm := last_or_mem l1 head
    rw [← e] at hm
    simp only [List.mem_cons, List.mem_append] at hm ⊢
    tauto
  have hxf : x ≠ first_or head l2 := by
    intro e
    apply hx
    have hm := first_or_mem l2 head
    rw [← e] at hm
    simp only [List.mem_cons, List.mem_append] at hm ⊢
    tauto
  refine hr.link hx0 hx ?_ ?_ ?_ ?_ ?_ ?_
  · rw [list_add_next]; simp
  · rw [list_add_next, if_neg hxl, hr.next_last]; simp
  · intro y hy hyx
    rw [list_add_next, if_neg hy, if_neg hyx]
  · rw [list_add_prev, hr.next_last, if_neg hxf.symm]; simp
  · rw [list_add_prev]; simp
  · intro y hy hyx
    rw [list_add_prev, hr.next_last, if_neg hyx, if_neg hy]

/-- The function `list_add_tail` of a fresh node before the sentinel. -/
theorem Ring.list_add_tail {h : Heap} {head x : Nat} {l : List Nat}
    (hr : Ring h head l) (hx0 : x ≠ 0) (hx : x ∉ head :: l) :
    Ring (list_add_tail h x head) head (l ++ [x]) := by
  have hr' : Ring h head (l ++ []) := by simpa using hr
  have hx' : x ∉ head :: (l ++ []) := by simpa using hx
  have hxl : x ≠ last_or head l := by
    intro e
    apply hx
    have hm := last_or_mem l head
    rw [← e] at hm
    exact hm
  have hxh : x ≠ head := by
    rintro rfl
    apply hx
    simp
  refine hr'.link hx0 hx' ?_ ?_ ?_ ?_ ?_ ?_
  · rw [list_add_tail_next, hr.prev_head, if_neg hxl.symm]; simp
  · rw [list_add_tail_next]; simp
  · intro y hy hyx
    rw [list_add_tail_next, hr.prev_head, if_neg hyx, if_neg hy]
  · rw [list_add_tail_prev]; simp
  · rw [list_add_tail_prev, hr.prev_head, if_neg hxh]; simp
  · intro y hy hyx
    simp only [first_or_nil] at hy
    rw [list_add_tail_prev, if_neg hy, if_neg hyx]

/-! ## Strings and machine integers -/

theorem wrap_int_of_lt {z : Int} (h0 : 0 ≤ z) (h1 : z < 2147483648) : wrap_int z = z := by
  unfold wrap_int
  omega

theorem wrap_size_of_lt {z : Int} (h0 : 0 ≤ z) (h1 : z < 18446744073709551616) :
    wrap_size z = z.toNat := by
  unfold wrap_size
  congr 1
  omega

theorem strlen_eq_length_cstr : ∀ s : List Nat, strlen s = (cstr s).length
  | [] => rfl
  | c :: s => by
    unfold strlen cstr
    split
    · rfl
    · simp [strlen_eq_length_cstr s]

theorem char_at_cons_succ (c : Nat) (s : List Nat) (i : Nat) :
    char_at (c :: s) (i + 1) = char_at s i := by
  simp [char_at]

theorem char_at_cons_zero (c : Nat) (s : List Nat) : char_at (c :: s) 0 = c := by
  simp [char_at]

/-- The byte at the end of the string is the terminator. -/
theorem char_at_strlen : ∀ s : List Nat, char_at s (strlen s) = 0
  | [] => by simp [char_at]
  | c :: s => by
    unfold strlen
    split
    · rename_i hc
      simp [char_at, hc]
    · rw [char_at_cons_succ]
      exact char_at_strlen s

/-- The bytes before the end of the string are the bytes of the string. -/
theorem char_at_lt_strlen : ∀ (s : List Nat) (i : Nat), i < strlen s →
    char_at s i = (cstr s).getD i 0
  | [], i, hi => by simp [strlen] at hi
  | c :: s, i, hi => by
    unfold strlen at hi
    unfold cstr
    split at hi
    · omega
    · rename_i hc
      rw [if_neg hc]
      cases i with
      | zero => simp [char_at]
      | succ i =>
        rw [char_at_cons_succ, char_at_lt_strlen s i (by omega)]
        simp

theorem copy_loop_cons (c d : Nat) (s : List Nat) :
    ∀ (n i : Nat) (dst : List Nat),
      copy_loop (c :: s) n (i + 1) (d :: dst) = d :: copy_loop s n i dst
  | 0, _, _ => rfl
  | n + 1, i, dst => by
    simp only [copy_loop, List.set_cons_succ, char_at_cons_succ]
    exact copy_loop_cons c d s n (i + 1) _

/-- The copy of `q_insert_head`: `len` bytes, then the terminator. -/
theorem copy_loop_head : ∀ (s buf : List Nat), buf.length = strlen s + 1 →
    (copy_loop s (strlen s) 0 buf).set (strlen s) 0 = cstr s ++ [0]
  | [], buf, hb => by
    simp only [strlen, zero_add] at hb
    obtain ⟨b, rfl⟩ := List.length_eq_one.1 hb
    simp [strlen, cstr, copy_loop]
  | c :: s, buf, hb => by
    unfold strlen at hb ⊢
    unfold cstr
    split
    · rename_i hc
      simp only [hc, if_true, zero_add] at hb
      obtain ⟨b, rfl⟩ := List.length_eq_one.1 hb
      simp [copy_loop]
    · rename_i hc
      simp only [hc, if_false] at hb
      cases buf with
      | nil => simp at hb
      | cons d buf =>
        simp only [List.length_cons, Nat.add_right_cancel_iff] at hb
        simp only [copy_loop, List.set_cons_zero, char_at_cons_zero]
        rw [copy_loop_cons, List.set_cons_succ, copy_loop_head s buf hb]
        simp

/-- The copy of `q_insert_tail`: `len + 1` bytes, then the terminator again. -/
theorem copy_loop_tail : ∀ (s buf : List Nat), buf.length = strlen s + 1 →
    (copy_loop s (strlen s + 1) 0 buf).set (strlen s) 0 = cstr s ++ [0]
  | [], buf, hb => by
    simp only [strlen, zero_add] at hb
    obtain ⟨b, rfl⟩ := List.length_eq_one.1 hb
    simp [strlen, cstr, copy_loop]
  | c :: s, buf, hb => by
    unfold strlen at hb ⊢
    unfold cstr
    split
    · rename_i hc
      simp only [hc, if_true, zero_add] at hb
      obtain ⟨b, rfl⟩ := List.length_eq_one.1 hb
      simp [copy_loop]
    · rename_i hc
      simp only [hc, if_false] at hb
      cases buf with
      | nil => simp at hb
      | cons d buf =>
        simp only [List.length_cons, Nat.add_right_cancel_iff] at hb
        rw [copy_loop]
        simp only [List.set_cons_zero, char_at_cons_zero]
        rw [copy_loop_cons, List.set_cons_succ, copy_loop_tail s buf hb]
        simp

theorem copy_out_apply (s : List Nat) :
    ∀ (n i : Nat) (sp : Nat → Nat) (j : Nat),
      copy_out s n i sp j = if i ≤ j ∧ j < i + n then char_at s j else sp j
  | 0, i, sp, j => by
    simp only [copy_out]
    rw [if_neg]
    omega
  | n + 1, i, sp, j => by
    simp only [copy_out]
    rw [copy_out_apply s n (i + 1)]
    by_cases hji : j = i
    · subst hji
      simp
    · simp only [hji, if_false]
      by_cases hc : i + 1 ≤ j ∧ j < i + 1 + n
      · rw [if_pos hc, if_pos (by omega)]
      · rw [if_neg hc, if_neg (by omega)]

/-- What the block `if (sp) { ... }` of the remove functions leaves in `sp`:
when `0 < bufsize`, the first `min len (bufsize - 1)` bytes of the string, a
terminator after them, and nothing at or beyond `bufsize`. -/
theorem remove_copy_spec (s : List Nat) (sp : Nat → Nat) (bufsize : Nat)
    (hs : strlen s < INT_MAX) (hb0 : 0 < bufsize) (hb : bufsize < 18446744073709551616) :
    (∀ i, i < min (strlen s) (bufsize - 1) → remove_copy s sp bufsize i = char_at s i) ∧
    remove_copy s sp bufsize (min (strlen s) (bufsize - 1)) = 0 ∧
    (∀ i, bufsize ≤ i → remove_copy s sp bufsize i = sp i) := by
  unfold INT_MAX at hs
  have hlen : wrap_int (strlen s) = strlen s := wrap_int_of_lt (by omega) (by omega)
  have hsz : wrap_size ((bufsize : Int) - 1) = bufsize - 1 := by
    rw [wrap_size_of_lt (by omega) (by omega)]
    omega
  have hsl : wrap_size (strlen s : Int) = strlen s := by
    rw [wrap_size_of_lt (by omega) (by omega)]
    simp
  have key : ∀ j, remove_copy s sp bufsize j =
      if j = bufsize - 1 then 0
      else if j < min (strlen s) (bufsize - 1) + 1 then char_at s j else sp j := by
    intro j
    unfold remove_copy
    simp only [hlen, hsz, hsl, copy_out_apply]
    by_cases hj : j = bufsize - 1
    · simp [hj]
    · simp only [hj, if_false]
      by_cases hc : strlen s > bufsize - 1
      · simp only [hc, if_true]
        have h1 : wrap_int ((bufsize - 1 : Nat) : Int) = ((bufsize - 1 : Nat) : Int) :=
          wrap_int_of_lt (by omega) (by omega)
        rw [h1]
        have h2 : (((bufsize - 1 : Nat) : Int) + 1).toNat = bufsize - 1 + 1 := by omega
        rw [h2]
        have h3 : min (strlen s) (bufsize - 1) = bufsize - 1 := by omega
        rw [h3]
        simp
      · simp only [hc, if_false]
        have h2 : ((strlen s : Int) + 1).toNat = strlen s + 1 := by omega
        rw [h2]
        have h3 : min (strlen s) (bufsize - 1) = strlen s := by omega
        rw [h3]
        simp
  refine ⟨?_, ?_, ?_⟩
  · intro i hi
    rw [key, if_neg (by omega), if_pos (by omega)]
  · rw [key]
    by_cases hc : min (strlen s) (bufsize - 1) = bufsize - 1
    · rw [if_pos hc]
    · rw [if_neg hc, if_pos (by omega)]
      have h3 : min (strlen s) (bufsize - 1) = strlen s := by omega
      rw [h3, char_at_strlen]
  · intro i hi
    rw [key, if_neg (by omega), if_neg (by omega)]

/-! ## Insertion -/

theorem q_insert_head_eq (h : Heap) (head : Nat) (s buf : List Nat) (new_node : Nat)
    (hh : head ≠ 0) (hn0 : new_node ≠ 0) (hs : strlen s < INT_MAX)
    (hb : buf.length = strlen s + 1) :
    q_insert_head h head (some s) new_node (some buf) =
      (true, list_add (h.setValue new_node (cstr s ++ [0])) new_node head) := by
  unfold INT_MAX at hs
  have hlen : wrap_int (strlen s) = strlen s := wrap_int_of_lt (by omega) (by omega)
  simp only [q_insert_head, hh, hn0, if_false, hlen, Int.toNat_ofNat]
  rw [copy_loop_head s buf hb]

theorem q_insert_tail_eq (h : Heap) (head : Nat) (s buf : List Nat) (new_node : Nat)
    (hh : head ≠ 0) (hn0 : new_node ≠ 0) (hs : strlen s < INT_MAX)
    (hb : buf.length = strlen s + 1) :
    q_insert_tail h head (some s) new_node (some buf) =
      (true, list_add_tail (h.setValue new_node (cstr s ++ [0])) new_node head) := by
  unfold INT_MAX at hs
  have hlen : wrap_int (strlen s) = strlen s := wrap_int_of_lt (by omega) (by omega)
  have h2 : ((strlen s : Int) + 1).toNat = strlen s + 1 := by omega
  simp only [q_insert_tail, hh, hn0, if_false, hlen, Int.toNat_ofNat, h2]
  rw [copy_loop_tail s buf hb]

theorem Ring.setValue {h : Heap} {head : Nat} {l : List Nat} (hr : Ring h head l)
    (a : Nat) (b : List Nat) : Ring (h.setValue a b) head l :=
  hr.congr (fun _ _ => rfl) (fun _ _ => rfl)

theorem Ring.free {h : Heap} {head : Nat} {l : List Nat} (hr : Ring h head l)
    (a : Nat) : Ring (h.free a) head l :=
  hr.congr (fun _ _ => rfl) (fun _ _ => rfl)

/-- Whatever the string and the buffer, a successful `q_insert_head` links the
new element first. -/
theorem Ring.q_insert_head {h : Heap} {head : Nat} {l : List Nat} (hr : Ring h head l)
    (s buf : List Nat) {new_node : Nat} (hn0 : new_node ≠ 0) (hn : new_node ∉ head :: l) :
    (Queue.q_insert_head h head (some s) new_node (some buf)).1 = true ∧
      Ring (Queue.q_insert_head h head (some s) new_node (some buf)).2 head (new_node :: l) := by
  simp only [Queue.q_insert_head, hr.head_ne, hn0, if_false, true_and]
  have hr' : Ring (h.setValue new_node
      ((copy_loop s (wrap_int (strlen s)).toNat 0 buf).set (wrap_int (strlen s)).toNat 0))
      head ([] ++ l) := hr.setValue _ _
  exact hr'.list_add hn0 hn

/-- Whatever the string and the buffer, a successful `q_insert_tail` links the
new element last. -/
theorem Ring.q_insert_tail {h : Heap} {head : Nat} {l : List Nat} (hr : Ring h head l)
    (s buf : List Nat) {new_node : Nat} (hn0 : new_node ≠ 0) (hn : new_node ∉ head :: l) :
    (Queue.q_insert_tail h head (some s) new_node (some buf)).1 = true ∧
      Ring (Queue.q_insert_tail h head (some s) new_node (some buf)).2 head
        (l ++ [new_node]) := by
  simp only [Queue.q_insert_tail, hr.head_ne, hn0, if_false, true_and]
  exact (hr.setValue _ _).list_add_tail hn0 hn

/-! ## Removal -/

theorem q_remove_head_eq {h : Heap} {head x : Nat} {l : List Nat} (hr : Ring h head (x :: l))
    (sp : Option (Nat → Nat)) (bufsize : Nat) :
    q_remove_head h head sp bufsize =
      (x, list_del_init h x, sp.map (fun sp => remove_copy (h.value x) sp bufsize)) := by
  have he : list_empty h head = false := by
    rw [← Bool.not_eq_true, hr.list_empty_iff]
    simp
  have hx : h.next head = x := hr.next_head
  simp only [q_remove_head, hr.head_ne, he, if_false, hx, Bool.false_eq_true]
  cases sp <;> simp

theorem q_remove_tail_eq {h : Heap} {head x : Nat} {l : List Nat}
    (hr : Ring h head (l ++ [x])) (sp : Option (Nat → Nat)) (bufsize : Nat) :
    q_remove_tail h head sp bufsize =
      (x, list_del_init h x, sp.map (fun sp => remove_copy (h.value x) sp bufsize)) := by
  have he : list_empty h head = false := by
    rw [← Bool.not_eq_true, hr.list_empty_iff]
    simp
  have hx : h.prev head = x := by
    rw [hr.prev_head]
    simp
  simp only [q_remove_tail, hr.head_ne, he, if_false, hx, Bool.false_eq_true]
  cases sp <;> simp

theorem q_remove_head_nil {h : Heap} {head : Nat} (hr : Ring h head [])
    (sp : Option (Nat → Nat)) (bufsize : Nat) :
    q_remove_head h head sp bufsize = (0, h, sp) := by
  have he : list_empty h head = true := hr.list_empty_iff.2 rfl
  simp [q_remove_head, hr.head_ne, he]

theorem q_remove_tail_nil {h : Heap} {head : Nat} (hr : Ring h head [])
    (sp : Option (Nat → Nat)) (bufsize : Nat) :
    q_remove_tail h head sp bufsize = (0, h, sp) := by
  have he : list_empty h head = true := hr.list_empty_iff.2 rfl
  simp [q_remove_tail, hr.head_ne, he]

theorem Ring.q_remove_head {h : Heap} {head x : Nat} {l : List Nat}
    (hr : Ring h head (x :: l)) (sp : Option (Nat → Nat)) (bufsize : Nat) :
    Ring (Queue.q_remove_head h head sp bufsize).2.1 head l := by
  rw [q_remove_head_eq hr]
  have hr' : Ring h head ([] ++ x :: l) := hr
  exact hr'.list_del_init

theorem Ring.q_remove_tail {h : Heap} {head x : Nat} {l : List Nat}
    (hr : Ring h head (l ++ [x])) (sp : Option (Nat → Nat)) (bufsize : Nat) :
    Ring (Queue.q_remove_tail h head sp bufsize).2.1 head l := by
  rw [q_remove_tail_eq hr]
  have := hr.list_del_init
  simpa using this

/-! ## Size -/

theorem q_size_loop_eq (h : Heap) (head : Nat) :
    ∀ (l : List Nat) (fuel i : Nat) (size : Nat),
      Seg h.next i l head → head ∉ l → l.length < fuel → size + l.length ≤ INT_MAX →
      q_size_loop h head fuel i size = some ((size + l.length : Nat) : Int)
  | [], fuel, i, size, hs, _, hf, _ => by
    cases fuel with
    | zero => simp at hf
    | succ fuel =>
      simp only [Seg_nil] at hs
      simp [q_size_loop, hs]
  | _ :: xs, fuel, i, size, hs, hh, hf, hsz => by
    cases fuel with
    | zero => simp at hf
    | succ fuel =>
      simp only [Seg_cons] at hs
      simp only [List.mem_cons, not_or] at hh
      simp only [List.length_cons] at hf hsz
      unfold INT_MAX at hsz
      obtain ⟨rfl, hs2⟩ := hs
      have hne : i ≠ head := fun e => hh.1 e.symm
      have hw : wrap_int ((size : Int) + 1) = ((size + 1 : Nat) : Int) := by
        rw [wrap_int_of_lt (by omega) (by omega)]
        simp
      simp only [q_size_loop, hne, if_false, hw]
      rw [q_size_loop_eq h head xs fuel (h.next i) (size + 1) hs2 hh.2 (by omega)
        (by unfold INT_MAX; omega)]
      have e : size + 1 + xs.length = size + (i :: xs).length := by
        simp only [List.length_cons]
        omega
      rw [e]

/-- The function `q_size` of a ring is the number of its elements. -/
theorem Ring.q_size {h : Heap} {head : Nat} {l : List Nat} (hr : Ring h head l)
    (fuel : Nat) (hf : l.length < fuel) (hl : l.length ≤ INT_MAX) :
    Queue.q_size h head fuel = some (l.length : Int) := by
  unfold Queue.q_size
  rw [if_neg hr.head_ne]
  cases l with
  | nil =>
    have he : list_empty h head = true := hr.list_empty_iff.2 rfl
    simp [he]
  | cons x xs =>
    have he : list_empty h head = false := by
      rw [← Bool.not_eq_true, hr.list_empty_iff]
      simp
    simp only [he, Bool.false_eq_true, if_false]
    have := q_size_loop_eq h head (x :: xs) fuel (h.next head) 0 hr.fwd hr.head_nmem hf
      (by simpa using hl)
    simpa using this

/-! ## Sequences of calls -/

theorem Ring.init (h : Heap) {head : Nat} (hh : head ≠ 0) :
    Ring (INIT_LIST_HEAD h head) head [] := by
  refine ⟨hh, by simp, by simp, ?_, ?_⟩ <;> simp [INIT_LIST_HEAD]

theorem run_ops_ring (head : Nat) :
    ∀ (ops : List Op) (h : Heap) (l : List Nat), Ring h head l → AllocOk head l ops →
      ∃ l', Ring (run_ops head h ops).1 head l' ∧
        l'.length + (run_ops head h ops).2.2 = l.length + (run_ops head h ops).2.1
  | [], h, l, hr, _ => ⟨l, hr, rfl⟩
  | Op.insert_head s new_node buf :: ops, h, l, hr, ha => by
    obtain ⟨hn0, hn, ha'⟩ := ha
    obtain ⟨l', hr', hl'⟩ := run_ops_ring head ops _ _ (hr.q_insert_head s buf hn0 hn).2 ha'
    refine ⟨l', hr', ?_⟩
    simp only [run_ops, List.length_cons] at hl' ⊢
    omega
  | Op.insert_tail s new_node buf :: ops, h, l, hr, ha => by
    obtain ⟨hn0, hn, ha'⟩ := ha
    obtain ⟨l', hr', hl'⟩ := run_ops_ring head ops _ _ (hr.q_insert_tail s buf hn0 hn).2 ha'
    refine ⟨l', hr', ?_⟩
    simp only [run_ops, List.length_append, List.length_singleton] at hl' ⊢
    omega
  | Op.remove_head sp bufsize :: ops, h, l, hr, ha => by
    cases l with
    | nil =>
      have he := q_remove_head_nil hr sp bufsize
      have hr2 : Ring (q_remove_head h head sp bufsize).2.1 head [] := by rw [he]; exact hr
      obtain ⟨l', hr', hl'⟩ := run_ops_ring head ops _ _ hr2 ha
      refine ⟨l', hr', ?_⟩
      simp only [run_ops, he, if_true] at hl' ⊢
      simpa using hl'
    | cons x xs =>
      have he := q_remove_head_eq hr sp bufsize
      obtain ⟨l', hr', hl'⟩ := run_ops_ring head ops _ _ (hr.q_remove_head sp bufsize) ha
      refine ⟨l', hr', ?_⟩
      have hx : x ≠ 0 := hr.mem_ne_zero (List.mem_cons_self _ _)
      simp only [run_ops, he, hx, if_false, List.length_cons] at hl' ⊢
      omega
  | Op.remove_tail sp bufsize :: ops, h, l, hr, ha => by
    rcases List.eq_nil_or_concat l with rfl | ⟨xs, x, rfl⟩
    · have he := q_remove_tail_nil hr sp bufsize
      have hr2 : Ring (q_remove_tail h head sp bufsize).2.1 head [] := by rw [he]; exact hr
      obtain ⟨l', hr', hl'⟩ := run_ops_ring head ops _ _ hr2 ha
      refine ⟨l', hr', ?_⟩
      simp only [run_ops, he, if_true] at hl' ⊢
      simpa using hl'
    · rw [List.concat_eq_append] at hr ha
      have he := q_remove_tail_eq hr sp bufsize
      have ha' : AllocOk head xs ops := by
        have : AllocOk head (xs ++ [x]).dropLast ops := ha
        simpa using this
      obtain ⟨l', hr', hl'⟩ := run_ops_ring head ops _ _ (hr.q_remove_tail sp bufsize) ha'
      refine ⟨l', hr', ?_⟩
      have hx : x ≠ 0 := hr.mem_ne_zero (by simp)
      simp only [run_ops, he, hx, if_false, List.concat_eq_append, List.length_append,
        List.length_singleton] at hl' ⊢
      omega

/-! ## Positions -/

@[simp] theorem nth_or_nil (d j : Nat) : nth_or d [] j = d := by
  cases j <;> rfl

@[simp] theorem nth_or_cons_zero (d x : Nat) (xs : List Nat) : nth_or d (x :: xs) 0 = x := rfl

@[simp] theorem nth_or_cons_succ (d x j : Nat) (xs : List Nat) :
    nth_or d (x :: xs) (j + 1) = nth_or d xs j := rfl

theorem nth_or_of_le (d : Nat) : ∀ (l : List Nat) (j : Nat), l.length ≤ j → nth_or d l j = d
  | [], _, _ => by simp
  | x :: xs, 0, hj => by simp at hj
  | x :: xs, j + 1, hj => by
    simp only [List.length_cons, Nat.add_le_add_iff_right] at hj
    simp [nth_or_of_le d xs j hj]

theorem nth_or_mem (d : Nat) : ∀ (l : List Nat) (j : Nat), j < l.length → nth_or d l j ∈ l
  | [], _, hj => by simp at hj
  | x :: xs, 0, _ => by simp
  | x :: xs, j + 1, hj => by
    simp only [List.length_cons, Nat.add_lt_add_iff_right] at hj
    simp [nth_or_mem d xs j hj]

/-- The list splits around its position `j`. -/
theorem split_at_nth (d : Nat) : ∀ (l : List Nat) (j : Nat), j < l.length →
    l = l.take j ++ nth_or d l j :: l.drop (j + 1)
  | [], _, hj => by simp at hj
  | x :: xs, 0, _ => by simp
  | x :: xs, j + 1, hj => by
    simp only [List.length_cons, Nat.add_lt_add_iff_right] at hj
    simp only [List.take_succ_cons, nth_or_cons_succ, List.drop_succ_cons, List.cons_append,
      List.cons.injEq, true_and]
    exact split_at_nth d xs j hj

theorem Seg_nth {f : Nat → Nat} {q : Nat} :
    ∀ (l : List Nat) (p j : Nat), Seg f p l q → j < l.length →
      f (nth_or q l j) = nth_or q l (j + 1)
  | [], _, _, _, hj => by simp at hj
  | x :: xs, p, 0, hs, _ => by
    simp only [Seg_cons] at hs
    simp only [nth_or_cons_zero, nth_or_cons_succ]
    have := Seg_start hs.2
    rw [this]
    cases xs <;> simp
  | x :: xs, p, j + 1, hs, hj => by
    simp only [Seg_cons] at hs
    simp only [List.length_cons, Nat.add_lt_add_iff_right] at hj
    simp only [nth_or_cons_succ]
    exact Seg_nth xs (f x) j hs.2 hj

theorem Ring.next_nth {h : Heap} {head : Nat} {l : List Nat} (hr : Ring h head l)
    {j : Nat} (hj : j < l.length) : h.next (nth_or head l j) = nth_or head l (j + 1) :=
  Seg_nth l _ j hr.fwd hj

theorem Ring.next_head_nth {h : Heap} {head : Nat} {l : List Nat} (hr : Ring h head l) :
    h.next head = nth_or head l 0 := by
  rw [hr.next_head]
  cases l <;> simp

theorem Ring.nth_eq_head_iff {h : Heap} {head : Nat} {l : List Nat} (hr : Ring h head l)
    (j : Nat) : nth_or head l j = head ↔ l.length ≤ j := by
  constructor
  · intro e
    by_contra hj
    have := nth_or_mem head l j (by omega)
    rw [e] at this
    exact hr.head_nmem this
  · exact nth_or_of_le head l j

/-! ## `q_delete_mid` -/

theorem q_delete_mid_loop_eq {h : Heap} {head : Nat} {l : List Nat} (hr : Ring h head l) :
    ∀ (fuel k : Nat), 2 * k ≤ l.length → k < l.length → l.length < fuel + 2 * k →
      q_delete_mid_loop h head fuel (nth_or head l k) (nth_or head l (2 * k)) =
        some (nth_or head l (l.length / 2))
  | 0, k, h1, h2, h3 => by omega
  | fuel + 1, k, h1, h2, h3 => by
    have hi : nth_or head l k ≠ head := by
      rw [Ne, hr.nth_eq_head_iff]
      omega
    simp only [q_delete_mid_loop, hi, if_false]
    by_cases ha : nth_or head l (2 * k) = head
    · have : l.length ≤ 2 * k := (hr.nth_eq_head_iff _).1 ha
      have e : l.length / 2 = k := by omega
      simp [ha, e]
    · have hlt : 2 * k < l.length := by
        rw [hr.nth_eq_head_iff] at ha
        omega
      rw [hr.next_nth hlt]
      by_cases hb : nth_or head l (2 * k + 1) = head
      · have : l.length ≤ 2 * k + 1 := (hr.nth_eq_head_iff _).1 hb
        have e : l.length / 2 = k := by omega
        simp [hb, e]
      · have hlt2 : 2 * k + 1 < l.length := by
          rw [hr.nth_eq_head_iff] at hb
          omega
        simp only [ha, hb, or_self, if_false]
        rw [hr.next_nth hlt2, hr.next_nth h2]
        have e : 2 * k + 1 + 1 = 2 * (k + 1) := by omega
        rw [e]
        exact q_delete_mid_loop_eq hr fuel (k + 1) (by omega) (by omega) (by omega)

/-- The function `q_delete_mid` on a ring with at least one element. -/
theorem Ring.q_delete_mid {h : Heap} {head : Nat} {l : List Nat} (hr : Ring h head l)
    (hne : l ≠ []) (fuel : Nat) (hf : l.length < fuel) :
    ∃ h', Queue.q_delete_mid h head fuel = some (true, h') ∧
      Ring h' head (l.eraseIdx (l.length / 2)) ∧
      h'.value = h.value ∧ h'.freed = nth_or head l (l.length / 2) :: h.freed := by
  have hpos : 0 < l.length := List.length_pos.2 hne
  have he : list_empty h head = false := by
    rw [← Bool.not_eq_true, hr.list_empty_iff]
    exact hne
  have hloop := q_delete_mid_loop_eq hr fuel 0 (by omega) hpos (by omega)
  rw [Nat.mul_zero, ← hr.next_head_nth] at hloop
  simp only [Queue.q_delete_mid, hr.head_ne, he, if_false, hloop, Bool.false_eq_true]
  refine ⟨_, rfl, ?_, rfl, rfl⟩
  have hm : l.length / 2 < l.length := by omega
  have hsplit := split_at_nth head l (l.length / 2) hm
  rw [List.eraseIdx_eq_take_drop_succ]
  have hr' : Ring h head
      (l.take (l.length / 2) ++ nth_or head l (l.length / 2) :: l.drop (l.length / 2 + 1)) := by
    rw [← hsplit]
    exact hr
  exact (hr'.list_del).free _

/-! ## `q_swap` -/

theorem list_move_value (h : Heap) (x d : Nat) : (list_move h x d).value = h.value := rfl

theorem list_move_freed (h : Heap) (x d : Nat) : (list_move h x d).freed = h.freed := rfl

/-- The function `list_move` of the second of two adjacent nodes to the place before the
first one. -/
theorem Ring.list_move {h : Heap} {head a b : Nat} {done rest : List Nat}
    (hr : Ring h head (done ++ a :: b :: rest)) :
    Ring (Queue.list_move h b (last_or head done)) head (done ++ b :: a :: rest) := by
  have hr1 : Ring h head ((done ++ [a]) ++ b :: rest) := by simpa using hr
  have hr2 : Ring (Queue.list_del h b) head (done ++ a :: rest) := by
    simpa using hr1.list_del
  have hnd := hr.nodup
  have hb0 : b ≠ 0 := hr.mem_ne_zero (by simp)
  have hb : b ∉ head :: (done ++ a :: rest) := by
    have hp : (head :: (done ++ a :: b :: rest)).Perm (b :: head :: (done ++ a :: rest)) := by
      refine (List.Perm.cons head ?_).trans (List.Perm.swap _ _ _)
      have : (done ++ a :: b :: rest) = (done ++ [a]) ++ b :: rest := by simp
      rw [this]
      refine List.perm_middle.trans ?_
      simp
    exact (List.nodup_cons.1 ((List.Perm.nodup_iff hp).1 hnd)).1
  exact hr2.list_add hb0 hb

theorem q_swap_loop_eq (head : Nat) :
    ∀ (rest done : List Nat) (h : Heap) (fuel : Nat),
      Ring h head (done ++ rest) → rest.length < 2 * fuel →
      ∃ h', q_swap_loop head fuel h (last_or head done) = some h' ∧
        Ring h' head (done ++ swap_pairs rest) ∧ h'.value = h.value ∧ h'.freed = h.freed
  | [], done, h, fuel, hr, hf => by
    cases fuel with
    | zero => simp at hf
    | succ fuel =>
      have hn : h.next (last_or head done) = head := by simpa using hr.next_last
      simp only [q_swap_loop, hn, ne_eq, not_true_eq_false, false_and, if_false]
      exact ⟨h, rfl, hr, rfl, rfl⟩
  | [a], done, h, fuel, hr, hf => by
    cases fuel with
    | zero => simp at hf
    | succ fuel =>
      have hn : h.next (last_or head done) = a := by simpa using hr.next_last
      have hn2 : h.next a = head := by simpa using hr.next_mid
      simp only [q_swap_loop, hn, hn2, ne_eq, not_true_eq_false, and_false, if_false]
      exact ⟨h, rfl, hr, rfl, rfl⟩
  | a :: b :: rest, done, h, fuel, hr, hf => by
    cases fuel with
    | zero => simp at hf
    | succ fuel =>
      have hn : h.next (last_or head done) = a := by simpa using hr.next_last
      have hn2 : h.next a = b := by simpa using hr.next_mid
      have ha : a ≠ head := hr.mem_ne_head (by simp)
      have hb : b ≠ head := hr.mem_ne_head (by simp)
      have hr2 := hr.list_move
      have hr3 : Ring (list_move h b (last_or head done)) head ((done ++ [b, a]) ++ rest) := by
        simpa using hr2
      have hm1 : (list_move h b (last_or head done)).next (last_or head done) = b := by
        simpa using hr2.next_last
      have hm2 : (list_move h b (last_or head done)).next b = a := by
        simpa using hr2.next_mid
      have hlast : last_or head (done ++ [b, a]) = a := by
        have : done ++ [b, a] = (done ++ [b]) ++ [a] := by simp
        rw [this, last_or_snoc]
      simp only [List.length_cons] at hf
      obtain ⟨h', he, hr', hv, hfr⟩ := q_swap_loop_eq head rest (done ++ [b, a])
        (list_move h b (last_or head done)) fuel hr3 (by omega)
      refine ⟨h', ?_, ?_, ?_, ?_⟩
      · simp only [q_swap_loop, hn, hn2, ne_eq, ha, hb, not_false_eq_true, and_self, if_true,
          hm1, hm2]
        rw [← hlast]
        exact he
      · simpa [swap_pairs] using hr'
      · rw [hv, list_move_value]
      · rw [hfr, list_move_freed]

/-- The function `q_swap` exchanges the elements of a ring pairwise. -/
theorem Ring.q_swap {h : Heap} {head : Nat} {l : List Nat} (hr : Ring h head l)
    (fuel : Nat) (hf : l.length < fuel) :
    ∃ h', Queue.q_swap h head fuel = some h' ∧ Ring h' head (swap_pairs l) ∧
      h'.value = h.value ∧ h'.freed = h.freed := by
  unfold Queue.q_swap
  rw [if_neg hr.head_ne]
  by_cases he : list_empty h head = true
  · have hl : l = [] := hr.list_empty_iff.1 he
    subst hl
    rw [if_pos he]
    exact ⟨h, rfl, hr, rfl, rfl⟩
  · rw [if_neg he]
    have hr' : Ring h head ([] ++ l) := hr
    have := q_swap_loop_eq head l [] h fuel hr' (by omega)
    simpa using this

theorem swap_pairs_length : ∀ l : List Nat, (swap_pairs l).length = l.length
  | [] => rfl
  | [_] => rfl
  | a :: b :: rest => by simp [swap_pairs, swap_pairs_length rest]

/-- Positions `2k` and `2k + 1` of the result hold the nodes of positions
`2k + 1` and `2k`. -/
theorem swap_pairs_pair (d : Nat) : ∀ (l : List Nat) (k : Nat), 2 * k + 1 < l.length →
    nth_or d (swap_pairs l) (2 * k) = nth_or d l (2 * k + 1) ∧
      nth_or d (swap_pairs l) (2 * k + 1) = nth_or d l (2 * k)
  | [], _, hk => by simp at hk
  | [_], _, hk => by simp at hk
  | a :: b :: rest, 0, _ => by simp [swap_pairs]
  | a :: b :: rest, k + 1, hk => by
    simp only [List.length_cons] at hk
    have e1 : 2 * (k + 1) = 2 * k + 1 + 1 := by omega
    have := swap_pairs_pair d rest k (by omega)
    simp only [swap_pairs, e1, nth_or_cons_succ]
    exact this

/-- The last node of a list of odd length stays last. -/
theorem swap_pairs_last (d : Nat) : ∀ (l : List Nat), l.length % 2 = 1 →
    nth_or d (swap_pairs l) (l.length - 1) = nth_or d l (l.length - 1)
  | [], hl => by simp at hl
  | [_], _ => rfl
  | a :: b :: rest, hl => by
    simp only [List.length_cons] at hl
    have hr : rest.length % 2 = 1 := by omega
    have hpos : 0 < rest.length := by omega
    have := swap_pairs_last d rest hr
    have e : (a :: b :: rest).length - 1 = (rest.length - 1) + 1 + 1 := by
      simp only [List.length_cons]
      omega
    simp only [swap_pairs, e, nth_or_cons_succ]
    exact this

/-! ## `q_reverse` -/

theorem q_reverse_loop_eq (head : Nat) :
    ∀ (rest : List Nat) (h : Heap) (fuel i : Nat),
      Seg h.next i rest head → (head :: rest).Nodup → rest.length < fuel →
      ∃ h', q_reverse_loop head fuel h i (h.next i) = some h' ∧
        (∀ x ∈ rest, h'.next x = h.prev x ∧ h'.prev x = h.next x) ∧
        (∀ x, x ∉ rest → h'.next x = h.next x ∧ h'.prev x = h.prev x) ∧
        h'.value = h.value ∧ h'.freed = h.freed
  | [], h, fuel, i, hs, _, hf => by
    cases fuel with
    | zero => simp at hf
    | succ fuel =>
      simp only [Seg_nil] at hs
      simp only [q_reverse_loop, hs, if_true]
      exact ⟨h, rfl, by simp, by simp, rfl, rfl⟩
  | x :: xs, h, fuel, i, hs, hnd, hf => by
    cases fuel with
    | zero => simp at hf
    | succ fuel =>
      obtain ⟨rfl, hs2⟩ := hs
      have hih : i ≠ head := by
        intro e
        have := (List.nodup_cons.1 hnd).1
        apply this
        rw [e]
        simp
      have hixs : i ∉ xs := (List.nodup_cons.1 (List.nodup_cons.1 hnd).2).1
      have hnd2 : (head :: xs).Nodup := by
        refine List.Nodup.sublist ?_ hnd
        exact List.Sublist.cons₂ _ (List.sublist_cons_self _ _)
      let h1 := (h.setNext i (h.prev i)).setPrev i (h.next i)
      have hs1 : Seg h1.next (h.next i) xs head := by
        refine (Seg_congr xs _ _ ?_).1 hs2
        intro y hy
        have : y ≠ i := fun e => hixs (e ▸ hy)
        simp [h1, this]
      simp only [List.length_cons] at hf
      obtain ⟨h', he, hin, hout, hv, hfr⟩ :=
        q_reverse_loop_eq head xs h1 fuel (h.next i) hs1 hnd2 (by omega)
      refine ⟨h', ?_, ?_, ?_, ?_, ?_⟩
      · simp only [q_reverse_loop, hih, if_false]
        exact he
      · intro y hy
        simp only [List.mem_cons] at hy
        rcases hy with rfl | hy
        · have := hout y hixs
          rw [this.1, this.2]
          simp [h1]
        · have hyi : y ≠ i := fun e => hixs (e ▸ hy)
          have := hin y hy
          rw [this.1, this.2]
          simp [h1, hyi]
      · intro y hy
        simp only [List.mem_cons, not_or] at hy
        have := hout y hy.2
        rw [this.1, this.2]
        simp [h1, hy.1]
      · exact hv
      · exact hfr

theorem Ring.last_ne_first {h : Heap} {head a b : Nat} {rest : List Nat}
    (hr : Ring h head (a :: b :: rest)) : last_or head (a :: b :: rest) ≠ a := by
  have hm := last_or_mem rest b
  have hnd := hr.nodup_nodes
  simp only [last_or_cons]
  intro e
  rw [e] at hm
  exact (List.nodup_cons.1 hnd).1 hm

/-- A ring is singular exactly when it has one element. -/
theorem Ring.list_is_singular_iff {h : Heap} {head : Nat} {l : List Nat}
    (hr : Ring h head l) : list_is_singular h head = true ↔ l.length = 1 := by
  unfold list_is_singular
  rw [Bool.and_eq_true, Bool.not_eq_true', ← Bool.not_eq_true, hr.list_empty_iff,
    decide_eq_true_iff, hr.prev_head, hr.next_head]
  match l, hr with
  | [], _ => simp
  | [a], _ => simp
  | a :: b :: rest, hr =>
    have := hr.last_ne_first
    simp only [first_or_cons, List.length_cons]
    constructor
    · rintro ⟨_, e⟩
      exact absurd e this
    · intro e
      omega

/-- The function `q_reverse` mirrors the ring. -/
theorem Ring.q_reverse {h : Heap} {head : Nat} {l : List Nat} (hr : Ring h head l)
    (fuel : Nat) (hf : l.length < fuel) :
    ∃ h', Queue.q_reverse h head fuel = some h' ∧ Ring h' head l.reverse ∧
      h'.value = h.value ∧ h'.freed = h.freed ∧ (l.length ≤ 1 → h' = h) := by
  unfold Queue.q_reverse
  rw [if_neg hr.head_ne]
  by_cases he : list_empty h head = true
  · have hl : l = [] := hr.list_empty_iff.1 he
    subst hl
    rw [if_pos he]
    exact ⟨h, rfl, hr, rfl, rfl, fun _ => rfl⟩
  · rw [if_neg he]
    by_cases hsg : list_is_singular h head = true
    · have hl : l.length = 1 := hr.list_is_singular_iff.1 hsg
      obtain ⟨a, rfl⟩ := List.length_eq_one.1 hl
      rw [if_pos hsg]
      exact ⟨h, rfl, hr, rfl, rfl, fun _ => rfl⟩
    · rw [if_neg hsg]
      have hlen : ¬ l.length ≤ 1 := by
        intro hle
        rw [hr.list_is_singular_iff] at hsg
        rw [hr.list_empty_iff] at he
        have : l.length ≠ 0 := fun e => he (List.length_eq_zero.1 e)
        omega
      obtain ⟨h', hloop, hin, hout, hv, hfr⟩ :=
        q_reverse_loop_eq head l h fuel (h.next head) hr.fwd hr.nodup hf
      rw [hloop]
      refine ⟨_, rfl, ?_, ?_, ?_, fun hle => absurd hle hlen⟩
      · have hhd := hout head hr.head_nmem
        have hnext : ∀ x ∈ head :: l,
            ((h'.setNext head (h'.prev head)).setPrev head (h'.next head)).next x = h.prev x := by
          intro x hx
          simp only [setPrev_next, setNext_next]
          by_cases hxh : x = head
          · rw [if_pos hxh, hhd.2, hxh]
          · rw [if_neg hxh]
            simp only [List.mem_cons, hxh, false_or] at hx
            exact (hin x hx).1
        have hprev : ∀ x ∈ head :: l,
            ((h'.setNext head (h'.prev head)).setPrev head (h'.next head)).prev x = h.next x := by
          intro x hx
          simp only [setPrev_prev, setNext_prev]
          by_cases hxh : x = head
          · rw [if_pos hxh, hhd.1, hxh]
          · rw [if_neg hxh]
            simp only [List.mem_cons, hxh, false_or] at hx
            exact (hin x hx).2
        refine ⟨hr.1, ?_, ?_, ?_, ?_⟩
        · simpa using hr.zero_nmem
        · exact (List.Perm.nodup_iff (List.Perm.cons _ (List.reverse_perm l))).2 hr.nodup
        · rw [hnext head (List.mem_cons_self _ _)]
          refine (Seg_congr l.reverse _ _ ?_).1 hr.bwd
          intro x hx
          exact (hnext x (List.mem_cons_of_mem _ (List.mem_reverse.1 hx))).symm
        · rw [hprev head (List.mem_cons_self _ _), List.reverse_reverse]
          refine (Seg_congr l _ _ ?_).1 hr.fwd
          intro x hx
          exact (hprev x (List.mem_cons_of_mem _ hx)).symm
      · rw [← hv]
        rfl
      · rw [← hfr]
        rfl

/-! ## The order of `strcmp` -/

theorem strcmp_antisymm : ∀ a b : List Nat, strcmp b a = - strcmp a b
  | [], [] => by simp [strcmp]
  | [], b :: _ => by simp [strcmp]
  | a :: _, [] => by simp [strcmp]
  | a :: as, b :: bs => by
    unfold strcmp
    by_cases hab : a = b
    · subst hab
      by_cases ha : a = 0
      · simp [ha]
      · simp only [ne_eq, not_true_eq_false, if_false, ha]
        exact strcmp_antisymm as bs
    · have hba : b ≠ a := fun e => hab e.symm
      simp only [ne_eq, hab, hba, not_false_eq_true, if_true]
      omega

theorem strcmp_self : ∀ a : List Nat, strcmp a a = 0
  | [] => rfl
  | a :: as => by
    unfold strcmp
    simp only [ne_eq, not_true_eq_false, if_false]
    split
    · rfl
    · exact strcmp_self as

theorem strcmp_total (a b : List Nat) : strcmp a b ≤ 0 ∨ strcmp b a ≤ 0 := by
  rw [strcmp_antisymm a b]
  omega

theorem strcmp_trans : ∀ a b c : List Nat, strcmp a b ≤ 0 → strcmp b c ≤ 0 → strcmp a c ≤ 0
  | [], _, [], _, _ => by simp [strcmp]
  | [], _, z :: _, _, _ => by simp [strcmp]
  | x :: as, [], [], h1, _ => by simpa [strcmp] using h1
  | x :: as, [], z :: cs, h1, _ => by
    simp only [strcmp] at h1 ⊢
    have hx : x = 0 := by omega
    subst hx
    split
    · omega
    · simp
  | x :: as, y :: bs, [], h1, h2 => by
    simp only [strcmp] at h1 h2 ⊢
    have hy : y = 0 := by omega
    subst hy
    split at h1
    · omega
    · rename_i hxy
      simp only [ne_eq, not_not] at hxy
      omega
  | x :: as, y :: bs, z :: cs, h1, h2 => by
    simp only [strcmp] at h1 h2 ⊢
    by_cases hxy : x = y
    · subst hxy
      by_cases hxz : x = z
      · subst hxz
        simp only [ne_eq, not_true_eq_false, if_false] at h1 h2 ⊢
        by_cases hx : x = 0
        · simp [hx]
        · simp only [hx, if_false] at h1 h2 ⊢
          exact strcmp_trans as bs cs h1 h2
      · simp only [ne_eq, hxz, not_false_eq_true, if_true] at h2 ⊢
        exact h2
    · simp only [ne_eq, hxy, not_false_eq_true, if_true] at h1
      by_cases hyz : y = z
      · subst hyz
        simp only [ne_eq, hxy, not_false_eq_true, if_true]
        exact h1
      · simp only [ne_eq, hyz, not_false_eq_true, if_true] at h2
        have hxz : x ≠ z := by omega
        simp only [ne_eq, hxz, not_false_eq_true, if_true]
        omega

/-- The function `strcmp` returns `0` exactly on equal strings. -/
theorem strcmp_eq_zero_iff : ∀ a b : List Nat, strcmp a b = 0 ↔ cstr a = cstr b
  | [], [] => by simp [strcmp, cstr]
  | [], b :: _ => by
    simp only [strcmp, cstr]
    by_cases hb : b = 0
    · simp [hb]
    · simp only [hb, if_false]
      constructor
      · intro h; omega
      · intro h; simp at h
  | a :: _, [] => by
    simp only [strcmp, cstr]
    by_cases ha : a = 0
    · simp [ha]
    · simp only [ha, if_false]
      constructor
      · intro h; omega
      · intro h; simp at h
  | a :: as, b :: bs => by
    simp only [strcmp, cstr]
    by_cases hab : a = b
    · subst hab
      by_cases ha : a = 0
      · simp [ha]
      · simp only [ne_eq, not_true_eq_false, if_false, ha, List.cons.injEq, true_and]
        exact strcmp_eq_zero_iff as bs
    · simp only [ne_eq, hab, not_false_eq_true, if_true]
      constructor
      · intro h; omega
      · intro h
        exfalso
        by_cases ha : a = 0
        · by_cases hb : b = 0
          · exact hab (ha.trans hb.symm)
          · simp [ha, hb] at h
        · by_cases hb : b = 0
          · simp [ha, hb] at h
          · simp only [ha, hb, if_false, List.cons.injEq] at h
            exact hab h.1

theorem strcmp_eq_zero_iff_le (a b : List Nat) :
    strcmp a b = 0 ↔ strcmp a b ≤ 0 ∧ strcmp b a ≤ 0 := by
  rw [strcmp_antisymm a b]
  omega

theorem le_value_trans (h : Heap) (a b c : Nat) :
    le_value h a b = true → le_value h b c = true → le_value h a c = true := by
  simp only [le_value, decide_eq_true_eq]
  exact strcmp_trans _ _ _

theorem le_value_total (h : Heap) (a b : Nat) :
    (le_value h a b || le_value h b a) = true := by
  simp only [le_value, Bool.or_eq_true, decide_eq_true_eq]
  exact strcmp_total _ _

theorem eq_value_iff (h : Heap) (a b : Nat) :
    eq_value h a b = true ↔ le_value h a b = true ∧ le_value h b a = true := by
  simp only [eq_value, le_value, decide_eq_true_eq]
  exact strcmp_eq_zero_iff_le _ _

theorem eq_value_refl (h : Heap) (a : Nat) : eq_value h a a = true := by
  simp [eq_value, strcmp_self]

theorem eq_value_symm (h : Heap) {a b : Nat} (e : eq_value h a b = true) :
    eq_value h b a = true := by
  rw [eq_value_iff] at e ⊢
  exact ⟨e.2, e.1⟩

theorem eq_value_trans (h : Heap) {a b c : Nat} (e1 : eq_value h a b = true)
    (e2 : eq_value h b c = true) : eq_value h a c = true := by
  rw [eq_value_iff] at e1 e2 ⊢
  exact ⟨le_value_trans h _ _ _ e1.1 e2.1, le_value_trans h _ _ _ e2.2 e1.2⟩

/-! ## Runs of equal values in a sorted list -/

/-- In a sorted list, what the loop of `q_delete_dup` keeps are the elements
whose value occurs once; `c z` counts the elements equal to `z` before the
list. -/
theorem dedup_from_sorted (h : Heap) :
    ∀ (l : List Nat) (flag : Bool) (c : Nat → Nat),
      l.Pairwise (fun x y => le_value h x y = true) →
      (∀ z ∈ l, (c z ≠ 0 ↔ flag = true ∧ eq_value h (first_or 0 l) z = true)) →
      dedup_from (eq_value h) flag l =
        l.filter (fun z => decide (c z + l.countP (eq_value h z) = 1))
  | [], _, _, _, _ => rfl
  | [x], flag, c, _, hc => by
    have hx := hc x (List.mem_singleton_self x)
    simp only [first_or_cons, eq_value_refl, and_true] at hx
    simp only [dedup_from, List.countP_cons, List.countP_nil, eq_value_refl, if_true,
      zero_add, List.filter_cons, List.filter_nil]
    cases flag with
    | true =>
      have : c x ≠ 0 := hx.2 rfl
      simp [this]
    | false =>
      have : c x = 0 := by
        by_contra h0
        exact absurd (hx.1 h0) (by simp)
      simp [this]
  | x :: y :: rest, flag, c, hs, hc => by
    have hs' : (y :: rest).Pairwise (fun x y => le_value h x y = true) :=
      (List.pairwise_cons.1 hs).2
    have hxle : ∀ z ∈ y :: rest, le_value h x z = true := (List.pairwise_cons.1 hs).1
    have hyle : ∀ z ∈ y :: rest, le_value h y z = true := by
      intro z hz
      simp only [List.mem_cons] at hz
      rcases hz with rfl | hz
      · have := eq_value_refl h z
        rw [eq_value_iff] at this
        exact this.1
      · exact (List.pairwise_cons.1 hs').1 z hz
    have hx := hc x (List.mem_cons_self _ _)
    simp only [first_or_cons, eq_value_refl, and_true] at hx
    -- the counts seen from the tail
    let c' : Nat → Nat := fun z => c z + if eq_value h z x = true then 1 else 0
    have hcount : ∀ z, c z + (x :: y :: rest).countP (eq_value h z) =
        c' z + (y :: rest).countP (eq_value h z) := by
      intro z
      rw [List.countP_cons]
      simp only [c']
      omega
    have hfilter : (y :: rest).filter
          (fun z => decide (c z + (x :: y :: rest).countP (eq_value h z) = 1)) =
        (y :: rest).filter (fun z => decide (c' z + (y :: rest).countP (eq_value h z) = 1)) := by
      refine List.filter_congr ?_
      intro z _
      rw [hcount z]
    rw [List.filter_cons, hfilter]
    by_cases hxy : eq_value h x y = true
    · -- `x` equals its successor
      have hc' : ∀ z ∈ y :: rest,
          (c' z ≠ 0 ↔ true = true ∧ eq_value h (first_or 0 (y :: rest)) z = true) := by
        intro z hz
        simp only [first_or_cons, true_and]
        constructor
        · intro hne
          have hxz : eq_value h x z = true := by
            by_cases hzx : eq_value h z x = true
            · exact eq_value_symm h hzx
            · simp only [c', hzx, if_false, add_zero] at hne
              have := (hc z (List.mem_cons_of_mem _ hz)).1 hne
              simpa using this.2
          exact eq_value_trans h (eq_value_symm h hxy) hxz
        · intro hyz
          have : eq_value h z x = true :=
            eq_value_symm h (eq_value_trans h hxy hyz)
          simp [c', this]
      have hxout : ¬ (c x + (x :: y :: rest).countP (eq_value h x) = 1) := by
        simp only [List.countP_cons, eq_value_refl, hxy, if_true]
        omega
      rw [dedup_from, if_pos hxy, dedup_from_sorted h (y :: rest) true c' hs' hc']
      simp [hxout]
    · -- `x` differs from its successor, hence from every later element
      have hxne : ∀ z ∈ y :: rest, ¬ eq_value h x z = true := by
        intro z hz hxz
        apply hxy
        rw [eq_value_iff] at hxz ⊢
        exact ⟨hxle y (List.mem_cons_self _ _), le_value_trans h _ _ _ (hyle z hz) hxz.2⟩
      have hc' : ∀ z ∈ y :: rest,
          (c' z ≠ 0 ↔ false = true ∧ eq_value h (first_or 0 (y :: rest)) z = true) := by
        intro z hz
        simp only [Bool.false_eq_true, false_and, iff_false, not_not]
        have hzx : ¬ eq_value h z x = true := fun e => hxne z hz (eq_value_symm h e)
        simp only [c', hzx, if_false, add_zero]
        by_contra hne
        have := (hc z (List.mem_cons_of_mem _ hz)).1 hne
        simp only [first_or_cons] at this
        exact hxne z hz this.2
      have hzero : (y :: rest).countP (eq_value h x) = 0 := by
        rw [List.countP_eq_zero]
        exact hxne
      rw [dedup_from, if_neg hxy, dedup_from_sorted h (y :: rest) false c' hs' hc']
      cases flag with
      | true =>
        have : c x ≠ 0 := hx.2 rfl
        have hxout : ¬ (c x + (x :: y :: rest).countP (eq_value h x) = 1) := by
          rw [List.countP_cons]
          simp only [eq_value_refl, if_true]
          omega
        simp [hxout]
      | false =>
        have h0 : c x = 0 := by
          by_contra h0
          exact absurd (hx.1 h0) (by simp)
        have hxin : c x + (x :: y :: rest).countP (eq_value h x) = 1 := by
          rw [List.countP_cons, hzero, h0]
          simp [eq_value_refl]
        simp [hxin]

/-! ## `q_delete_dup` -/

theorem eq_value_congr {h h' : Heap} (hv : h'.value = h.value) : eq_value h' = eq_value h := by
  funext x y
  simp [eq_value, hv]

theorem le_value_congr {h h' : Heap} (hv : h'.value = h.value) : le_value h' = le_value h := by
  funext x y
  simp [le_value, hv]

theorem q_delete_dup_loop_eq (head : Nat) :
    ∀ (rest kept : List Nat) (h : Heap) (fuel : Nat) (compare : Option (List Nat)),
      Ring h head (kept ++ rest) → rest.length < fuel →
      ∃ h', q_delete_dup_loop head fuel h (first_or head rest)
            (h.next (first_or head rest)) compare = some h' ∧
        Ring h' head (kept ++ dedup_from (eq_value h) compare.isSome rest) ∧
        h'.value = h.value
  | [], kept, h, fuel, compare, hr, hf => by
    cases fuel with
    | zero => simp at hf
    | succ fuel =>
      simp only [first_or_nil, q_delete_dup_loop, if_true]
      exact ⟨h, rfl, hr, rfl⟩
  | [x], kept, h, fuel, compare, hr, hf => by
    cases fuel with
    | zero => simp at hf
    | succ fuel =>
      have hx : x ≠ head := hr.mem_ne_head (by simp)
      have hn : h.next x = head := by simpa using hr.next_mid
      simp only [List.length_singleton] at hf
      simp only [first_or_cons, q_delete_dup_loop, hx, if_false, hn, ne_eq, not_true_eq_false]
      cases hcmp : compare.isSome with
      | true =>
        have hr1 : Ring (q_release_element (Queue.list_del h x) x) head (kept ++ []) :=
          hr.list_del.free x
        obtain ⟨h', he, hr', hv⟩ := q_delete_dup_loop_eq head [] kept _ fuel none hr1 (by
          simp only [List.length_nil]; omega)
        simp only [first_or_nil] at he
        simp only [if_true]
        exact ⟨h', he, by simpa [dedup_from] using hr', hv⟩
      | false =>
        have hr1 : Ring h head ((kept ++ [x]) ++ []) := by simpa using hr
        obtain ⟨h', he, hr', hv⟩ := q_delete_dup_loop_eq head [] (kept ++ [x]) h fuel compare
          hr1 (by simp only [List.length_nil]; omega)
        simp only [first_or_nil] at he
        simp only [Bool.false_eq_true, if_false]
        exact ⟨h', he, by simpa [dedup_from] using hr', hv⟩
  | x :: y :: r, kept, h, fuel, compare, hr, hf => by
    cases fuel with
    | zero => simp at hf
    | succ fuel =>
      have hx : x ≠ head := hr.mem_ne_head (by simp)
      have hy : y ≠ head := hr.mem_ne_head (by simp)
      have hn : h.next x = y := by simpa using hr.next_mid
      simp only [List.length_cons] at hf
      have hf' : (y :: r).length < fuel := by
        simp only [List.length_cons]; omega
      have hr1 : Ring (q_release_element (Queue.list_del h x) x) head (kept ++ y :: r) :=
        hr.list_del.free x
      have hr2 : Ring h head ((kept ++ [x]) ++ y :: r) := by simpa using hr
      simp only [first_or_cons, q_delete_dup_loop, hx, if_false, hn, ne_eq, hy,
        not_false_eq_true, if_true]
      by_cases hxy : strcmp (h.value x) (h.value y) = 0
      · have hxy' : eq_value h x y = true := by simpa [eq_value] using hxy
        obtain ⟨h', he, hr', hv⟩ := q_delete_dup_loop_eq head (y :: r) kept _ fuel
          (some (h.value y)) hr1 hf'
        simp only [first_or_cons] at he
        rw [if_pos hxy]
        refine ⟨h', he, ?_, hv⟩
        rw [dedup_from, if_pos hxy']
        exact hr'
      · have hxy' : ¬ eq_value h x y = true := by simpa [eq_value] using hxy
        rw [if_neg hxy]
        cases hcmp : compare.isSome with
        | true =>
          obtain ⟨h', he, hr', hv⟩ := q_delete_dup_loop_eq head (y :: r) kept _ fuel
            none hr1 hf'
          simp only [first_or_cons] at he
          simp only [if_true]
          refine ⟨h', he, ?_, hv⟩
          rw [dedup_from, if_neg hxy', if_pos rfl]
          exact hr'
        | false =>
          obtain ⟨h', he, hr', hv⟩ := q_delete_dup_loop_eq head (y :: r) (kept ++ [x]) h fuel
            compare hr2 hf'
          simp only [first_or_cons] at he
          simp only [Bool.false_eq_true, if_false]
          refine ⟨h', he, ?_, hv⟩
          rw [dedup_from, if_neg hxy', if_neg (by simp)]
          rw [hcmp] at hr'
          simpa using hr'

/-- The function `q_delete_dup` on a ring, in terms of what its loop keeps. -/
theorem Ring.q_delete_dup_loop {h : Heap} {head : Nat} {l : List Nat} (hr : Ring h head l)
    (fuel : Nat) (hf : l.length < fuel) :
    ∃ h', Queue.q_delete_dup h head fuel = some (true, h') ∧
      Ring h' head (dedup_from (eq_value h) false l) ∧ h'.value = h.value := by
  have hr0 : Ring h head ([] ++ l) := hr
  obtain ⟨h', he, hr', hv⟩ := q_delete_dup_loop_eq head l [] h fuel none hr0 hf
  rw [← hr.next_head] at he
  refine ⟨h', ?_, by simpa using hr', hv⟩
  simp only [Queue.q_delete_dup, hr.head_ne, if_false, he]

/-- Two different nodes with the property count for two. -/
theorem two_le_countP (p : Nat → Bool) : ∀ (l : List Nat) (x y : Nat), l.Nodup →
    x ∈ l → y ∈ l → x ≠ y → p x = true → p y = true → 2 ≤ l.countP p
  | [], _, _, _, hx, _, _, _, _ => by simp at hx
  | z :: l, x, y, hnd, hx, hy, hxy, px, py => by
    rw [List.countP_cons]
    simp only [List.mem_cons] at hx hy
    have hnd' := (List.nodup_cons.1 hnd).2
    rcases hx with rfl | hx
    · rcases hy with rfl | hy
      · exact absurd rfl hxy
      · have : 0 < l.countP p := List.countP_pos_iff.2 ⟨y, hy, py⟩
        simp only [px, if_true]
        omega
    · rcases hy with rfl | hy
      · have : 0 < l.countP p := List.countP_pos_iff.2 ⟨x, hx, px⟩
        simp only [py, if_true]
        omega
      · have := two_le_countP p l x y hnd' hx hy hxy px py
        omega

/-! ## `merge` -/

theorem Seg_frame {f g : Nat → Nat} {l : List Nat} {p q : Nat} (hs : Seg f p l q)
    (hfg : ∀ x ∈ l, g x = f x) : Seg g p l q :=
  (Seg_congr l p q (fun x hx => (hfg x hx).symm)).1 hs

/-- A chain that ends with `NULL` starts with `NULL` exactly when it is empty. -/
theorem Seg_null_start {f : Nat → Nat} {l : List Nat} {p : Nat} (hs : Seg f p l 0)
    (h0 : 0 ∉ l) : p = 0 ↔ l = [] := by
  cases l with
  | nil => simpa using hs
  | cons x xs =>
    simp only [Seg_cons] at hs
    simp only [List.mem_cons, not_or] at h0
    simp only [reduceCtorEq, iff_false]
    rw [hs.1]
    exact fun e => h0.1 e.symm

theorem merge_loop_eq :
    ∀ (fuel : Nat) (la lb : List Nat) (h : Heap) (a b p : Nat),
      Seg h.next a la 0 → Seg h.next b lb 0 → (p :: (la ++ lb)).Nodup → 0 ∉ la ++ lb →
      la.length + lb.length < fuel →
      ∃ h' b' p', merge_loop fuel h a b p = some (h', b', p') ∧
        Seg (h'.setNext p' b').next ((h'.setNext p' b').next p)
          (List.merge la lb (le_value h)) 0 ∧
        (∀ x, x ∉ p :: (la ++ lb) → (h'.setNext p' b').next x = h.next x) ∧
        h'.prev = h.prev ∧ h'.value = h.value ∧ h'.freed = h.freed
  | 0, _, _, _, _, _, _, _, _, _, _, hf => by omega
  | fuel + 1, [], lb, h, a, b, p, ha, hb, hnd, h0, hf => by
    simp only [Seg_nil] at ha
    subst ha
    refine ⟨h, b, p, by simp [merge_loop], ?_, ?_, rfl, rfl, rfl⟩
    · simp only [setNext_next, if_true, List.nil_merge]
      refine Seg_frame hb ?_
      intro x hx
      have : x ≠ p := by
        rintro rfl
        exact (List.nodup_cons.1 hnd).1 (by simpa using hx)
      simp [this]
    · intro x hx
      simp only [List.mem_cons, not_or] at hx
      simp [hx.1]
  | fuel + 1, x :: la, [], h, a, b, p, ha, hb, hnd, h0, hf => by
    simp only [Seg_nil] at hb
    subst hb
    obtain ⟨rfl, ha2⟩ := ha
    have ha0 : a ≠ 0 := by
      intro e
      apply h0
      simp [e]
    refine ⟨h, a, p, by simp [merge_loop, ha0], ?_, ?_, rfl, rfl, rfl⟩
    · simp only [setNext_next, if_true, List.merge_right]
      have hs : Seg h.next a (a :: la) 0 := ⟨rfl, ha2⟩
      refine Seg_frame hs ?_
      intro y hy
      have : y ≠ p := by
        rintro rfl
        exact (List.nodup_cons.1 hnd).1 (by simpa using hy)
      simp [this]
    · intro y hy
      simp only [List.mem_cons, not_or] at hy
      simp [hy.1]
  | fuel + 1, x :: la, y :: lb, h, a, b, p, ha, hb, hnd, h0, hf => by
    obtain ⟨rfl, ha2⟩ := ha
    obtain ⟨rfl, hb2⟩ := hb
    have ha0 : a ≠ 0 := by
      intro e
      apply h0
      simp [e]
    have hb0 : b ≠ 0 := by
      intro e
      apply h0
      simp [e]
    have hp : p ∉ a :: la ++ b :: lb := (List.nodup_cons.1 hnd).1
    have hnd1 : (a :: la ++ b :: lb).Nodup := (List.nodup_cons.1 hnd).2
    have hpa : a ≠ p := by
      rintro rfl
      exact hp (by simp)
    have hpb : b ≠ p := by
      rintro rfl
      exact hp (by simp)
    simp only [List.length_cons] at hf
    by_cases hle : strcmp (h.value a) (h.value b) ≤ 0
    · have hle' : le_value h a b = true := by simpa [le_value] using hle
      -- the node `a` is appended
      have hsa : Seg (h.setNext p a).next (h.next a) la 0 := by
        refine Seg_frame ha2 ?_
        intro z hz
        have : z ≠ p := by
          rintro rfl
          exact hp (by simp [hz])
        simp [this]
      have hsb : Seg (h.setNext p a).next b (b :: lb) 0 := by
        have hs : Seg h.next b (b :: lb) 0 := ⟨rfl, hb2⟩
        refine Seg_frame hs ?_
        intro z hz
        have : z ≠ p := by
          rintro rfl
          exact hp (List.mem_append_right _ hz)
        simp [this]
      have h0' : 0 ∉ la ++ b :: lb := by
        intro hm
        apply h0
        simp only [List.cons_append, List.mem_cons, List.mem_append] at hm ⊢
        tauto
      obtain ⟨h', b', p', he, hseg, hfr, hpv, hvl, hfd⟩ :=
        merge_loop_eq fuel la (b :: lb) (h.setNext p a) (h.next a) b a hsa hsb hnd1 h0'
          (by simp only [List.length_cons]; omega)
      refine ⟨h', b', p', ?_, ?_, ?_, hpv, hvl, hfd⟩
      · simp only [merge_loop, ha0, hb0, ne_eq, not_false_eq_true, if_true, if_false, hle,
          setNext_next, hpa]
        exact he
      · have hpn : (h'.setNext p' b').next p = a := by
          rw [hfr p hp]
          simp
        rw [hpn, List.cons_merge_cons_pos _ _ _ hle']
        exact ⟨rfl, hseg⟩
      · intro z hz
        have hz' : z ∉ a :: (la ++ b :: lb) := fun hm => hz (List.mem_cons_of_mem _ hm)
        rw [hfr z hz']
        have : z ≠ p := by
          rintro rfl
          exact hz (List.mem_cons_self _ _)
        simp [this]
    · have hle' : ¬ le_value h a b = true := by simpa [le_value] using hle
      -- the node `b` is appended
      have hsa : Seg (h.setNext p b).next a (a :: la) 0 := by
        have hs : Seg h.next a (a :: la) 0 := ⟨rfl, ha2⟩
        refine Seg_frame hs ?_
        intro z hz
        have : z ≠ p := by
          rintro rfl
          exact hp (List.mem_append_left _ hz)
        simp [this]
      have hsb : Seg (h.setNext p b).next (h.next b) lb 0 := by
        refine Seg_frame hb2 ?_
        intro z hz
        have : z ≠ p := by
          rintro rfl
          exact hp (by simp [hz])
        simp [this]
      have hnd2 : (b :: (a :: la ++ lb)).Nodup := by
        refine (List.Perm.nodup_iff ?_).1 hnd1
        exact List.perm_middle
      have h0' : 0 ∉ a :: la ++ lb := by
        intro hm
        apply h0
        simp only [List.cons_append, List.mem_cons, List.mem_append] at hm ⊢
        tauto
      have hpb' : p ∉ b :: (a :: la ++ lb) := by
        intro hm
        apply hp
        simp only [List.cons_append, List.mem_cons, List.mem_append] at hm ⊢
        tauto
      obtain ⟨h', b', p', he, hseg, hfr, hpv, hvl, hfd⟩ :=
        merge_loop_eq fuel (a :: la) lb (h.setNext p b) a (h.next b) b hsa hsb hnd2 h0'
          (by simp only [List.length_cons]; omega)
      refine ⟨h', b', p', ?_, ?_, ?_, hpv, hvl, hfd⟩
      · simp only [merge_loop, ha0, hb0, ne_eq, not_false_eq_true, if_true, if_false, hle,
          setNext_next, hpb]
        exact he
      · have hpn : (h'.setNext p' b').next p = b := by
          rw [hfr p hpb']
          simp
        rw [hpn, List.cons_merge_cons_neg _ _ _ hle']
        exact ⟨rfl, hseg⟩
      · intro z hz
        have hz' : z ∉ b :: (a :: la ++ lb) := by
          intro hm
          apply hz
          simp only [List.cons_append, List.mem_cons, List.mem_append] at hm ⊢
          tauto
        rw [hfr z hz']
        have : z ≠ p := by
          rintro rfl
          exact hz (List.mem_cons_self _ _)
        simp [this]

/-- The function `merge` of two `NULL`-terminated chains is the left-biased merge of their
nodes; it only relinks these nodes. -/
theorem merge_eq (fuel : Nat) (la lb : List Nat) (h : Heap) (a b : Nat)
    (ha : Seg h.next a la 0) (hb : Seg h.next b lb 0) (hnd : (la ++ lb).Nodup)
    (h0 : 0 ∉ la ++ lb) (hf : la.length + lb.length < fuel + 1) :
    ∃ r h', merge fuel h a b = some (r, h') ∧
      Seg h'.next r (List.merge la lb (le_value h)) 0 ∧
      (∀ x, x ∉ la ++ lb → h'.next x = h.next x) ∧
      h'.prev = h.prev ∧ h'.value = h.value ∧ h'.freed = h.freed := by
  have h0a : 0 ∉ la := fun hm => h0 (List.mem_append_left _ hm)
  have h0b : 0 ∉ lb := fun hm => h0 (List.mem_append_right _ hm)
  cases la with
  | nil =>
    simp only [Seg_nil] at ha
    subst ha
    refine ⟨b, h, by simp [merge], ?_, fun _ _ => rfl, rfl, rfl, rfl⟩
    simpa using hb
  | cons x la =>
    cases lb with
    | nil =>
      simp only [Seg_nil] at hb
      subst hb
      have ha0 : a ≠ 0 := ((Seg_null_start ha h0a).not).2 (by simp)
      refine ⟨a, h, by simp [merge, ha0], ?_, fun _ _ => rfl, rfl, rfl, rfl⟩
      simpa using ha
    | cons y lb =>
      have ha0 : a ≠ 0 := ((Seg_null_start ha h0a).not).2 (by simp)
      have hb0 : b ≠ 0 := ((Seg_null_start hb h0b).not).2 (by simp)
      obtain ⟨rfl, ha2⟩ := ha
      obtain ⟨rfl, hb2⟩ := hb
      simp only [List.length_cons] at hf
      by_cases hle : strcmp (h.value a) (h.value b) ≤ 0
      · have hle' : le_value h a b = true := by simpa [le_value] using hle
        have hsb : Seg h.next b (b :: lb) 0 := ⟨rfl, hb2⟩
        have h0' : 0 ∉ la ++ b :: lb := by
          intro hm
          apply h0
          simp only [List.cons_append, List.mem_cons, List.mem_append] at hm ⊢
          tauto
        obtain ⟨h', b', p', he, hseg, hfr, hpv, hvl, hfd⟩ :=
          merge_loop_eq fuel la (b :: lb) h (h.next a) b a ha2 hsb hnd h0'
            (by simp only [List.length_cons]; omega)
        refine ⟨a, h'.setNext p' b', ?_, ?_, ?_, hpv, hvl, hfd⟩
        · simp only [merge, ha0, hb0, if_false, hle, if_true, merge_from, he]
        · rw [List.cons_merge_cons_pos _ _ _ hle']
          exact ⟨rfl, hseg⟩
        · intro z hz
          exact hfr z hz
      · have hle' : ¬ le_value h a b = true := by simpa [le_value] using hle
        have hsa : Seg h.next a (a :: la) 0 := ⟨rfl, ha2⟩
        have hnd2 : (b :: (a :: la ++ lb)).Nodup := by
          refine (List.Perm.nodup_iff ?_).1 hnd
          exact List.perm_middle
        have h0' : 0 ∉ a :: la ++ lb := by
          intro hm
          apply h0
          simp only [List.cons_append, List.mem_cons, List.mem_append] at hm ⊢
          tauto
        obtain ⟨h', b', p', he, hseg, hfr, hpv, hvl, hfd⟩ :=
          merge_loop_eq fuel (a :: la) lb h a (h.next b) b hsa hb2 hnd2 h0'
            (by simp only [List.length_cons]; omega)
        refine ⟨b, h'.setNext p' b', ?_, ?_, ?_, hpv, hvl, hfd⟩
        · simp only [merge, ha0, hb0, if_false, hle, merge_from, he]
        · rw [List.cons_merge_cons_neg _ _ _ hle']
          exact ⟨rfl, hseg⟩
        · intro z hz
          refine hfr z ?_
          intro hm
          apply hz
          simp only [List.cons_append, List.mem_cons, List.mem_append] at hm ⊢
          tauto

/-! ## `merge_sort` -/

theorem nth_or_eq_iff {d : Nat} {l : List Nat} (hd : d ∉ l) (j : Nat) :
    nth_or d l j = d ↔ l.length ≤ j := by
  constructor
  · intro e
    by_contra hj
    have := nth_or_mem d l j (by omega)
    rw [e] at this
    exact hd this
  · exact nth_or_of_le d l j

theorem Seg_first_nth {f : Nat → Nat} {l : List Nat} {p q : Nat} (hs : Seg f p l q) :
    p = nth_or q l 0 := by
  cases l with
  | nil => simpa using hs
  | cons x xs => exact hs.1

/-- The slow pointer stops on the node at position `(n - 1) / 2`. -/
theorem merge_sort_split_eq {h : Heap} {l : List Nat} {p : Nat} (hs : Seg h.next p l 0)
    (h0 : 0 ∉ l) :
    ∀ (fuel k : Nat), 2 * k < l.length → l.length < 2 * (fuel + k) →
      merge_sort_split h fuel (nth_or 0 l k) (nth_or 0 l (2 * k + 1)) =
        some (nth_or 0 l ((l.length - 1) / 2))
  | 0, k, h1, h2 => by omega
  | fuel + 1, k, h1, h2 => by
    unfold merge_sort_split
    by_cases ha : nth_or 0 l (2 * k + 1) = 0
    · have : l.length ≤ 2 * k + 1 := (nth_or_eq_iff h0 _).1 ha
      have e : (l.length - 1) / 2 = k := by omega
      simp [ha, e]
    · have hlt : 2 * k + 1 < l.length := by
        rw [nth_or_eq_iff h0] at ha
        omega
      rw [Seg_nth l p _ hs hlt]
      by_cases hb : nth_or 0 l (2 * k + 1 + 1) = 0
      · have : l.length ≤ 2 * k + 1 + 1 := (nth_or_eq_iff h0 _).1 hb
        have e : (l.length - 1) / 2 = k := by omega
        simp [hb, e]
      · have hlt2 : 2 * k + 1 + 1 < l.length := by
          rw [nth_or_eq_iff h0] at hb
          omega
        simp only [ne_eq, ha, not_false_eq_true, hb, and_self, if_true]
        rw [Seg_nth l p _ hs hlt2, Seg_nth l p _ hs (by omega)]
        have e : 2 * k + 1 + 1 + 1 = 2 * (k + 1) + 1 := by omega
        rw [e]
        exact merge_sort_split_eq hs h0 fuel (k + 1) (by omega) (by omega)

/-- The recursion of `List.mergeSort`: the first `(n + 1) / 2` elements and
the others are sorted and merged. -/
theorem mergeSort_halves (le : Nat → Nat → Bool) (l : List Nat) (hl : 2 ≤ l.length) :
    l.mergeSort le =
      List.merge ((l.take ((l.length + 1) / 2)).mergeSort le)
        ((l.drop ((l.length + 1) / 2)).mergeSort le) le := by
  match l, hl with
  | a :: b :: xs, _ =>
    rw [List.mergeSort]
    simp only [List.splitInTwo_fst, List.splitInTwo_snd]

theorem take_succ_nth (d : Nat) (l : List Nat) (j : Nat) (hj : j < l.length) :
    l.take (j + 1) = l.take j ++ [nth_or d l j] := by
  have e := split_at_nth d l j hj
  have hlen : (l.take j).length = j := by
    rw [List.length_take]
    omega
  have e2 : l.take (j + 1) = (l.take j ++ nth_or d l j :: l.drop (j + 1)).take (j + 1) := by
    rw [← e]
  rw [e2, List.take_append_eq_append_take, hlen]
  have h1 : (l.take j).take (j + 1) = l.take j := by
    rw [List.take_take]
    congr 1
    omega
  rw [h1]
  simp

theorem merge_sort_eq :
    ∀ (fuel : Nat) (l : List Nat) (h : Heap) (first : Nat),
      Seg h.next first l 0 → l.Nodup → 0 ∉ l → l.length < fuel + 1 → 0 < fuel →
      ∃ r h', merge_sort fuel h first = some (r, h') ∧
        Seg h'.next r (l.mergeSort (le_value h)) 0 ∧
        (∀ x, x ∉ l → h'.next x = h.next x) ∧
        h'.prev = h.prev ∧ h'.value = h.value ∧ h'.freed = h.freed
  | 0, _, _, _, _, _, _, _, hpos => by omega
  | fuel + 1, [], h, first, hs, _, _, _, _ => by
    simp only [Seg_nil] at hs
    subst hs
    exact ⟨0, h, by simp [merge_sort], by simp, fun _ _ => rfl, rfl, rfl, rfl⟩
  | fuel + 1, [x], h, first, hs, _, h0, _, _ => by
    simp only [Seg_cons, Seg_nil] at hs
    obtain ⟨rfl, hn⟩ := hs
    have hx : first ≠ 0 := by
      intro e
      apply h0
      simp [e]
    refine ⟨first, h, by simp [merge_sort, hx, hn], ?_, fun _ _ => rfl, rfl, rfl, rfl⟩
    simp [hn]
  | fuel + 1, a :: b :: xs, h, first, hs, hnd, h0, hf, _ => by
    -- the chain and its two halves
    have hlen2 : 2 ≤ (a :: b :: xs).length := by simp
    generalize hl : a :: b :: xs = l at hs hnd h0 hf hlen2 ⊢
    have hfirst : first = nth_or 0 l 0 := Seg_first_nth hs
    have hfirst0 : first ≠ 0 := by
      rw [hfirst, Ne, nth_or_eq_iff h0]
      omega
    have hnext : h.next first = nth_or 0 l 1 := by
      rw [hfirst]
      exact Seg_nth l first 0 hs (by omega)
    have hnext0 : h.next first ≠ 0 := by
      rw [hnext, Ne, nth_or_eq_iff h0]
      omega
    have hsplit : merge_sort_split h (fuel + 1) first (h.next first) =
        some (nth_or 0 l ((l.length - 1) / 2)) := by
      rw [hnext, hfirst]
      exact merge_sort_split_eq hs h0 (fuel + 1) 0 (by omega) (by omega)
    -- the position of the cut
    have hj : (l.length - 1) / 2 < l.length := by omega
    have hm : (l.length + 1) / 2 = (l.length - 1) / 2 + 1 := by omega
    have hdecomp := split_at_nth 0 l ((l.length - 1) / 2) hj
    have htake : l.take ((l.length + 1) / 2) =
        l.take ((l.length - 1) / 2) ++ [nth_or 0 l ((l.length - 1) / 2)] := by
      rw [hm]
      exact take_succ_nth 0 l _ hj
    generalize hmid : nth_or 0 l ((l.length - 1) / 2) = mid at hsplit hdecomp htake
    generalize hl1 : l.take ((l.length - 1) / 2) = l1 at hdecomp htake
    have hdrop : l.drop ((l.length + 1) / 2) = l.drop ((l.length - 1) / 2 + 1) := by rw [hm]
    generalize hl2 : l.drop ((l.length - 1) / 2 + 1) = l2 at hdecomp hdrop
    have hlen1 : (l.take ((l.length + 1) / 2)).length = (l.length + 1) / 2 := by
      rw [List.length_take]
      omega
    have hlen2' : (l.drop ((l.length + 1) / 2)).length = l.length - (l.length + 1) / 2 := by
      rw [List.length_drop]
    -- the links of the halves
    have hs' := hs
    rw [hdecomp, Seg_middle] at hs'
    have hnd' := hnd
    rw [hdecomp] at hnd'
    have hmid1 : mid ∉ l1 := by
      intro hm1
      exact (List.nodup_append.1 hnd').2.2 hm1 (List.mem_cons_self _ _)
    have hmid2 : mid ∉ l2 := (List.nodup_cons.1 (List.nodup_append.1 hnd').2.1).1
    have hdisj : ∀ z, z ∈ l1 ++ [mid] → z ∈ l2 → False := by
      intro z hz1 hz2
      simp only [List.mem_append, List.mem_singleton] at hz1
      rcases hz1 with hz1 | rfl
      · exact (List.nodup_append.1 hnd').2.2 hz1 (List.mem_cons_of_mem _ hz2)
      · exact hmid2 hz2
    have hsa : Seg (h.setNext mid 0).next first (l1 ++ [mid]) 0 := by
      rw [Seg_snoc]
      refine ⟨Seg_frame hs'.1 ?_, by simp⟩
      intro z hz
      have : z ≠ mid := fun e => hmid1 (e ▸ hz)
      simp [this]
    have hsb : Seg (h.setNext mid 0).next (h.next mid) l2 0 := by
      refine Seg_frame hs'.2 ?_
      intro z hz
      have : z ≠ mid := fun e => hmid2 (e ▸ hz)
      simp [this]
    have hnda : (l1 ++ [mid]).Nodup := by
      refine List.Nodup.sublist ?_ hnd'
      exact List.Sublist.append_left (List.Sublist.cons₂ _ (List.nil_sublist _)) _
    have hndb : l2.Nodup := (List.nodup_cons.1 (List.nodup_append.1 hnd').2.1).2
    have h0a : 0 ∉ l1 ++ [mid] := by
      intro hm0
      apply h0
      rw [hdecomp]
      simp only [List.mem_append, List.mem_singleton, List.mem_cons] at hm0 ⊢
      tauto
    have h0b : 0 ∉ l2 := by
      intro hm0
      apply h0
      rw [hdecomp]
      simp only [List.mem_append, List.mem_cons]
      tauto
    have hla : (l1 ++ [mid]).length = (l.length + 1) / 2 := by rw [← htake, hlen1]
    have hlb : l2.length = l.length - (l.length + 1) / 2 := by rw [← hdrop, hlen2']
    have hfpos : 0 < fuel := by omega
    -- the two recursive calls
    obtain ⟨r1, h1, he1, hseg1, hfr1, hpv1, hvl1, hfd1⟩ :=
      merge_sort_eq fuel (l1 ++ [mid]) (h.setNext mid 0) first hsa hnda h0a (by omega) hfpos
    have hsb1 : Seg h1.next (h.next mid) l2 0 := by
      refine Seg_frame hsb ?_
      intro z hz
      exact hfr1 z (fun hz1 => hdisj z hz1 hz)
    obtain ⟨r2, h2, he2, hseg2, hfr2, hpv2, hvl2, hfd2⟩ :=
      merge_sort_eq fuel l2 h1 (h.next mid) hsb1 hndb h0b (by omega) hfpos
    have hle1 : le_value (h.setNext mid 0) = le_value h := rfl
    have hle2 : le_value h1 = le_value h := le_value_congr hvl1
    have hle3 : le_value h2 = le_value h := le_value_congr (hvl2.trans hvl1)
    rw [hle1] at hseg1
    rw [hle2] at hseg2
    have hp1 := List.mergeSort_perm (l1 ++ [mid]) (le_value h)
    have hp2 := List.mergeSort_perm l2 (le_value h)
    have hseg1' : Seg h2.next r1 ((l1 ++ [mid]).mergeSort (le_value h)) 0 := by
      refine Seg_frame hseg1 ?_
      intro z hz
      exact hfr2 z (fun hz2 => hdisj z (hp1.mem_iff.1 hz) hz2)
    -- the merge
    have hndm : (((l1 ++ [mid]).mergeSort (le_value h)) ++ (l2.mergeSort (le_value h))).Nodup := by
      refine (List.Perm.nodup_iff (hp1.append hp2)).2 ?_
      rw [List.append_assoc, List.singleton_append]
      exact hnd'
    have h0m : 0 ∉ ((l1 ++ [mid]).mergeSort (le_value h)) ++ (l2.mergeSort (le_value h)) := by
      intro hm0
      rw [List.mem_append, hp1.mem_iff, hp2.mem_iff] at hm0
      rcases hm0 with hm0 | hm0
      · exact h0a hm0
      · exact h0b hm0
    have hlm : ((l1 ++ [mid]).mergeSort (le_value h)).length +
        (l2.mergeSort (le_value h)).length < fuel + 1 + 1 := by
      rw [hp1.length_eq, hp2.length_eq, hla, hlb]
      omega
    obtain ⟨r, h3, he3, hseg3, hfr3, hpv3, hvl3, hfd3⟩ :=
      merge_eq (fuel + 1) _ _ h2 r1 r2 hseg1' hseg2 hndm h0m hlm
    rw [hle3] at hseg3
    refine ⟨r, h3, ?_, ?_, ?_, ?_, ?_, ?_⟩
    · rw [merge_sort]
      simp only [hfirst0, hnext0, if_false, hsplit, he1, he2]
      exact he3
    · rw [mergeSort_halves _ l hlen2, htake, hdrop]
      exact hseg3
    · intro z hz
      have hz1 : z ∉ l1 ++ [mid] := by
        intro hm1
        apply hz
        rw [hdecomp]
        simp only [List.mem_append, List.mem_singleton, List.mem_cons] at hm1 ⊢
        tauto
      have hz2 : z ∉ l2 := by
        intro hm2
        apply hz
        rw [hdecomp]
        simp only [List.mem_append, List.mem_cons]
        tauto
      have hzm : z ≠ mid := by
        rintro rfl
        exact hz1 (by simp)
      rw [hfr3 z (by
        intro hm3
        rw [List.mem_append, hp1.mem_iff, hp2.mem_iff] at hm3
        rcases hm3 with hm3 | hm3
        · exact hz1 hm3
        · exact hz2 hm3), hfr2 z hz2, hfr1 z hz1]
      simp [hzm]
    · rw [hpv3, hpv2, hpv1]
      rfl
    · rw [hvl3, hvl2, hvl1]
      rfl
    · rw [hfd3, hfd2, hfd1]
      rfl

/-! ## `q_sort` -/

theorem exists_snoc_last (d : Nat) : ∀ l : List Nat, l ≠ [] → ∃ l', l = l' ++ [last_or d l]
  | [], hl => absurd rfl hl
  | [x], _ => ⟨[], rfl⟩
  | x :: y :: l, _ => by
    obtain ⟨l', hl'⟩ := exists_snoc_last x (y :: l) (by simp)
    refine ⟨x :: l', ?_⟩
    rw [last_or_cons, List.cons_append, ← hl']

/-- Redirecting the link of the last node of a chain. -/
theorem Seg_retarget {f g : Nat → Nat} {l : List Nat} {p q q' z : Nat}
    (hs : Seg f p (l ++ [z]) q) (hz : z ∉ l) (hgz : g z = q')
    (hg : ∀ x, x ≠ z → g x = f x) : Seg g p (l ++ [z]) q' := by
  rw [Seg_snoc] at hs ⊢
  refine ⟨Seg_frame hs.1 ?_, hgz⟩
  intro x hx
  exact hg x (fun e => hz (e ▸ hx))

theorem q_sort_rebuild_eq :
    ∀ (ls : List Nat) (h : Heap) (p fuel : Nat),
      Seg h.next (h.next p) ls 0 → 0 ∉ ls → (p :: ls).Nodup → ls.length < fuel →
      ∃ h', q_sort_rebuild fuel h p = some (h', last_or p ls) ∧ h'.next = h.next ∧
        Seg h'.prev (last_or p ls) ls.reverse p ∧ (∀ z, z ∉ ls → h'.prev z = h.prev z) ∧
        h'.value = h.value ∧ h'.freed = h.freed
  | [], h, p, fuel, hs, _, _, hf => by
    cases fuel with
    | zero => simp at hf
    | succ fuel =>
      simp only [Seg_nil] at hs
      refine ⟨h, by simp [q_sort_rebuild, hs], rfl, by simp, fun _ _ => rfl, rfl, rfl⟩
  | x :: xs, h, p, fuel, hs, h0, hnd, hf => by
    cases fuel with
    | zero => simp at hf
    | succ fuel =>
      simp only [Seg_cons] at hs
      obtain ⟨hpx, hs2⟩ := hs
      have hx0 : x ≠ 0 := by
        intro e
        apply h0
        simp [e]
      have hxxs : x ∉ xs := (List.nodup_cons.1 (List.nodup_cons.1 hnd).2).1
      simp only [List.length_cons] at hf
      obtain ⟨h', he, hn, hseg, hfr, hvl, hfd⟩ :=
        q_sort_rebuild_eq xs (h.setPrev x p) x fuel hs2
          (fun hm => h0 (List.mem_cons_of_mem _ hm)) (List.nodup_cons.1 hnd).2 (by omega)
      refine ⟨h', ?_, hn, ?_, ?_, hvl, hfd⟩
      · simp only [q_sort_rebuild, hpx, ne_eq, hx0, not_false_eq_true, if_true, setPrev_next,
          last_or_cons]
        exact he
      · rw [last_or_cons, List.reverse_cons, Seg_snoc]
        refine ⟨hseg, ?_⟩
        rw [hfr x hxxs]
        simp
      · intro z hz
        simp only [List.mem_cons, not_or] at hz
        rw [hfr z hz.2]
        simp [hz.1]

/-- The function `q_sort` leaves the ring of the nodes in the order of the stable merge sort
of the list. -/
theorem Ring.q_sort {h : Heap} {head : Nat} {l : List Nat} (hr : Ring h head l)
    (fuel : Nat) (hf : l.length < fuel) :
    ∃ h', Queue.q_sort h head fuel = some h' ∧ Ring h' head (l.mergeSort (le_value h)) ∧
      h'.value = h.value ∧ h'.freed = h.freed := by
  unfold Queue.q_sort
  rw [if_neg hr.head_ne]
  by_cases he : list_empty h head = true
  · have hl : l = [] := hr.list_empty_iff.1 he
    subst hl
    rw [if_pos he]
    exact ⟨h, rfl, by simpa using hr, rfl, rfl⟩
  · rw [if_neg he]
    by_cases hsg : list_is_singular h head = true
    · have hl : l.length = 1 := hr.list_is_singular_iff.1 hsg
      obtain ⟨a, rfl⟩ := List.length_eq_one.1 hl
      rw [if_pos hsg]
      exact ⟨h, rfl, by simpa using hr, rfl, rfl⟩
    · rw [if_neg hsg]
      have hne : l ≠ [] := fun e => he (hr.list_empty_iff.2 e)
      have hlen : 2 ≤ l.length := by
        rw [hr.list_is_singular_iff] at hsg
        have : l.length ≠ 0 := fun e => hne (List.length_eq_zero.1 e)
        omega
      -- the ring is cut after its last node
      obtain ⟨l', hl'⟩ := exists_snoc_last head l hne
      have hlast_mem : last_or head l ∈ l := by
        rw [hl']
        simp
      have hlast_ne : last_or head l ≠ head := hr.mem_ne_head hlast_mem
      have hlast_nmem : last_or head l ∉ l' := by
        intro hm
        have hnd := hr.nodup_nodes
        rw [hl'] at hnd
        exact (List.nodup_append.1 hnd).2.2 hm (List.mem_singleton_self _)
      have hcut : Seg (h.setNext (h.prev head) 0).next
          ((h.setNext (h.prev head) 0).next head) l 0 := by
        rw [hr.prev_head]
        simp only [setNext_next, hlast_ne.symm, if_false]
        have hfwd := hr.fwd
        rw [hl'] at hfwd ⊢
        refine Seg_retarget hfwd hlast_nmem ?_ ?_
        · rw [← hl']; simp
        · intro x hx
          rw [← hl']
          simp [hx]
      obtain ⟨r, h2, he2, hseg2, hfr2, hpv2, hvl2, hfd2⟩ :=
        merge_sort_eq fuel l (h.setNext (h.prev head) 0) _ hcut hr.nodup_nodes hr.zero_nmem
          (by omega) (by omega)
      have hle : le_value (h.setNext (h.prev head) 0) = le_value h := rfl
      rw [hle] at hseg2
      generalize hls : l.mergeSort (le_value h) = ls at hseg2 ⊢
      have hperm : ls.Perm l := by
        rw [← hls]
        exact List.mergeSort_perm l _
      have hhead_ls : head ∉ ls := fun hm => hr.head_nmem (hperm.mem_iff.1 hm)
      have h0_ls : 0 ∉ ls := fun hm => hr.zero_nmem (hperm.mem_iff.1 hm)
      have hnd_ls : (head :: ls).Nodup :=
        (List.Perm.nodup_iff (List.Perm.cons _ hperm)).2 hr.nodup
      have hls_ne : ls ≠ [] := by
        intro e
        have := hperm.length_eq
        rw [e] at this
        simp only [List.length_nil] at this
        omega
      -- the chain hangs from the sentinel again
      have hseg3 : Seg (h2.setNext head r).next ((h2.setNext head r).next head) ls 0 := by
        simp only [setNext_next, if_true]
        refine Seg_frame hseg2 ?_
        intro x hx
        have : x ≠ head := fun e => hhead_ls (e ▸ hx)
        simp [this]
      obtain ⟨h4, he4, hn4, hseg4, hfr4, hvl4, hfd4⟩ :=
        q_sort_rebuild_eq ls (h2.setNext head r) head fuel hseg3 h0_ls hnd_ls
          (by rw [hperm.length_eq]; exact hf)
      simp only [he2, he4]
      obtain ⟨ls', hls'⟩ := exists_snoc_last head ls hls_ne
      have hp_mem : last_or head ls ∈ ls := by
        rw [hls']
        simp
      have hp_ne : last_or head ls ≠ head := fun e => hhead_ls (e ▸ hp_mem)
      have hp_nmem : last_or head ls ∉ ls' := by
        intro hm
        have hnd := (List.nodup_cons.1 hnd_ls).2
        rw [hls'] at hnd
        exact (List.nodup_append.1 hnd).2.2 hm (List.mem_singleton_self _)
      refine ⟨_, rfl, ⟨hr.1, h0_ls, hnd_ls, ?_, ?_⟩, ?_, ?_⟩
      · have hstart : ((h4.setNext (last_or head ls) head).setPrev head
            (last_or head ls)).next head = r := by
          simp only [setPrev_next, setNext_next, hp_ne.symm, if_false, hn4, if_true]
        rw [hstart]
        have hseg3' : Seg (h2.setNext head r).next r ls 0 := by
          simpa using hseg3
        rw [hls'] at hseg3' ⊢
        refine Seg_retarget hseg3' hp_nmem ?_ ?_
        · rw [← hls']; simp
        · intro x hx
          rw [← hls']
          simp only [setPrev_next, setNext_next, hx, if_false, hn4]
      · simp only [setPrev_prev, setNext_prev, if_true]
        refine Seg_frame hseg4 ?_
        intro x hx
        have : x ≠ head := fun e => hhead_ls (e ▸ List.mem_reverse.1 hx)
        simp [this]
      · show h4.value = h.value
        rw [hvl4]
        exact hvl2
      · show h4.freed = h.freed
        rw [hfd4]
        exact hfd2

/-! ## The ring invariant in terms of the links -/

/-- In a ring every node is the `prev` of its `next` and the `next` of its
`prev`. -/
theorem Ring.linkInv {h : Heap} {head : Nat} {l : List Nat} (hr : Ring h head l) :
    LinkInv h head l := by
  intro n hn
  simp only [List.mem_cons] at hn
  rcases hn with rfl | hn
  · constructor
    · rw [hr.next_head]
      have hr' : Ring h n ([] ++ l) := hr
      simpa using hr'.prev_first
    · rw [hr.prev_head]
      have hr' : Ring h n (l ++ []) := by simpa using hr
      simpa using hr'.next_last
  · obtain ⟨l1, l2, rfl⟩ := List.append_of_mem hn
    constructor
    · rw [hr.next_mid]
      have hr' : Ring h head ((l1 ++ [n]) ++ l2) := by simpa using hr
      simpa using hr'.prev_first
    · rw [hr.prev_mid]
      simpa using hr.next_last

/-- Walking back along a chain whose links are inverted by `g`. -/
theorem Seg_reverse_of_inv {f g : Nat → Nat} {q : Nat} :
    ∀ (l : List Nat) (a : Nat), Seg f (f a) l q → (∀ n ∈ a :: l, g (f n) = n) →
      Seg g (g q) l.reverse a
  | [], a, hs, hinv => by
    simp only [Seg_nil] at hs
    simp only [List.reverse_nil, Seg_nil]
    rw [← hs]
    exact hinv a (List.mem_cons_self _ _)
  | x :: xs, a, hs, hinv => by
    simp only [Seg_cons] at hs
    obtain ⟨hax, hs2⟩ := hs
    rw [List.reverse_cons, Seg_snoc]
    refine ⟨Seg_reverse_of_inv xs x hs2 (fun n hn => hinv n (List.mem_cons_of_mem _ hn)), ?_⟩
    rw [← hax]
    exact hinv a (List.mem_cons_self _ _)

/-- A chain with invertible links that meets a node twice contains the node it
started from. -/
theorem Seg_start_mem_of_dup {f g : Nat → Nat} {q : Nat} :
    ∀ (l : List Nat) (a : Nat), Seg f (f a) l q → (∀ n ∈ a :: l, g (f n) = n) →
      ¬ l.Nodup → a ∈ l
  | [], _, _, _, hnd => absurd List.nodup_nil hnd
  | x :: xs, a, hs, hinv, hnd => by
    simp only [Seg_cons] at hs
    obtain ⟨hax, hs2⟩ := hs
    have hxin : x ∈ xs := by
      by_contra hx
      have hnd2 : ¬ xs.Nodup := fun h2 => hnd (List.nodup_cons.2 ⟨hx, h2⟩)
      exact hx (Seg_start_mem_of_dup xs x hs2
        (fun n hn => hinv n (List.mem_cons_of_mem _ hn)) hnd2)
    obtain ⟨m1, m2, rfl⟩ := List.append_of_mem hxin
    rw [Seg_middle] at hs2
    -- the node before the second occurrence of `x` has the same `next` as `a`
    have hlast : f (last_or x m1) = x := by
      rcases List.eq_nil_or_concat m1 with rfl | ⟨m, z, rfl⟩
      · simpa using hs2.1
      · rw [List.concat_eq_append, Seg_snoc] at hs2
        simpa using hs2.1.2
    have hmem : last_or x m1 ∈ x :: m1 := last_or_mem m1 x
    have hmem' : last_or x m1 ∈ a :: x :: (m1 ++ x :: m2) := by
      simp only [List.mem_cons, List.mem_append] at hmem ⊢
      tauto
    have e1 := hinv a (List.mem_cons_self _ _)
    have e2 := hinv _ hmem'
    rw [hax] at e1
    rw [hlast] at e2
    have : a = last_or x m1 := e1.symm.trans e2
    rw [this]
    simp only [List.mem_cons, List.mem_append] at hmem ⊢
    tauto

/-- The two descriptions of a well-formed ring agree. -/
theorem ring_iff_ringInv (h : Heap) (head : Nat) (l : List Nat) :
    Ring h head l ↔ RingInv h head l := by
  constructor
  · intro hr
    exact ⟨hr.head_ne, hr.zero_nmem, hr.head_nmem, hr.linkInv, hr.fwd⟩
  · rintro ⟨hh, h0, hhl, hinv, hfwd⟩
    have hinv1 : ∀ n ∈ head :: l, h.prev (h.next n) = n := fun n hn => (hinv n hn).1
    refine ⟨hh, h0, ?_, hfwd, Seg_reverse_of_inv l head hfwd hinv1⟩
    refine List.nodup_cons.2 ⟨hhl, ?_⟩
    by_contra hnd
    exact hhl (Seg_start_mem_of_dup l head hfwd hinv1 hnd)

/-! ## Short rings and positions -/

theorem getElem?_eq_nth_or (d : Nat) : ∀ (l : List Nat) (j : Nat), j < l.length →
    l[j]? = some (nth_or d l j)
  | [], _, hj => by simp at hj
  | x :: xs, 0, _ => by simp
  | x :: xs, j + 1, hj => by
    simp only [List.length_cons, Nat.add_lt_add_iff_right] at hj
    simp [getElem?_eq_nth_or d xs j hj]

/-- The function `q_swap` does not write to a ring of fewer than two elements. -/
theorem Ring.q_swap_short {h : Heap} {head : Nat} {l : List Nat} (hr : Ring h head l)
    (hl : l.length ≤ 1) (fuel : Nat) (hf : l.length < fuel) :
    Queue.q_swap h head fuel = some h := by
  unfold Queue.q_swap
  rw [if_neg hr.head_ne]
  match l, hr, hl, hf with
  | [], hr, _, _ =>
    have he : list_empty h head = true := hr.list_empty_iff.2 rfl
    rw [if_pos he]
  | [a], hr, _, hf =>
    have he : ¬ list_empty h head = true := by
      rw [hr.list_empty_iff]
      simp
    rw [if_neg he]
    cases fuel with
    | zero => simp at hf
    | succ fuel =>
      have hr0 : Ring h head ([] ++ a :: []) := hr
      have hn : h.next head = a := by simpa using hr.next_head
      have hn2 : h.next a = head := by simpa using hr0.next_mid
      simp [q_swap_loop, hn, hn2]

/-! ## Round trips -/

theorem strlen_stored : ∀ s : List Nat, strlen (cstr s ++ [0]) = strlen s
  | [] => by simp [cstr, strlen]
  | c :: s => by
    by_cases hc : c = 0
    · simp [cstr, strlen, hc]
    · simp [cstr, strlen, hc, strlen_stored s]

theorem cstr_stored : ∀ s : List Nat, cstr (cstr s ++ [0]) = cstr s
  | [] => by simp [cstr]
  | c :: s => by
    by_cases hc : c = 0
    · simp [cstr, hc]
    · simp [cstr, hc, cstr_stored s]

/-- The stored copy of a string reads as the string, terminator included. -/
theorem char_at_stored : ∀ (s : List Nat) (i : Nat), i ≤ strlen s →
    char_at (cstr s ++ [0]) i = char_at s i
  | [], i, hi => by
    simp only [strlen, Nat.le_zero] at hi
    simp [cstr, char_at, hi]
  | c :: s, i, hi => by
    by_cases hc : c = 0
    · simp only [strlen, hc, if_true, Nat.le_zero] at hi
      simp [cstr, char_at, hc, hi]
    · simp only [strlen, hc, if_false] at hi
      simp only [cstr, hc, if_false, List.cons_append]
      cases i with
      | zero => simp [char_at]
      | succ i =>
        rw [char_at_cons_succ, char_at_cons_succ]
        exact char_at_stored s i (by omega)

/-- Two rings with the same sentinel and the same elements have the same links
on their nodes. -/
theorem Ring.links_eq {h h' : Heap} {head : Nat} {l : List Nat} (hr : Ring h head l)
    (hr' : Ring h' head l) :
    ∀ x ∈ head :: l, h'.next x = h.next x ∧ h'.prev x = h.prev x := by
  intro x hx
  simp only [List.mem_cons] at hx
  rcases hx with rfl | hx
  · exact ⟨by rw [hr.next_head, hr'.next_head], by rw [hr.prev_head, hr'.prev_head]⟩
  · obtain ⟨l1, l2, rfl⟩ := List.append_of_mem hx
    exact ⟨by rw [hr.next_mid, hr'.next_mid], by rw [hr.prev_mid, hr'.prev_mid]⟩

/-! ## The left-biased merge of two lists -/

theorem sublist_merge_left (le : Nat → Nat → Bool) :
    ∀ (la lb : List Nat), la.Sublist (List.merge la lb le)
  | [], lb => by simp
  | x :: la, [] => by simp
  | x :: la, y :: lb => by
    by_cases hxy : le x y = true
    · rw [List.cons_merge_cons_pos _ _ _ hxy]
      exact (sublist_merge_left le la (y :: lb)).cons₂ x
    · rw [List.cons_merge_cons_neg _ _ _ hxy]
      exact (sublist_merge_left le (x :: la) lb).cons y

theorem sublist_merge_right (le : Nat → Nat → Bool) :
    ∀ (la lb : List Nat), lb.Sublist (List.merge la lb le)
  | [], lb => by simp
  | x :: la, [] => by simp
  | x :: la, y :: lb => by
    by_cases hxy : le x y = true
    · rw [List.cons_merge_cons_pos _ _ _ hxy]
      exact (sublist_merge_right le la (y :: lb)).cons x
    · rw [List.cons_merge_cons_neg _ _ _ hxy]
      exact (sublist_merge_right le (x :: la) lb).cons₂ y

/-- In the merge of two sorted lists a node of the left list comes before
every node of the right list that it does not exceed. -/
theorem pair_sublist_merge (le : Nat → Nat → Bool)
    (trans : ∀ a b c, le a b = true → le b c = true → le a c = true) :
    ∀ (la lb : List Nat), la.Pairwise (fun x y => le x y = true) →
      ∀ a ∈ la, ∀ b ∈ lb, le a b = true → [a, b].Sublist (List.merge la lb le)
  | [], _, _, a, ha, _, _, _ => by simp at ha
  | x :: la, [], _, _, _, b, hb, _ => by simp at hb
  | x :: la, y :: lb, hs, a, ha, b, hb, hab => by
    have hs' : la.Pairwise (fun x y => le x y = true) := (List.pairwise_cons.1 hs).2
    by_cases hxy : le x y = true
    · rw [List.cons_merge_cons_pos _ _ _ hxy]
      simp only [List.mem_cons] at ha
      rcases ha with rfl | ha
      · refine List.Sublist.cons₂ _ ?_
        rw [List.singleton_sublist]
        exact List.mem_merge_right le hb
      · exact (pair_sublist_merge le trans la (y :: lb) hs' a ha b hb hab).cons x
    · rw [List.cons_merge_cons_neg _ _ _ hxy]
      have hxa : le x a = true ∨ a = x := by
        simp only [List.mem_cons] at ha
        rcases ha with rfl | ha
        · exact Or.inr rfl
        · exact Or.inl ((List.pairwise_cons.1 hs).1 a ha)
      have hby : b ≠ y := by
        rintro rfl
        rcases hxa with hxa | rfl
        · exact hxy (trans _ _ _ hxa hab)
        · exact hxy hab
      have hb' : b ∈ lb := by
        simp only [List.mem_cons] at hb
        rcases hb with rfl | hb
        · exact absurd rfl hby
        · exact hb
      exact (pair_sublist_merge le trans (x :: la) lb hs a ha b hb' hab).cons y

/-! ## The split of `merge_sort` -/

/-- The slow/fast loop of `merge_sort` on a chain of at least two nodes stops on
the last of the first `(n + 1) / 2` nodes; cutting the chain after it leaves
the chain of these nodes and the chain of the other `n / 2` nodes. -/
theorem merge_sort_split_spec {h : Heap} {l : List Nat} {first : Nat}
    (hs : Seg h.next first l 0) (hnd : l.Nodup) (h0 : 0 ∉ l) (hlen : 2 ≤ l.length)
    (fuel : Nat) (hf : l.length ≤ fuel) :
    ∃ mid, merge_sort_split h fuel first (h.next first) = some mid ∧
      mid = nth_or 0 l ((l.length + 1) / 2 - 1) ∧
      Seg (h.setNext mid 0).next first (l.take ((l.length + 1) / 2)) 0 ∧
      Seg (h.setNext mid 0).next (h.next mid) (l.drop ((l.length + 1) / 2)) 0 := by
  have hfirst : first = nth_or 0 l 0 := Seg_first_nth hs
  have hnext : h.next first = nth_or 0 l 1 := by
    rw [hfirst]
    exact Seg_nth l first 0 hs (by omega)
  have hidx : (l.length + 1) / 2 - 1 = (l.length - 1) / 2 := by omega
  have hsplit : merge_sort_split h fuel first (h.next first) =
      some (nth_or 0 l ((l.length - 1) / 2)) := by
    rw [hnext, hfirst]
    cases fuel with
    | zero => omega
    | succ fuel =>
      exact merge_sort_split_eq hs h0 (fuel + 1) 0 (by omega) (by omega)
  have hj : (l.length - 1) / 2 < l.length := by omega
  have hm : (l.length + 1) / 2 = (l.length - 1) / 2 + 1 := by omega
  have hdecomp := split_at_nth 0 l ((l.length - 1) / 2) hj
  have htake : l.take ((l.length + 1) / 2) =
      l.take ((l.length - 1) / 2) ++ [nth_or 0 l ((l.length - 1) / 2)] := by
    rw [hm]
    exact take_succ_nth 0 l _ hj
  refine ⟨_, hsplit, by rw [hidx], ?_, ?_⟩
  · rw [htake]
    generalize nth_or 0 l ((l.length - 1) / 2) = mid at hdecomp ⊢
    generalize l.take ((l.length - 1) / 2) = l1 at hdecomp ⊢
    generalize l.drop ((l.length - 1) / 2 + 1) = l2 at hdecomp
    subst hdecomp
    rw [Seg_middle] at hs
    have hmid1 : mid ∉ l1 := fun hm1 =>
      (List.nodup_append.1 hnd).2.2 hm1 (List.mem_cons_self _ _)
    rw [Seg_snoc]
    refine ⟨Seg_frame hs.1 ?_, by simp⟩
    intro z hz
    have : z ≠ mid := fun e => hmid1 (e ▸ hz)
    simp [this]
  · rw [hm]
    generalize nth_or 0 l ((l.length - 1) / 2) = mid at hdecomp ⊢
    generalize l.take ((l.length - 1) / 2) = l1 at hdecomp ⊢
    generalize l.drop ((l.length - 1) / 2 + 1) = l2 at hdecomp ⊢
    subst hdecomp
    rw [Seg_middle] at hs
    have hmid2 : mid ∉ l2 := (List.nodup_cons.1 (List.nodup_append.1 hnd).2.1).1
    refine Seg_frame hs.2 ?_
    intro z hz
    have : z ≠ mid := fun e => hmid2 (e ▸ hz)
    simp [this]

/-! ## What the loop of `q_delete_dup` keeps, on any list -/

theorem dedup_from_sublist (eq : Nat → Nat → Bool) :
    ∀ (l : List Nat) (flag : Bool), (dedup_from eq flag l).Sublist l
  | [], _ => by simp [dedup_from]
  | [x], flag => by
    cases flag <;> simp [dedup_from]
  | x :: y :: rest, flag => by
    rw [dedup_from]
    split
    · exact (dedup_from_sublist eq (y :: rest) true).cons x
    · split
      · exact (dedup_from_sublist eq (y :: rest) false).cons x
      · exact (dedup_from_sublist eq (y :: rest) false).cons₂ x

/-- An element is kept exactly when it differs from the element before it and
from the element after it (and, for the first one, when the flag is not set). -/
theorem mem_dedup_from (eq : Nat → Nat → Bool) :
    ∀ (l : List Nat) (flag : Bool) (l1 : List Nat) (x : Nat) (l2 : List Nat),
      l = l1 ++ x :: l2 → l.Nodup →
      (x ∈ dedup_from eq flag l ↔
        (l1 = [] → flag = false) ∧ (∀ p, l1.getLast? = some p → eq p x = false) ∧
          (∀ s, l2.head? = some s → eq x s = false))
  | [], _, l1, x, l2, hl, _ => by simp at hl
  | [a], flag, l1, x, l2, hl, _ => by
    cases l1 with
    | nil =>
      simp only [List.nil_append, List.cons.injEq] at hl
      obtain ⟨rfl, rfl⟩ := hl
      cases flag <;> simp [dedup_from]
    | cons c l1 => simp at hl
  | a :: b :: rest, flag, l1, x, l2, hl, hnd => by
    have hnd' : (b :: rest).Nodup := (List.nodup_cons.1 hnd).2
    have ha : a ∉ b :: rest := (List.nodup_cons.1 hnd).1
    cases l1 with
    | nil =>
      simp only [List.nil_append, List.cons.injEq] at hl
      obtain ⟨rfl, rfl⟩ := hl
      have hout : ∀ f, a ∉ dedup_from eq f (b :: rest) := fun f hm =>
        ha ((dedup_from_sublist eq (b :: rest) f).subset hm)
      rw [dedup_from]
      by_cases hab : eq a b = true
      · simp [hab, hout]
      · cases flag with
        | true => simp [hab, hout]
        | false => simp [hab]
    | cons c l1 =>
      simp only [List.cons_append, List.cons.injEq] at hl
      obtain ⟨rfl, hl'⟩ := hl
      have hxa : x ≠ a := by
        rintro rfl
        apply ha
        rw [hl']
        simp
      have ih := fun f => mem_dedup_from eq (b :: rest) f l1 x l2 hl' hnd'
      have hlast : (∀ p, (a :: l1).getLast? = some p → eq p x = false) ↔
          (l1 = [] → eq a b = false) ∧ (∀ p, l1.getLast? = some p → eq p x = false) := by
        cases l1 with
        | nil =>
          simp only [List.nil_append, List.cons.injEq] at hl'
          obtain ⟨rfl, _⟩ := hl'
          simp
        | cons d l1 => simp [List.getLast?_cons_cons]
      rw [dedup_from]
      by_cases hab : eq a b = true
      · rw [if_pos hab, ih true, hlast]
        simp only [hab, Bool.true_eq_false, imp_false, reduceCtorEq, false_implies, true_and]
        tauto
      · have hab' : eq a b = false := by simpa using hab
        cases flag with
        | true =>
          rw [if_neg hab, if_pos rfl, ih false, hlast]
          simp [hab']
        | false =>
          rw [if_neg hab, if_neg (by simp), List.mem_cons, ih false, hlast]
          simp [hab', hxa]

/-- On an empty ring `q_delete_dup` writes nothing. -/
theorem Ring.q_delete_dup_nil {h : Heap} {head : Nat} (hr : Ring h head []) (fuel : Nat)
    (hf : 0 < fuel) : Queue.q_delete_dup h head fuel = some (true, h) := by
  have hn : h.next head = head := by simpa using hr.next_head
  cases fuel with
  | zero => omega
  | succ fuel => simp [Queue.q_delete_dup, hr.head_ne, hn, Queue.q_delete_dup_loop]

/-! ## Filling and draining a queue -/

theorem insert_tail_all_ring (head : Nat) :
    ∀ (items : List (List Nat × Nat × List Nat)) (h : Heap) (l : List Nat),
      Ring h head l →
      (items.map (fun it => it.2.1)).Nodup →
      (∀ it ∈ items, it.2.1 ≠ 0 ∧ it.2.1 ∉ head :: l ∧ strlen it.1 < INT_MAX ∧
        it.2.2.length = strlen it.1 + 1) →
      Ring (insert_tail_all head h items) head (l ++ items.map (fun it => it.2.1)) ∧
        (∀ it ∈ items, (insert_tail_all head h items).value it.2.1 = cstr it.1 ++ [0]) ∧
        (∀ x, x ∉ items.map (fun it => it.2.1) →
          (insert_tail_all head h items).value x = h.value x)
  | [], h, l, hr, _, _ => by
    refine ⟨?_, ?_, ?_⟩
    · simpa [insert_tail_all] using hr
    · simp
    · intro x _
      rfl
  | (s, n, b) :: items, h, l, hr, hnd, hit => by
    have hitem := hit (s, n, b) (List.mem_cons_self _ _)
    simp only at hitem
    obtain ⟨hn0, hn, hs, hb⟩ := hitem
    simp only [List.map_cons, List.nodup_cons] at hnd
    have hr1 := (hr.q_insert_tail s b hn0 hn).2
    have heq := q_insert_tail_eq h head s b n hr.head_ne hn0 hs hb
    have hit' : ∀ it ∈ items, it.2.1 ≠ 0 ∧ it.2.1 ∉ head :: (l ++ [n]) ∧
        strlen it.1 < INT_MAX ∧ it.2.2.length = strlen it.1 + 1 := by
      intro it hmem
      obtain ⟨h1, h2, h3, h4⟩ := hit it (List.mem_cons_of_mem _ hmem)
      refine ⟨h1, ?_, h3, h4⟩
      intro hm
      simp only [List.mem_cons, List.mem_append, List.mem_singleton, List.not_mem_nil,
        or_false] at hm h2
      rcases hm with hm | hm | hm
      · exact h2 (Or.inl hm)
      · exact h2 (Or.inr hm)
      · apply hnd.1
        rw [← hm]
        exact List.mem_map_of_mem (fun it => it.2.1) hmem
    obtain ⟨hring, hval, hframe⟩ := insert_tail_all_ring head items _ (l ++ [n]) hr1 hnd.2 hit'
    simp only [insert_tail_all, List.map_cons]
    refine ⟨by simpa using hring, ?_, ?_⟩
    · intro it hmem
      simp only [List.mem_cons] at hmem
      rcases hmem with rfl | hmem
      · simp only
        rw [hframe n hnd.1, heq]
        simp
      · exact hval it hmem
    · intro x hx
      simp only [List.mem_cons, not_or] at hx
      rw [hframe x hx.2, heq]
      simp [hx.1]

theorem remove_head_all_ring (head : Nat) :
    ∀ (l : List Nat) (h : Heap), Ring h head l →
      (remove_head_all head l.length h).1 = l.map (fun x => (x, cstr (h.value x))) ∧
        Ring (remove_head_all head l.length h).2 head [] ∧
        (remove_head_all head l.length h).2.value = h.value
  | [], h, hr => by
    refine ⟨rfl, ?_, rfl⟩
    exact hr
  | x :: xs, h, hr => by
    have heq := q_remove_head_eq hr none 0
    have hr1 := hr.q_remove_head none 0
    obtain ⟨h1, h2, h3⟩ := remove_head_all_ring head xs _ hr1
    simp only [List.length_cons, remove_head_all, List.map_cons]
    rw [heq] at h1 h2 h3 ⊢
    simp only [list_del_init_value] at h1 h3 ⊢
    exact ⟨by rw [h1], h2, h3⟩

/-! ## The remove functions with `bufsize = 0` -/

/-- With `bufsize = 0` the bound `bufsize - 1` is `2^64 - 1`: the length is not
clamped, the string and its terminator are copied, and the final terminator
goes to the offset `2^64 - 1`. -/
theorem remove_copy_bufsize_zero (s : List Nat) (sp : Nat → Nat) (hs : strlen s < INT_MAX) :
    (∀ i, i ≤ strlen s → remove_copy s sp 0 i = char_at s i) ∧
      remove_copy s sp 0 18446744073709551615 = 0 ∧
      (∀ i, strlen s < i → i ≠ 18446744073709551615 → remove_copy s sp 0 i = sp i) := by
  unfold INT_MAX at hs
  have hlen : wrap_int (strlen s) = strlen s := wrap_int_of_lt (by omega) (by omega)
  have hsz : wrap_size (((0 : Nat) : Int) - 1) = 18446744073709551615 := by decide
  have hsl : wrap_size (strlen s : Int) = strlen s := by
    rw [wrap_size_of_lt (by omega) (by omega)]
    simp
  have hnot : ¬ strlen s > 18446744073709551615 := by omega
  have h2 : ((strlen s : Int) + 1).toNat = strlen s + 1 := by omega
  have key : ∀ j, remove_copy s sp 0 j =
      if j = 18446744073709551615 then 0
      else if j < strlen s + 1 then char_at s j else sp j := by
    intro j
    unfold remove_copy
    simp only [hlen, hsz, hsl, hnot, if_false, h2, copy_out_apply]
    by_cases hj : j = 18446744073709551615
    · simp [hj]
    · simp [hj]
  refine ⟨?_, ?_, ?_⟩
  · intro i hi
    rw [key, if_neg (by omega), if_pos (by omega)]
  · rw [key, if_pos rfl]
  · intro i hi hne
    rw [key, if_neg hne, if_neg (by omega)]

/-! ## The strings the inserts store -/

theorem strlen_le_of_char_at_zero : ∀ (s : List Nat) (i : Nat), char_at s i = 0 → strlen s ≤ i
  | [], _, _ => by simp [strlen]
  | c :: s, 0, hc => by
    rw [char_at_cons_zero] at hc
    simp [strlen, hc]
  | c :: s, i + 1, hc => by
    rw [char_at_cons_succ] at hc
    have := strlen_le_of_char_at_zero s i hc
    unfold strlen
    split <;> omega

theorem char_at_set_zero (l : List Nat) (i : Nat) : char_at (l.set i 0) i = 0 := by
  unfold char_at
  by_cases hi : i < l.length
  · simp [List.getD_eq_getElem?_getD, List.getElem?_set, hi]
  · simp [List.getD_eq_getElem?_getD, List.getElem?_set, hi]

theorem strlen_le_length : ∀ s : List Nat, strlen s ≤ s.length
  | [] => by simp [strlen]
  | c :: s => by
    have := strlen_le_length s
    unfold strlen
    split
    · exact Nat.zero_le _
    · simpa using this

theorem copy_loop_length (src : List Nat) : ∀ (n i : Nat) (dst : List Nat),
    (copy_loop src n i dst).length = dst.length
  | 0, _, _ => rfl
  | n + 1, i, dst => by
    rw [copy_loop, copy_loop_length src n (i + 1), List.length_set]

/-- Under the allocator contract the string an insert stores is shorter than
`INT_MAX`, whatever the string it was given. -/
theorem stored_short (s buf : List Nat) (n : Nat) (hb : BufOk s buf) :
    strlen ((copy_loop s n 0 buf).set (wrap_int (strlen s)).toNat 0) < INT_MAX := by
  have h1 := strlen_le_of_char_at_zero _ _
    (char_at_set_zero (copy_loop s n 0 buf) (wrap_int (strlen s)).toNat)
  have h2 := strlen_le_length ((copy_loop s n 0 buf).set (wrap_int (strlen s)).toNat 0)
  rw [List.length_set, copy_loop_length] at h2
  obtain ⟨hb1, hb2⟩ := hb
  unfold INT_MAX
  by_contra hcon
  have hlen : wrap_int (strlen s) = 2147483647 := by
    have hub : wrap_int (strlen s) < 2147483648 := by
      unfold wrap_int
      omega
    omega
  rw [hlen] at hb1
  have : wrap_size (wrap_int (2147483647 + 1)) = 18446744071562067968 := by decide
  omega

/-- The value of every node after `q_insert_head`. -/
theorem q_insert_head_value (h : Heap) (head : Nat) (s buf : List Nat) (new_node : Nat)
    (hh : head ≠ 0) (hn0 : new_node ≠ 0) (x : Nat) :
    (q_insert_head h head (some s) new_node (some buf)).2.value x =
      if x = new_node then
        (copy_loop s (wrap_int (strlen s)).toNat 0 buf).set (wrap_int (strlen s)).toNat 0
      else h.value x := by
  simp only [q_insert_head, hh, hn0, if_false, list_add_value, setValue_value]

/-- The value of every node after `q_insert_tail`. -/
theorem q_insert_tail_value (h : Heap) (head : Nat) (s buf : List Nat) (new_node : Nat)
    (hh : head ≠ 0) (hn0 : new_node ≠ 0) (x : Nat) :
    (q_insert_tail h head (some s) new_node (some buf)).2.value x =
      if x = new_node then
        (copy_loop s (wrap_int (strlen s) + 1).toNat 0 buf).set (wrap_int (strlen s)).toNat 0
      else h.value x := by
  simp only [q_insert_tail, hh, hn0, if_false, list_add_tail_value, setValue_value]

/-! ## Walking a ring -/

theorem ring_nodes_of_seg (h : Heap) (head : Nat) : ∀ (l : List Nat) (fuel p : Nat),
    Seg h.next p l head → head ∉ l → l.length < fuel → ring_nodes h head fuel p = some l
  | [], fuel + 1, p, hs, _, _ => by
    simp only [Seg_nil] at hs
    simp [ring_nodes, hs]
  | x :: xs, fuel + 1, p, hs, hn, hf => by
    simp only [Seg_cons] at hs
    obtain ⟨rfl, hs⟩ := hs
    simp only [List.mem_cons, not_or] at hn
    have hne : p ≠ head := fun e => hn.1 e.symm
    simp only [List.length_cons] at hf
    simp [ring_nodes, hne, ring_nodes_of_seg h head xs fuel _ hs hn.2 (by omega)]

theorem Ring.ring_nodes {h : Heap} {head : Nat} {l : List Nat} (hr : Ring h head l)
    (fuel : Nat) (hf : l.length < fuel) :
    Queue.ring_nodes h head fuel (h.next head) = some l :=
  ring_nodes_of_seg h head l fuel _ hr.fwd hr.head_nmem hf

theorem Ring.fresh {h : Heap} {head : Nat} {l : List Nat} (hr : Ring h head l)
    {fuel new_node : Nat} (hf : l.length < fuel) (hn : FreshNode h head fuel new_node) :
    new_node ≠ 0 ∧ new_node ∉ head :: l := by
  obtain ⟨h0, h1, h2⟩ := hn
  rw [hr.ring_nodes fuel hf] at h2
  refine ⟨h0, ?_⟩
  simp only [List.mem_cons, not_or]
  exact ⟨h1, by simpa using h2⟩

/-! ## Queues built by calls -/

theorem swap_pairs_mem : ∀ (l : List Nat) (x : Nat), x ∈ swap_pairs l → x ∈ l
  | [], _, hx => by simp [swap_pairs] at hx
  | [a], _, hx => by simpa [swap_pairs] using hx
  | a :: b :: rest, x, hx => by
    simp only [swap_pairs, List.mem_cons] at hx ⊢
    rcases hx with hx | hx | hx
    · exact Or.inr (Or.inl hx)
    · exact Or.inl hx
    · exact Or.inr (Or.inr (swap_pairs_mem rest x hx))

/-- One call, made under the allocator contract on a ring whose strings are
shorter than `INT_MAX`, returns and leaves such a ring. -/
theorem run_call_inv {h : Heap} {head : Nat} {l : List Nat} (hr : Ring h head l)
    (hs : ∀ x ∈ l, strlen (h.value x) < INT_MAX) (fuel : Nat) (hf : l.length < fuel)
    (c : Call) (hok : CallOk head fuel h c) :
    ∃ h' l', run_call head fuel h c = some h' ∧ Ring h' head l' ∧
      (∀ x ∈ l', strlen (h'.value x) < INT_MAX) ∧ l'.length ≤ l.length + 1 := by
  have sub : ∀ (h' : Heap) (l' : List Nat), Ring h' head l' → h'.value = h.value →
      (∀ x ∈ l', x ∈ l) → l'.length ≤ l.length →
      Ring h' head l' ∧ (∀ x ∈ l', strlen (h'.value x) < INT_MAX) ∧
        l'.length ≤ l.length + 1 := by
    intro h' l' hr' hv hsub hlen
    refine ⟨hr', ?_, by omega⟩
    intro x hx
    rw [hv]
    exact hs x (hsub x hx)
  cases c with
  | insert_head s new_node buf =>
    obtain ⟨hfresh, hbuf⟩ := hok
    obtain ⟨hn0, hn⟩ := hr.fresh hf hfresh
    refine ⟨_, new_node :: l, rfl, (hr.q_insert_head s buf hn0 hn).2, ?_, by simp⟩
    intro x hx
    rw [q_insert_head_value h head s buf new_node hr.head_ne hn0]
    by_cases hxn : x = new_node
    · rw [if_pos hxn]
      exact stored_short s buf _ hbuf
    · rw [if_neg hxn]
      exact hs x ((List.mem_cons.1 hx).resolve_left hxn)
  | insert_tail s new_node buf =>
    obtain ⟨hfresh, hbuf⟩ := hok
    obtain ⟨hn0, hn⟩ := hr.fresh hf hfresh
    refine ⟨_, l ++ [new_node], rfl, (hr.q_insert_tail s buf hn0 hn).2, ?_, by simp⟩
    intro x hx
    rw [q_insert_tail_value h head s buf new_node hr.head_ne hn0]
    by_cases hxn : x = new_node
    · rw [if_pos hxn]
      exact stored_short s buf _ hbuf
    · rw [if_neg hxn]
      refine hs x ?_
      simpa [hxn] using hx
  | remove_head sp bufsize =>
    cases l with
    | nil =>
      refine ⟨_, [], rfl, ?_, by simp, by simp⟩
      rw [q_remove_head_nil hr]
      exact hr
    | cons y ys =>
      have hv : (q_remove_head h head sp bufsize).2.1.value = h.value := by
        rw [q_remove_head_eq hr]
        simp
      have := sub _ ys (hr.q_remove_head sp bufsize) hv
        (fun x hx => List.mem_cons_of_mem _ hx) (by simp)
      exact ⟨_, ys, rfl, this⟩
  | remove_tail sp bufsize =>
    rcases List.eq_nil_or_concat l with rfl | ⟨ys, y, rfl⟩
    · refine ⟨_, [], rfl, ?_, by simp, by simp⟩
      rw [q_remove_tail_nil hr]
      exact hr
    · rw [List.concat_eq_append] at hr hs hf sub ⊢
      have hv : (q_remove_tail h head sp bufsize).2.1.value = h.value := by
        rw [q_remove_tail_eq hr]
        simp
      have := sub _ ys (hr.q_remove_tail sp bufsize) hv
        (fun x hx => List.mem_append_left _ hx) (by simp)
      exact ⟨_, ys, rfl, this⟩
  | delete_mid =>
    by_cases hne : l = []
    · subst hne
      have he : list_empty h head = true := hr.list_empty_iff.2 rfl
      refine ⟨h, [], ?_, hr, by simp, by simp⟩
      simp [run_call, q_delete_mid, hr.head_ne, he]
    · obtain ⟨h', he, hr', hv, _⟩ := hr.q_delete_mid hne fuel hf
      refine ⟨h', _, ?_, sub h' _ hr' hv (fun x hx => List.mem_of_mem_eraseIdx hx)
        (List.length_eraseIdx_le _ _)⟩
      simp [run_call, he]
  | delete_dup =>
    obtain ⟨h', he, hr', hv⟩ := hr.q_delete_dup_loop fuel hf
    have hsl := dedup_from_sublist (eq_value h) l false
    refine ⟨h', _, ?_, sub h' _ hr' hv (fun x hx => hsl.subset hx) hsl.length_le⟩
    simp [run_call, he]
  | swap =>
    obtain ⟨h', he, hr', hv, _⟩ := hr.q_swap fuel hf
    exact ⟨h', _, he, sub h' _ hr' hv (swap_pairs_mem l) (by rw [swap_pairs_length])⟩
  | reverse =>
    obtain ⟨h', he, hr', hv, _⟩ := hr.q_reverse fuel hf
    exact ⟨h', _, he, sub h' _ hr' hv (fun x hx => List.mem_reverse.1 hx) (by simp)⟩
  | sort =>
    obtain ⟨h', he, hr', hv, _⟩ := hr.q_sort fuel hf
    exact ⟨h', _, he, sub h' _ hr' hv
      (fun x hx => (List.mergeSort_perm l (le_value h)).subset hx)
      (by rw [List.length_mergeSort])⟩

/-- A sequence of calls, made under the allocator contract with more fuel than
the queue can hold elements, returns and leaves a ring whose strings are
shorter than `INT_MAX`. -/
theorem run_calls_inv (head fuel : Nat) : ∀ (cs : List Call) (h : Heap) (l : List Nat),
    Ring h head l → (∀ x ∈ l, strlen (h.value x) < INT_MAX) → l.length + cs.length < fuel →
    CallsOk head fuel h cs →
    ∃ h' l', run_calls head fuel h cs = some h' ∧ Ring h' head l' ∧
      ∀ x ∈ l', strlen (h'.value x) < INT_MAX
  | [], h, l, hr, hs, _, _ => ⟨h, l, rfl, hr, hs⟩
  | c :: cs, h, l, hr, hs, hf, hok => by
    simp only [List.length_cons] at hf
    obtain ⟨hc, hrest⟩ := hok
    obtain ⟨h1, l1, he, hr1, hs1, hl1⟩ := run_call_inv hr hs fuel (by omega) c hc
    rw [he] at hrest
    obtain ⟨h', l', he', hr', hs'⟩ :=
      run_calls_inv head fuel cs h1 l1 hr1 hs1 (by omega) hrest
    refine ⟨h', l', ?_, hr', hs'⟩
    simp only [run_calls, he, he']

/-! ## Removal into a buffer -/

/-- On a non-empty ring whose strings are shorter than `INT_MAX`, the remove
functions leave in the buffer the truncated copy of the string removed. -/
theorem remove_truncated {h : Heap} {head : Nat} {l : List Nat} (hr : Ring h head l)
    (hne : l ≠ []) (hs : ∀ x ∈ l, strlen (h.value x) < INT_MAX) (sp : Nat → Nat)
    (bufsize : Nat) (hb0 : 0 < bufsize) (hb : bufsize < 18446744073709551616) :
    ((q_remove_head h head (some sp) bufsize).1 = first_or head l ∧
      ∃ out, (q_remove_head h head (some sp) bufsize).2.2 = some out ∧
        TruncatedCopy (h.value (first_or head l)) bufsize sp out) ∧
    ((q_remove_tail h head (some sp) bufsize).1 = last_or head l ∧
      ∃ out, (q_remove_tail h head (some sp) bufsize).2.2 = some out ∧
        TruncatedCopy (h.value (last_or head l)) bufsize sp out) := by
  have key : ∀ x ∈ l, TruncatedCopy (h.value x) bufsize sp
      (remove_copy (h.value x) sp bufsize) := by
    intro x hx
    obtain ⟨h1, h2, h3⟩ := remove_copy_spec (h.value x) sp bufsize (hs x hx) hb0 hb
    refine ⟨h1, h2, ?_, h3⟩
    intro hfit i hi
    have hmin : min (strlen (h.value x)) (bufsize - 1) = strlen (h.value x) := by omega
    rw [hmin] at h1 h2
    by_cases hlt : i < strlen (h.value x)
    · exact h1 i hlt
    · have hi' : i = strlen (h.value x) := by omega
      rw [hi', h2, char_at_strlen]
  constructor
  · match l, hr, hne, key with
    | x :: xs, hr, _, key =>
      rw [q_remove_head_eq hr]
      exact ⟨rfl, _, rfl, key x (List.mem_cons_self _ _)⟩
  · rcases List.eq_nil_or_concat l with rfl | ⟨xs, x, rfl⟩
    · exact absurd rfl hne
    · rw [List.concat_eq_append] at hr key ⊢
      rw [q_remove_tail_eq hr, last_or_snoc]
      exact ⟨rfl, _, rfl, key x (by simp)⟩

/-! ## Strings longer than an `int` counts -/

theorem strlen_replicate (c : Nat) (hc : c ≠ 0) : ∀ n : Nat, strlen (List.replicate n c) = n
  | 0 => rfl
  | n + 1 => by
    rw [List.replicate_succ, strlen, if_neg hc, strlen_replicate c hc n]

theorem cstr_replicate (c : Nat) (hc : c ≠ 0) :
    ∀ n : Nat, cstr (List.replicate n c) = List.replicate n c
  | 0 => rfl
  | n + 1 => by
    rw [List.replicate_succ, cstr, if_neg hc, cstr_replicate c hc n]

theorem char_at_replicate (c n i : Nat) (hi : i < n) : char_at (List.replicate n c) i = c := by
  unfold char_at
  rw [List.getD_eq_getElem?_getD, List.getElem?_replicate, if_pos hi]
  rfl

theorem strlen_long_string : strlen long_string = 4294967297 :=
  strlen_replicate 65 (by omega) 4294967297

theorem char_at_long_string (i : Nat) (hi : i < 4294967297) : char_at long_string i = 65 :=
  char_at_replicate 65 4294967297 i hi

/-- The string `long_string` is not the string "A". -/
theorem cstr_long_string_ne : cstr long_string ≠ [65] := by
  intro he
  have h1 := strlen_eq_length_cstr long_string
  rw [strlen_long_string, he] at h1
  exact absurd h1 (by decide)

/-- The function `q_insert_head` on a string of `2^32 + 1` bytes `A`: `len` is
`1`, and with the two bytes asked of `malloc` the string "A" is stored. -/
theorem q_insert_head_long (h : Heap) (head new_node : Nat) (hh : head ≠ 0)
    (hn0 : new_node ≠ 0) :
    q_insert_head h head (some long_string) new_node (some [85, 85]) =
      (true, list_add (h.setValue new_node [65, 0]) new_node head) := by
  have hlen : wrap_int ((4294967297 : Nat) : Int) = 1 := by decide
  have h0 := char_at_long_string 0 (by omega)
  simp only [q_insert_head, hh, hn0, if_false, strlen_long_string, hlen]
  simp [copy_loop, h0]

/-- The function `q_insert_tail` on a string of `2^32 + 1` bytes `A`: `len` is
`1`, and with the two bytes asked of `malloc` the string "A" is stored. -/
theorem q_insert_tail_long (h : Heap) (head new_node : Nat) (hh : head ≠ 0)
    (hn0 : new_node ≠ 0) :
    q_insert_tail h head (some long_string) new_node (some [85, 85]) =
      (true, list_add_tail (h.setValue new_node [65, 0]) new_node head) := by
  have hlen : wrap_int ((4294967297 : Nat) : Int) = 1 := by decide
  have h0 := char_at_long_string 0 (by omega)
  have h1 := char_at_long_string 1 (by omega)
  simp only [q_insert_tail, hh, hn0, if_false, strlen_long_string, hlen]
  simp [copy_loop, h0, h1]

/-! ## Strings shorter than `INT_MAX` -/

/-- Insertion of a string that `int len` can count: on a ring, with a string
`s` shorter than `INT_MAX` and both allocations succeeding (a new element that
is no node of the ring, a buffer of `len + 1` bytes), `q_insert_head` returns `true` and the ring is the new
element followed by the old ones, `q_insert_tail` returns `true` and the ring
is the old elements followed by the new one; both store the bytes of `s` and
its terminator in the new element and leave the other values as they were. -/
theorem q_insert_short (h : Heap) (head : Nat) (l s buf : List Nat) (new_node : Nat)
    (hr : Ring h head l) (hn0 : new_node ≠ 0) (hn : new_node ∉ head :: l)
    (hs : strlen s < INT_MAX) (hb : buf.length = strlen s + 1) :
    ((q_insert_head h head (some s) new_node (some buf)).1 = true ∧
      Ring (q_insert_head h head (some s) new_node (some buf)).2 head (new_node :: l) ∧
      (q_insert_head h head (some s) new_node (some buf)).2.value new_node = cstr s ++ [0] ∧
      ∀ x, x ≠ new_node →
        (q_insert_head h head (some s) new_node (some buf)).2.value x = h.value x) ∧
    ((q_insert_tail h head (some s) new_node (some buf)).1 = true ∧
      Ring (q_insert_tail h head (some s) new_node (some buf)).2 head (l ++ [new_node]) ∧
      (q_insert_tail h head (some s) new_node (some buf)).2.value new_node = cstr s ++ [0] ∧
      ∀ x, x ≠ new_node →
        (q_insert_tail h head (some s) new_node (some buf)).2.value x = h.value x) := by
  have h1 := hr.q_insert_head s buf hn0 hn
  have h2 := hr.q_insert_tail s buf hn0 hn
  refine ⟨⟨h1.1, h1.2, ?_, ?_⟩, ⟨h2.1, h2.2, ?_, ?_⟩⟩
  · rw [q_insert_head_eq h head s buf new_node hr.head_ne hn0 hs hb]
    simp
  · intro x hx
    rw [q_insert_head_eq h head s buf new_node hr.head_ne hn0 hs hb]
    simp [hx]
  · rw [q_insert_tail_eq h head s buf new_node hr.head_ne hn0 hs hb]
    simp
  · intro x hx
    rw [q_insert_tail_eq h head s buf new_node hr.head_ne hn0 hs hb]
    simp [hx]

/-- Round trip of a string that `int len` can count: on a ring,
`q_insert_tail` of a string `s` shorter than `INT_MAX` (both allocations
succeeding) followed by `q_remove_tail`
with a buffer of `len(s) + 1` bytes returns the new element, leaves in the
buffer the `len(s)` bytes of `s` and the terminator, writes nowhere else, and
the ring holds again the elements it held before the insert, with their
values. -/
theorem round_trip_short (h : Heap) (head : Nat) (l s buf : List Nat) (new_node : Nat)
    (sp : Nat → Nat) (hr : Ring h head l) (hn0 : new_node ≠ 0) (hn : new_node ∉ head :: l)
    (hs : strlen s < INT_MAX) (hb : buf.length = strlen s + 1) :
    (q_remove_tail (q_insert_tail h head (some s) new_node (some buf)).2 head (some sp)
        (strlen s + 1)).1 = new_node ∧
    Ring (q_remove_tail (q_insert_tail h head (some s) new_node (some buf)).2 head (some sp)
        (strlen s + 1)).2.1 head l ∧
    (∀ x ∈ l, (q_remove_tail (q_insert_tail h head (some s) new_node (some buf)).2 head
        (some sp) (strlen s + 1)).2.1.value x = h.value x) ∧
    ∃ out, (q_remove_tail (q_insert_tail h head (some s) new_node (some buf)).2 head (some sp)
        (strlen s + 1)).2.2 = some out ∧
      (∀ i, i < strlen s → out i = char_at s i) ∧ out (strlen s) = 0 ∧
      (∀ i, strlen s + 1 ≤ i → out i = sp i) := by
  have hins := q_insert_tail_eq h head s buf new_node hr.head_ne hn0 hs hb
  have hr1 := (hr.q_insert_tail s buf hn0 hn).2
  have hrem := q_remove_tail_eq hr1 (some sp) (strlen s + 1)
  have hr2 := hr1.q_remove_tail (some sp) (strlen s + 1)
  have hval : (q_insert_tail h head (some s) new_node (some buf)).2.value new_node =
      cstr s ++ [0] := by
    rw [hins]
    simp
  rw [hrem] at hr2 ⊢
  refine ⟨rfl, hr2, ?_, remove_copy (cstr s ++ [0]) sp (strlen s + 1), ?_, ?_⟩
  · intro x hx
    have hxn : x ≠ new_node := fun e => hn (List.mem_cons_of_mem _ (e ▸ hx))
    rw [hins]
    simp [hxn]
  · simp only [Option.map_some', hval]
  · have hs' : strlen (cstr s ++ [0]) < INT_MAX := by rw [strlen_stored]; exact hs
    have hb' : strlen s + 1 < 18446744073709551616 := by
      unfold INT_MAX at hs
      omega
    obtain ⟨h1, h2, h3⟩ := remove_copy_spec (cstr s ++ [0]) sp (strlen s + 1) hs' (by omega) hb'
    rw [strlen_stored] at h1 h2
    have hmin : min (strlen s) (strlen s + 1 - 1) = strlen s := by omega
    rw [hmin] at h1 h2
    refine ⟨?_, h2, h3⟩
    intro i hi
    rw [h1 i hi, char_at_stored s i (by omega)]

/-- FIFO order of strings that `int len` can count: inserting strings shorter
than `INT_MAX` (the allocations succeeding with distinct new elements) in order with
`q_insert_tail` into an empty queue and calling `q_remove_head` as many times
returns the elements in the order of insertion, holding the strings in that
order, and leaves the queue empty; one further `q_remove_head` returns
`NULL`. -/
theorem fifo_short (h : Heap) (head : Nat) (items : List (List Nat × Nat × List Nat))
    (hr : Ring h head [])
    (hnd : (items.map (fun it => it.2.1)).Nodup)
    (hit : ∀ it ∈ items, it.2.1 ≠ 0 ∧ it.2.1 ≠ head ∧ strlen it.1 < INT_MAX ∧
      it.2.2.length = strlen it.1 + 1) :
    (remove_head_all head items.length (insert_tail_all head h items)).1 =
      items.map (fun it => (it.2.1, cstr it.1)) ∧
    Ring (remove_head_all head items.length (insert_tail_all head h items)).2 head [] ∧
    (q_remove_head (remove_head_all head items.length (insert_tail_all head h items)).2
      head none 0).1 = 0 := by
  have hit' : ∀ it ∈ items, it.2.1 ≠ 0 ∧ it.2.1 ∉ head :: ([] : List Nat) ∧
      strlen it.1 < INT_MAX ∧ it.2.2.length = strlen it.1 + 1 := by
    intro it hmem
    obtain ⟨h1, h2, h3, h4⟩ := hit it hmem
    exact ⟨h1, by simpa using h2, h3, h4⟩
  obtain ⟨hring, hval, _⟩ := insert_tail_all_ring head items h [] hr hnd hit'
  rw [List.nil_append] at hring
  have hlen : items.length = (items.map (fun it => it.2.1)).length := by simp
  obtain ⟨h1, h2, _⟩ := remove_head_all_ring head _ _ hring
  rw [← hlen] at h1 h2
  refine ⟨?_, h2, ?_⟩
  · rw [h1, List.map_map]
    refine List.map_congr_left ?_
    intro it hmem
    simp only [Function.comp]
    rw [hval it hmem, cstr_stored]
  · rw [q_remove_head_nil h2]

/-! # The claims -/

/-- C1 : for every well-formed ring, with enough fuel `q_sort` returns, the
ring afterwards holds a list of nodes whose values are in ascending `strcmp`
order, this list is a permutation of the nodes before the call, and no value
has changed. -/
theorem q_sort_sorted_perm (h : Heap) (head : Nat) (l : List Nat) (fuel : Nat)
    (hr : Ring h head l) (hf : l.length < fuel) :
    ∃ h' l', q_sort h head fuel = some h' ∧ Ring h' head l' ∧
      l'.Pairwise (fun x y => strcmp (h'.value x) (h'.value y) ≤ 0) ∧
      l'.Perm l ∧ h'.value = h.value ∧ h'.freed = h.freed := by
  obtain ⟨h', he, hr', hv, hfd⟩ := hr.q_sort fuel hf
  refine ⟨h', _, he, hr', ?_, List.mergeSort_perm l _, hv, hfd⟩
  have hs := @List.sorted_mergeSort Nat (le_value h) (le_value_trans h) (le_value_total h) l
  rw [hv]
  refine hs.imp ?_
  intro a b hab
  simpa [le_value] using hab

/-- C1, witness: the queue "banana", "apple", "cherry" is sorted into "apple",
"banana", "cherry". -/
theorem q_sort_sorted_perm_witness :
    Ring (queue_of [banana, apple, cherry]) 1 [2, 3, 4] ∧
    q_strings (queue_of [banana, apple, cherry]) 1 4 = some [banana, apple, cherry] ∧
    (∃ h' l', q_sort (queue_of [banana, apple, cherry]) 1 4 = some h' ∧ Ring h' 1 l' ∧
      l'.Pairwise (fun x y => strcmp (h'.value x) (h'.value y) ≤ 0) ∧
      l'.Perm [2, 3, 4] ∧ h'.value = (queue_of [banana, apple, cherry]).value ∧
      h'.freed = (queue_of [banana, apple, cherry]).freed) ∧
    (q_sort (queue_of [banana, apple, cherry]) 1 4).bind (fun h' => q_strings h' 1 4) =
      some [apple, banana, cherry] :=
  ⟨by decide, by decide,
    q_sort_sorted_perm (queue_of [banana, apple, cherry]) 1 [2, 3, 4] 4 (by decide) (by decide),
    by decide⟩

/-- C2 : `q_sort` is stable: two elements with equal values (`strcmp` returns
`0`), the first before the second in the ring, are in the same order in the
ring after the call. -/
theorem q_sort_stable (h : Heap) (head : Nat) (l : List Nat) (fuel : Nat)
    (hr : Ring h head l) (hf : l.length < fuel) :
    ∃ h' l', q_sort h head fuel = some h' ∧ Ring h' head l' ∧ h'.value = h.value ∧
      ∀ a b, [a, b].Sublist l → strcmp (h.value a) (h.value b) = 0 → [a, b].Sublist l' := by
  obtain ⟨h', he, hr', hv, _⟩ := hr.q_sort fuel hf
  refine ⟨h', _, he, hr', hv, ?_⟩
  intro a b hab heq
  have hle : le_value h a b = true := by
    simp only [le_value, decide_eq_true_eq]
    omega
  exact List.pair_sublist_mergeSort (le_value_trans h) (le_value_total h) hle hab

/-- C2, witness: a queue with two pairs of equal strings. -/
theorem q_sort_stable_witness :
    (∃ h' l', q_sort (queue_of [banana, apple, banana, apple]) 1 5 = some h' ∧ Ring h' 1 l' ∧
      h'.value = (queue_of [banana, apple, banana, apple]).value ∧
      ∀ a b, [a, b].Sublist [2, 3, 4, 5] →
        strcmp ((queue_of [banana, apple, banana, apple]).value a)
          ((queue_of [banana, apple, banana, apple]).value b) = 0 → [a, b].Sublist l') ∧
    (q_sort (queue_of [banana, apple, banana, apple]) 1 5).bind
      (fun h' => ring_nodes h' 1 5 (h'.next 1)) = some [3, 5, 2, 4] :=
  ⟨q_sort_stable (queue_of [banana, apple, banana, apple]) 1 [2, 3, 4, 5] 5 (by decide)
    (by decide), by decide⟩

/-- C3 : on a ring whose values are sorted ascending, with enough fuel
`q_delete_dup` returns `true` and leaves exactly the elements whose value
occurs once in the ring before the call, in their original order; every
element that has an equal-valued other element is gone, wherever its run lies
(in particular the members of a final run, its last member included). -/
theorem q_delete_dup_sorted (h : Heap) (head : Nat) (l : List Nat) (fuel : Nat)
    (hr : Ring h head l)
    (hs : l.Pairwise (fun x y => strcmp (h.value x) (h.value y) ≤ 0))
    (hf : l.length < fuel) :
    ∃ h', q_delete_dup h head fuel = some (true, h') ∧
      Ring h' head (l.filter (fun x => decide (l.countP (eq_value h x) = 1))) ∧
      h'.value = h.value ∧
      (∀ x ∈ l, ∀ y ∈ l, x ≠ y → strcmp (h.value x) (h.value y) = 0 →
        x ∉ l.filter (fun x => decide (l.countP (eq_value h x) = 1))) := by
  obtain ⟨h', he, hr', hv⟩ := hr.q_delete_dup_loop fuel hf
  have hs' : l.Pairwise (fun x y => le_value h x y = true) := by
    refine hs.imp ?_
    intro a b hab
    simpa [le_value] using hab
  have hd := dedup_from_sorted h l false (fun _ => 0) hs' (by simp)
  simp only [Nat.zero_add] at hd
  rw [hd] at hr'
  refine ⟨h', he, hr', hv, ?_⟩
  intro x hx y hy hxy heq hmem
  have hcount := (List.mem_filter.1 hmem).2
  simp only [decide_eq_true_eq] at hcount
  have h2 := two_le_countP (eq_value h x) l x y hr.nodup_nodes hx hy hxy (eq_value_refl h x)
    (by simpa [eq_value] using heq)
  omega

/-- C3, witness: the sorted queue "apple", "apple", "banana", "cherry",
"cherry" keeps "banana" only; its final run "cherry", "cherry" is removed. -/
theorem q_delete_dup_sorted_witness :
    (∃ h', q_delete_dup (queue_of [apple, apple, banana, cherry, cherry]) 1 6 = some (true, h') ∧
      Ring h' 1 ([2, 3, 4, 5, 6].filter (fun x => decide ([2, 3, 4, 5, 6].countP
        (eq_value (queue_of [apple, apple, banana, cherry, cherry]) x) = 1))) ∧
      h'.value = (queue_of [apple, apple, banana, cherry, cherry]).value ∧
      (∀ x ∈ [2, 3, 4, 5, 6], ∀ y ∈ [2, 3, 4, 5, 6], x ≠ y →
        strcmp ((queue_of [apple, apple, banana, cherry, cherry]).value x)
          ((queue_of [apple, apple, banana, cherry, cherry]).value y) = 0 →
        x ∉ [2, 3, 4, 5, 6].filter (fun x => decide ([2, 3, 4, 5, 6].countP
          (eq_value (queue_of [apple, apple, banana, cherry, cherry]) x) = 1)))) ∧
    (q_delete_dup (queue_of [apple, apple, banana, cherry, cherry]) 1 6).bind
      (fun r => q_strings r.2 1 6) = some [banana] :=
  ⟨q_delete_dup_sorted (queue_of [apple, apple, banana, cherry, cherry]) 1 [2, 3, 4, 5, 6] 6
    (by decide) (by decide) (by decide), by decide⟩

/-- C4 : on a ring of `n >= 1` elements, with enough fuel `q_delete_mid`
returns `true`, unlinks and releases exactly the element at position `n / 2`
and leaves the other elements in their order with their values; on an empty
ring and on an absent ring it returns `false` and changes nothing. -/
theorem q_delete_mid_spec (h : Heap) (head : Nat) (l : List Nat) (fuel : Nat)
    (hr : Ring h head l) (hf : l.length < fuel) :
    (l ≠ [] → ∃ h', q_delete_mid h head fuel = some (true, h') ∧
      Ring h' head (l.eraseIdx (l.length / 2)) ∧ h'.value = h.value ∧
      (∃ x, l[l.length / 2]? = some x ∧ h'.freed = x :: h.freed)) ∧
    (l = [] → q_delete_mid h head fuel = some (false, h)) ∧
    q_delete_mid h 0 fuel = some (false, h) := by
  refine ⟨?_, ?_, by simp [q_delete_mid]⟩
  · intro hne
    obtain ⟨h', he, hr', hv, hfd⟩ := hr.q_delete_mid hne fuel hf
    refine ⟨h', he, hr', hv, nth_or head l (l.length / 2), ?_, hfd⟩
    have hpos : 0 < l.length := List.length_pos.2 hne
    exact getElem?_eq_nth_or head l _ (by omega)
  · rintro rfl
    have he : list_empty h head = true := hr.list_empty_iff.2 rfl
    simp [q_delete_mid, hr.head_ne, he]

/-- C4, witness: of six elements the one at position 3 is removed, and a ring
of one element becomes empty. -/
theorem q_delete_mid_spec_witness :
    (∃ h', q_delete_mid (queue_of [[97], [98], [99], [100], [101], [102]]) 1 7 = some (true, h') ∧
        Ring h' 1 (([2, 3, 4, 5, 6, 7] : List Nat).eraseIdx
          (([2, 3, 4, 5, 6, 7] : List Nat).length / 2)) ∧
        h'.value = (queue_of [[97], [98], [99], [100], [101], [102]]).value ∧
        (∃ x, ([2, 3, 4, 5, 6, 7] : List Nat)[([2, 3, 4, 5, 6, 7] : List Nat).length / 2]? =
            some x ∧
          h'.freed = x :: (queue_of [[97], [98], [99], [100], [101], [102]]).freed)) ∧
    (q_delete_mid (queue_of [[97], [98], [99], [100], [101], [102]]) 1 7).bind
      (fun r => q_strings r.2 1 7) = some [[97], [98], [99], [101], [102]] ∧
    (q_delete_mid (queue_of [[97]]) 1 2).bind (fun r => q_strings r.2 1 2) = some [] ∧
    q_delete_mid (queue_of []) 1 1 = some (false, queue_of []) :=
  ⟨(q_delete_mid_spec (queue_of [[97], [98], [99], [100], [101], [102]]) 1 [2, 3, 4, 5, 6, 7] 7
    (by decide) (by decide)).1 (by decide), by decide, by decide,
    (q_delete_mid_spec (queue_of []) 1 [] 1 (by decide) (by decide)).2.1 rfl⟩

/-- C5 : with enough fuel `q_swap` returns and the ring afterwards has, at the
positions `2k` and `2k + 1`, the elements that were at `2k + 1` and `2k`, for
every `k` with `2k + 1 < n`; for odd `n` the last element stays last; values
are unchanged, and a ring of fewer than two elements is not written to. -/
theorem q_swap_spec (h : Heap) (head : Nat) (l : List Nat) (fuel : Nat)
    (hr : Ring h head l) (hf : l.length < fuel) :
    ∃ h' l', q_swap h head fuel = some h' ∧ Ring h' head l' ∧ l'.length = l.length ∧
      (∀ k, 2 * k + 1 < l.length →
        l'[2 * k]? = l[2 * k + 1]? ∧ l'[2 * k + 1]? = l[2 * k]?) ∧
      (l.length % 2 = 1 → l'[l.length - 1]? = l[l.length - 1]?) ∧
      h'.value = h.value ∧ (l.length ≤ 1 → h' = h) := by
  obtain ⟨h', he, hr', hv, _⟩ := hr.q_swap fuel hf
  have hlen := swap_pairs_length l
  refine ⟨h', swap_pairs l, he, hr', hlen, ?_, ?_, hv, ?_⟩
  · intro k hk
    have hp := swap_pairs_pair head l k hk
    rw [getElem?_eq_nth_or head (swap_pairs l) (2 * k) (by omega),
      getElem?_eq_nth_or head (swap_pairs l) (2 * k + 1) (by omega),
      getElem?_eq_nth_or head l (2 * k) (by omega),
      getElem?_eq_nth_or head l (2 * k + 1) (by omega), hp.1, hp.2]
    exact ⟨rfl, rfl⟩
  · intro hodd
    have hp := swap_pairs_last head l hodd
    rw [getElem?_eq_nth_or head (swap_pairs l) (l.length - 1) (by omega),
      getElem?_eq_nth_or head l (l.length - 1) (by omega), hp]
  · intro hshort
    have := hr.q_swap_short hshort fuel hf
    rw [this] at he
    exact (Option.some.inj he).symm

/-- C5, witness: four elements a, b, c, d become b, a, d, c and three elements
a, b, c become b, a, c. -/
theorem q_swap_spec_witness :
    (∃ h' l', q_swap (queue_of [[97], [98], [99], [100]]) 1 5 = some h' ∧ Ring h' 1 l' ∧
      l'.length = ([2, 3, 4, 5] : List Nat).length ∧
      (∀ k, 2 * k + 1 < ([2, 3, 4, 5] : List Nat).length →
        l'[2 * k]? = ([2, 3, 4, 5] : List Nat)[2 * k + 1]? ∧
          l'[2 * k + 1]? = ([2, 3, 4, 5] : List Nat)[2 * k]?) ∧
      (([2, 3, 4, 5] : List Nat).length % 2 = 1 →
        l'[([2, 3, 4, 5] : List Nat).length - 1]? =
          ([2, 3, 4, 5] : List Nat)[([2, 3, 4, 5] : List Nat).length - 1]?) ∧
      h'.value = (queue_of [[97], [98], [99], [100]]).value ∧
      (([2, 3, 4, 5] : List Nat).length ≤ 1 → h' = queue_of [[97], [98], [99], [100]])) ∧
    (q_swap (queue_of [[97], [98], [99], [100]]) 1 5).bind (fun h' => q_strings h' 1 5) =
      some [[98], [97], [100], [99]] ∧
    (q_swap (queue_of [[97], [98], [99]]) 1 4).bind (fun h' => q_strings h' 1 4) =
      some [[98], [97], [99]] :=
  ⟨q_swap_spec (queue_of [[97], [98], [99], [100]]) 1 [2, 3, 4, 5] 5 (by decide) (by decide),
    by decide, by decide⟩

/-- C6 : with enough fuel `q_reverse` returns and the ring afterwards holds the
same nodes in mirrored order (the node at position `i` is at position
`n - 1 - i`), with unchanged values and nothing released; a ring of fewer than
two elements and an absent ring are left unchanged. -/
theorem q_reverse_spec (h : Heap) (head : Nat) (l : List Nat) (fuel : Nat)
    (hr : Ring h head l) (hf : l.length < fuel) :
    (∃ h', q_reverse h head fuel = some h' ∧ Ring h' head l.reverse ∧
      (∀ i, i < l.length → l.reverse[l.length - 1 - i]? = l[i]?) ∧
      h'.value = h.value ∧ h'.freed = h.freed ∧ (l.length ≤ 1 → h' = h)) ∧
    q_reverse h 0 fuel = some h := by
  refine ⟨?_, by simp [q_reverse]⟩
  obtain ⟨h', he, hr', hv, hfd, hshort⟩ := hr.q_reverse fuel hf
  refine ⟨h', he, hr', ?_, hv, hfd, hshort⟩
  intro i hi
  rw [List.getElem?_reverse (by omega)]
  congr 1
  omega

/-- C6, witness: "apple", "banana", "cherry" becomes "cherry", "banana",
"apple". -/
theorem q_reverse_spec_witness :
    ((∃ h', q_reverse (queue_of [apple, banana, cherry]) 1 4 = some h' ∧
      Ring h' 1 ([2, 3, 4] : List Nat).reverse ∧
      (∀ i, i < ([2, 3, 4] : List Nat).length →
        ([2, 3, 4] : List Nat).reverse[([2, 3, 4] : List Nat).length - 1 - i]? =
          ([2, 3, 4] : List Nat)[i]?) ∧
      h'.value = (queue_of [apple, banana, cherry]).value ∧
      h'.freed = (queue_of [apple, banana, cherry]).freed ∧
      (([2, 3, 4] : List Nat).length ≤ 1 → h' = queue_of [apple, banana, cherry])) ∧
      q_reverse (queue_of [apple, banana, cherry]) 0 4 =
        some (queue_of [apple, banana, cherry])) ∧
    (q_reverse (queue_of [apple, banana, cherry]) 1 4).bind (fun h' => q_strings h' 1 4) =
      some [cherry, banana, apple] :=
  ⟨q_reverse_spec (queue_of [apple, banana, cherry]) 1 [2, 3, 4] 4 (by decide) (by decide),
    by decide⟩

/-- C7 : ring well-formedness is preserved by every mutating operation: when it
holds of a ring with elements `l`, it holds (for some list of elements) after
`q_insert_head` and `q_insert_tail` (the new element, if any, being none of the
nodes of the ring), `q_remove_head`, `q_remove_tail`, and, with enough fuel for
them to return, after `q_delete_mid`, `q_delete_dup`, `q_swap`, `q_reverse`
and `q_sort`, whose rebuild pass hence restores every `prev` link and closes
the circle. -/
theorem ring_invariant_preserved (h : Heap) (head : Nat) (l : List Nat) (fuel : Nat)
    (hw : RingInv h head l) (hf : l.length < fuel)
    (s buf : Option (List Nat)) (new_node : Nat) (hn : new_node ∉ head :: l)
    (sp : Option (Nat → Nat)) (bufsize : Nat) :
    (∃ l', RingInv (q_insert_head h head s new_node buf).2 head l') ∧
    (∃ l', RingInv (q_insert_tail h head s new_node buf).2 head l') ∧
    (∃ l', RingInv (q_remove_head h head sp bufsize).2.1 head l') ∧
    (∃ l', RingInv (q_remove_tail h head sp bufsize).2.1 head l') ∧
    (∃ r l', q_delete_mid h head fuel = some r ∧ RingInv r.2 head l') ∧
    (∃ r l', q_delete_dup h head fuel = some r ∧ RingInv r.2 head l') ∧
    (∃ h' l', q_swap h head fuel = some h' ∧ RingInv h' head l') ∧
    (∃ h' l', q_reverse h head fuel = some h' ∧ RingInv h' head l') ∧
    (∃ h' l', q_sort h head fuel = some h' ∧ RingInv h' head l') := by
  have hr : Ring h head l := (ring_iff_ringInv h head l).2 hw
  refine ⟨?_, ?_, ?_, ?_, ?_, ?_, ?_, ?_, ?_⟩
  · cases s with
    | none => exact ⟨l, by simpa [q_insert_head, hr.head_ne] using hw⟩
    | some s =>
      by_cases hn0 : new_node = 0
      · exact ⟨l, by simpa [q_insert_head, hr.head_ne, hn0] using hw⟩
      · cases buf with
        | none =>
          refine ⟨l, (ring_iff_ringInv _ _ _).1 ?_⟩
          simp only [q_insert_head, hr.head_ne, hn0, if_false]
          exact hr.free _
        | some buf =>
          exact ⟨_, (ring_iff_ringInv _ _ _).1 (hr.q_insert_head s buf hn0 hn).2⟩
  · cases s with
    | none => exact ⟨l, by simpa [q_insert_tail, hr.head_ne] using hw⟩
    | some s =>
      by_cases hn0 : new_node = 0
      · exact ⟨l, by simpa [q_insert_tail, hr.head_ne, hn0] using hw⟩
      · cases buf with
        | none =>
          refine ⟨l, (ring_iff_ringInv _ _ _).1 ?_⟩
          simp only [q_insert_tail, hr.head_ne, hn0, if_false]
          exact hr.free _
        | some buf =>
          exact ⟨_, (ring_iff_ringInv _ _ _).1 (hr.q_insert_tail s buf hn0 hn).2⟩
  · cases l with
    | nil =>
      refine ⟨[], ?_⟩
      rw [q_remove_head_nil hr]
      exact hw
    | cons x xs => exact ⟨xs, (ring_iff_ringInv _ _ _).1 (hr.q_remove_head sp bufsize)⟩
  · rcases List.eq_nil_or_concat l with rfl | ⟨xs, x, rfl⟩
    · refine ⟨[], ?_⟩
      rw [q_remove_tail_nil hr]
      exact hw
    · rw [List.concat_eq_append] at hr
      exact ⟨xs, (ring_iff_ringInv _ _ _).1 (hr.q_remove_tail sp bufsize)⟩
  · by_cases hne : l = []
    · subst hne
      have he : list_empty h head = true := hr.list_empty_iff.2 rfl
      exact ⟨(false, h), [], by simp [q_delete_mid, hr.head_ne, he], hw⟩
    · obtain ⟨h', he, hr', _, _⟩ := hr.q_delete_mid hne fuel hf
      exact ⟨(true, h'), _, he, (ring_iff_ringInv _ _ _).1 hr'⟩
  · obtain ⟨h', he, hr', _⟩ := hr.q_delete_dup_loop fuel hf
    exact ⟨(true, h'), _, he, (ring_iff_ringInv _ _ _).1 hr'⟩
  · obtain ⟨h', he, hr', _, _⟩ := hr.q_swap fuel hf
    exact ⟨h', _, he, (ring_iff_ringInv _ _ _).1 hr'⟩
  · obtain ⟨h', he, hr', _, _, _⟩ := hr.q_reverse fuel hf
    exact ⟨h', _, he, (ring_iff_ringInv _ _ _).1 hr'⟩
  · obtain ⟨h', he, hr', _, _⟩ := hr.q_sort fuel hf
    exact ⟨h', _, he, (ring_iff_ringInv _ _ _).1 hr'⟩

/-- C7, witness: the invariant of the queue "banana", "apple", "cherry" and of
the queue after each operation. -/
theorem ring_invariant_preserved_witness :
    RingInv (queue_of [banana, apple, cherry]) 1 [2, 3, 4] ∧
    ((∃ l', RingInv (q_insert_head (queue_of [banana, apple, cherry]) 1 (some apple) 5
        (some (List.replicate 6 85))).2 1 l') ∧
    (∃ l', RingInv (q_insert_tail (queue_of [banana, apple, cherry]) 1 (some apple) 5
        (some (List.replicate 6 85))).2 1 l') ∧
    (∃ l', RingInv (q_remove_head (queue_of [banana, apple, cherry]) 1 none 0).2.1 1 l') ∧
    (∃ l', RingInv (q_remove_tail (queue_of [banana, apple, cherry]) 1 none 0).2.1 1 l') ∧
    (∃ r l', q_delete_mid (queue_of [banana, apple, cherry]) 1 4 = some r ∧ RingInv r.2 1 l') ∧
    (∃ r l', q_delete_dup (queue_of [banana, apple, cherry]) 1 4 = some r ∧ RingInv r.2 1 l') ∧
    (∃ h' l', q_swap (queue_of [banana, apple, cherry]) 1 4 = some h' ∧ RingInv h' 1 l') ∧
    (∃ h' l', q_reverse (queue_of [banana, apple, cherry]) 1 4 = some h' ∧ RingInv h' 1 l') ∧
    (∃ h' l', q_sort (queue_of [banana, apple, cherry]) 1 4 = some h' ∧ RingInv h' 1 l')) :=
  ⟨by decide,
    ring_invariant_preserved (queue_of [banana, apple, cherry]) 1 [2, 3, 4] 4 (by decide)
      (by decide) (some apple) (some (List.replicate 6 85)) 5 (by decide) none 0⟩

/-- C8 : after any sequence of the four insert and remove calls on a freshly
created queue, every insert given a string and served by the allocator,
`q_size` returns the number of inserts minus the number of removes that
returned an element (this number fitting an `int`, the fuel exceeding it);
`q_size` of an absent ring and of an empty ring is `0`. -/
theorem q_size_counts (h0 : Heap) (head : Nat) (ops : List Op) (fuel : Nat)
    (hh : head ≠ 0) (ha : AllocOk head [] ops)
    (hint : (run_ops head (q_new h0 head).2 ops).2.1 ≤
      INT_MAX + (run_ops head (q_new h0 head).2 ops).2.2)
    (hfuel : (run_ops head (q_new h0 head).2 ops).2.1 <
      fuel + (run_ops head (q_new h0 head).2 ops).2.2) :
    (q_new h0 head).1 = head ∧
    q_size (run_ops head (q_new h0 head).2 ops).1 head fuel =
      some (((run_ops head (q_new h0 head).2 ops).2.1 : Int) -
        ((run_ops head (q_new h0 head).2 ops).2.2 : Int)) ∧
    (∀ h, q_size h 0 fuel = some 0) ∧
    (∀ h, Ring h head [] → q_size h head fuel = some 0) := by
  have hnew : q_new h0 head = (head, INIT_LIST_HEAD h0 head) := by simp [q_new, hh]
  rw [hnew] at hint hfuel ⊢
  simp only at hint hfuel ⊢
  obtain ⟨l', hr', hl'⟩ := run_ops_ring head ops _ [] (Ring.init h0 hh) ha
  simp only [List.length_nil, Nat.zero_add] at hl'
  refine ⟨trivial, ?_, ?_, ?_⟩
  · rw [hr'.q_size fuel (by omega) (by omega)]
    congr 1
    omega
  · intro h
    simp [q_size]
  · intro h hr
    have he : list_empty h head = true := hr.list_empty_iff.2 rfl
    simp [q_size, hr.head_ne, he]

/-- C8, witness: three inserts and three removes, the last one on the empty
queue, leave the size `3 - 2`. -/
theorem q_size_counts_witness :
    (q_new Heap.empty 1).1 = 1 ∧
    q_size (run_ops 1 (q_new Heap.empty 1).2
        [Op.insert_tail banana 2 (List.replicate 7 85), Op.remove_head none 0,
          Op.remove_tail none 0, Op.insert_head apple 2 (List.replicate 6 85),
          Op.insert_tail cherry 3 (List.replicate 7 85), Op.remove_tail none 0]).1 1 3 =
      some (((run_ops 1 (q_new Heap.empty 1).2
        [Op.insert_tail banana 2 (List.replicate 7 85), Op.remove_head none 0,
          Op.remove_tail none 0, Op.insert_head apple 2 (List.replicate 6 85),
          Op.insert_tail cherry 3 (List.replicate 7 85), Op.remove_tail none 0]).2.1 : Int) -
        ((run_ops 1 (q_new Heap.empty 1).2
        [Op.insert_tail banana 2 (List.replicate 7 85), Op.remove_head none 0,
          Op.remove_tail none 0, Op.insert_head apple 2 (List.replicate 6 85),
          Op.insert_tail cherry 3 (List.replicate 7 85), Op.remove_tail none 0]).2.2 : Int)) ∧
    (∀ h, q_size h 0 3 = some 0) ∧
    (∀ h, Ring h 1 [] → q_size h 1 3 = some 0) :=
  q_size_counts Heap.empty 1
    [Op.insert_tail banana 2 (List.replicate 7 85), Op.remove_head none 0,
      Op.remove_tail none 0, Op.insert_head apple 2 (List.replicate 6 85),
      Op.insert_tail cherry 3 (List.replicate 7 85), Op.remove_tail none 0] 3
    (by decide) (by decide) (by decide) (by decide)

/-- C10 : `q_insert_head` and `q_insert_tail` on the string of `2^32 + 1` bytes
`A`, on an empty queue, the allocations succeeding: `strlen(s)` converted to
the `int` `len` is `1`, two bytes are asked of `malloc`, and both functions
return `true`, link the new element and store in it the string "A" (one byte
and a terminator), which is not the copy of `s`. -/
theorem q_insert_long_string :
    strlen long_string = 4294967297 ∧
    wrap_int (strlen long_string) = 1 ∧
    ((q_insert_head (q_new Heap.empty 1).2 1 (some long_string) 2 (some [85, 85])).1 = true ∧
      Ring (q_insert_head (q_new Heap.empty 1).2 1 (some long_string) 2 (some [85, 85])).2
        1 [2] ∧
      (q_insert_head (q_new Heap.empty 1).2 1 (some long_string) 2
        (some [85, 85])).2.value 2 = [65, 0]) ∧
    ((q_insert_tail (q_new Heap.empty 1).2 1 (some long_string) 2 (some [85, 85])).1 = true ∧
      Ring (q_insert_tail (q_new Heap.empty 1).2 1 (some long_string) 2 (some [85, 85])).2
        1 [2] ∧
      (q_insert_tail (q_new Heap.empty 1).2 1 (some long_string) 2
        (some [85, 85])).2.value 2 = [65, 0]) ∧
    cstr long_string ++ [0] ≠ [65, 0] := by
  rw [q_insert_head_long _ 1 2 (by decide) (by decide),
    q_insert_tail_long _ 1 2 (by decide) (by decide), strlen_long_string]
  refine ⟨rfl, by decide, by decide, by decide, ?_⟩
  intro he
  exact cstr_long_string_ne (List.append_cancel_right he)

/-- C11 : `q_insert_head` and `q_insert_tail` return `false` exactly when the
ring is absent, the string is absent, the element cannot be allocated or its
buffer cannot be allocated; and a call that returns `false` leaves every link
and every value as it was (it links no element in; the element of a failed
buffer allocation is handed back to `free`). -/
theorem q_insert_fails_iff (h : Heap) (head : Nat) (s : Option (List Nat)) (new_node : Nat)
    (buf : Option (List Nat)) :
    (((q_insert_head h head s new_node buf).1 = false ↔
        head = 0 ∨ s = none ∨ new_node = 0 ∨ buf = none) ∧
      ((q_insert_head h head s new_node buf).1 = false →
        (q_insert_head h head s new_node buf).2.next = h.next ∧
        (q_insert_head h head s new_node buf).2.prev = h.prev ∧
        (q_insert_head h head s new_node buf).2.value = h.value ∧
        ∀ l, Ring h head l → Ring (q_insert_head h head s new_node buf).2 head l)) ∧
    (((q_insert_tail h head s new_node buf).1 = false ↔
        head = 0 ∨ s = none ∨ new_node = 0 ∨ buf = none) ∧
      ((q_insert_tail h head s new_node buf).1 = false →
        (q_insert_tail h head s new_node buf).2.next = h.next ∧
        (q_insert_tail h head s new_node buf).2.prev = h.prev ∧
        (q_insert_tail h head s new_node buf).2.value = h.value ∧
        ∀ l, Ring h head l → Ring (q_insert_tail h head s new_node buf).2 head l)) := by
  constructor
  · by_cases hh : head = 0
    · simp [q_insert_head, hh]
    · cases s with
      | none => simp [q_insert_head, hh]
      | some s =>
        by_cases hn : new_node = 0
        · simp [q_insert_head, hh, hn]
        · cases buf with
          | none =>
            simp only [q_insert_head, hh, hn, if_false, or_true, true_and, iff_true,
              free_next, free_prev, free_value, forall_true_left]
            exact fun l hr => hr.free _
          | some buf => simp [q_insert_head, hh, hn]
  · by_cases hh : head = 0
    · simp [q_insert_tail, hh]
    · cases s with
      | none => simp [q_insert_tail, hh]
      | some s =>
        by_cases hn : new_node = 0
        · simp [q_insert_tail, hh, hn]
        · cases buf with
          | none =>
            simp only [q_insert_tail, hh, hn, if_false, or_true, true_and, iff_true,
              free_next, free_prev, free_value, forall_true_left]
            exact fun l hr => hr.free _
          | some buf => simp [q_insert_tail, hh, hn]

/-- C12 : `q_remove_head` (resp. `q_remove_tail`) on an absent ring returns
`NULL` and changes nothing; on a ring it returns `NULL` exactly when the ring
is empty, and then changes nothing; otherwise it returns the first (resp.
last) element, unlinked and linked to itself, with every value as it was and
nothing released, and the ring holds the other elements in their order. -/
theorem q_remove_spec (h : Heap) (head : Nat) (l : List Nat) (sp : Option (Nat → Nat))
    (bufsize : Nat) (hr : Ring h head l) :
    (q_remove_head h 0 sp bufsize = (0, h, sp) ∧
      ((q_remove_head h head sp bufsize).1 = 0 ↔ l = []) ∧
      (l = [] → q_remove_head h head sp bufsize = (0, h, sp)) ∧
      (∀ x xs, l = x :: xs →
        (q_remove_head h head sp bufsize).1 = x ∧
        Ring (q_remove_head h head sp bufsize).2.1 head xs ∧
        (q_remove_head h head sp bufsize).2.1.value = h.value ∧
        (q_remove_head h head sp bufsize).2.1.freed = h.freed ∧
        (q_remove_head h head sp bufsize).2.1.next x = x ∧
        (q_remove_head h head sp bufsize).2.1.prev x = x)) ∧
    (q_remove_tail h 0 sp bufsize = (0, h, sp) ∧
      ((q_remove_tail h head sp bufsize).1 = 0 ↔ l = []) ∧
      (l = [] → q_remove_tail h head sp bufsize = (0, h, sp)) ∧
      (∀ x xs, l = xs ++ [x] →
        (q_remove_tail h head sp bufsize).1 = x ∧
        Ring (q_remove_tail h head sp bufsize).2.1 head xs ∧
        (q_remove_tail h head sp bufsize).2.1.value = h.value ∧
        (q_remove_tail h head sp bufsize).2.1.freed = h.freed ∧
        (q_remove_tail h head sp bufsize).2.1.next x = x ∧
        (q_remove_tail h head sp bufsize).2.1.prev x = x)) := by
  refine ⟨⟨by simp [q_remove_head], ?_, ?_, ?_⟩, ⟨by simp [q_remove_tail], ?_, ?_, ?_⟩⟩
  · cases l with
    | nil => simp [q_remove_head_nil hr]
    | cons x xs =>
      rw [q_remove_head_eq hr]
      simpa using hr.mem_ne_zero (List.mem_cons_self _ _)
  · rintro rfl
    exact q_remove_head_nil hr sp bufsize
  · rintro x xs rfl
    have hr' := hr.q_remove_head sp bufsize
    rw [q_remove_head_eq hr] at hr' ⊢
    refine ⟨rfl, hr', rfl, rfl, ?_, ?_⟩
    · simp [list_del_init_next]
    · simp [list_del_init_prev]
  · rcases List.eq_nil_or_concat l with rfl | ⟨xs, x, rfl⟩
    · simp [q_remove_tail_nil hr]
    · rw [List.concat_eq_append] at hr ⊢
      rw [q_remove_tail_eq hr]
      simpa using hr.mem_ne_zero (by simp)
  · rintro rfl
    exact q_remove_tail_nil hr sp bufsize
  · rintro x xs rfl
    have hr' := hr.q_remove_tail sp bufsize
    rw [q_remove_tail_eq hr] at hr' ⊢
    refine ⟨rfl, hr', rfl, rfl, ?_, ?_⟩
    · simp [list_del_init_next]
    · simp [list_del_init_prev]

/-- C12, witness: removing from the queue "banana", "apple", "cherry" at the
head and at the tail. -/
theorem q_remove_spec_witness :
    ((q_remove_head (queue_of [banana, apple, cherry]) 0 none 0 =
        (0, queue_of [banana, apple, cherry], none) ∧
      ((q_remove_head (queue_of [banana, apple, cherry]) 1 none 0).1 = 0 ↔
        ([2, 3, 4] : List Nat) = []) ∧
      (([2, 3, 4] : List Nat) = [] → q_remove_head (queue_of [banana, apple, cherry]) 1 none 0 =
        (0, queue_of [banana, apple, cherry], none)) ∧
      (∀ x xs, ([2, 3, 4] : List Nat) = x :: xs →
        (q_remove_head (queue_of [banana, apple, cherry]) 1 none 0).1 = x ∧
        Ring (q_remove_head (queue_of [banana, apple, cherry]) 1 none 0).2.1 1 xs ∧
        (q_remove_head (queue_of [banana, apple, cherry]) 1 none 0).2.1.value =
          (queue_of [banana, apple, cherry]).value ∧
        (q_remove_head (queue_of [banana, apple, cherry]) 1 none 0).2.1.freed =
          (queue_of [banana, apple, cherry]).freed ∧
        (q_remove_head (queue_of [banana, apple, cherry]) 1 none 0).2.1.next x = x ∧
        (q_remove_head (queue_of [banana, apple, cherry]) 1 none 0).2.1.prev x = x)) ∧
    (q_remove_tail (queue_of [banana, apple, cherry]) 0 none 0 =
        (0, queue_of [banana, apple, cherry], none) ∧
      ((q_remove_tail (queue_of [banana, apple, cherry]) 1 none 0).1 = 0 ↔
        ([2, 3, 4] : List Nat) = []) ∧
      (([2, 3, 4] : List Nat) = [] → q_remove_tail (queue_of [banana, apple, cherry]) 1 none 0 =
        (0, queue_of [banana, apple, cherry], none)) ∧
      (∀ x xs, ([2, 3, 4] : List Nat) = xs ++ [x] →
        (q_remove_tail (queue_of [banana, apple, cherry]) 1 none 0).1 = x ∧
        Ring (q_remove_tail (queue_of [banana, apple, cherry]) 1 none 0).2.1 1 xs ∧
        (q_remove_tail (queue_of [banana, apple, cherry]) 1 none 0).2.1.value =
          (queue_of [banana, apple, cherry]).value ∧
        (q_remove_tail (queue_of [banana, apple, cherry]) 1 none 0).2.1.freed =
          (queue_of [banana, apple, cherry]).freed ∧
        (q_remove_tail (queue_of [banana, apple, cherry]) 1 none 0).2.1.next x = x ∧
        (q_remove_tail (queue_of [banana, apple, cherry]) 1 none 0).2.1.prev x = x))) ∧
    (q_remove_head (queue_of [banana, apple, cherry]) 1 none 0).1 = 2 ∧
    q_strings (q_remove_head (queue_of [banana, apple, cherry]) 1 none 0).2.1 1 4 =
      some [apple, cherry] ∧
    (q_remove_tail (queue_of [banana, apple, cherry]) 1 none 0).1 = 4 ∧
    q_strings (q_remove_tail (queue_of [banana, apple, cherry]) 1 none 0).2.1 1 4 =
      some [banana, apple] ∧
    (q_remove_head (queue_of []) 1 none 0).1 = 0 :=
  ⟨q_remove_spec (queue_of [banana, apple, cherry]) 1 [2, 3, 4] none 0 (by decide),
    by decide, by decide, by decide, by decide, by decide⟩

/-- C13 : round trip of the string `s` of `2^32 + 1` bytes `A` through an empty
queue: `q_insert_tail` stores the string "A" (`len` is the `int` `1`), and
`q_remove_tail` with a buffer of `len(s) + 1` bytes returns the new element,
leaves the ring empty again, and leaves in the buffer the byte `A`, a
terminator and the bytes that were there: the second byte of the buffer is `0`
where the second byte of `s` is `A`. -/
theorem round_trip_long_string :
    strlen long_string = 4294967297 ∧
    (q_remove_tail (q_insert_tail (q_new Heap.empty 1).2 1 (some long_string) 2
        (some [85, 85])).2 1 (some (fun _ => 7)) (strlen long_string + 1)).1 = 2 ∧
    Ring (q_remove_tail (q_insert_tail (q_new Heap.empty 1).2 1 (some long_string) 2
        (some [85, 85])).2 1 (some (fun _ => 7)) (strlen long_string + 1)).2.1 1 [] ∧
    (q_remove_tail (q_insert_tail (q_new Heap.empty 1).2 1 (some long_string) 2
        (some [85, 85])).2 1 (some (fun _ => 7)) (strlen long_string + 1)).2.2.map
      (fun out => [out 0, out 1, out 2, out 3, out (strlen long_string)]) =
        some [65, 0, 7, 7, 0] ∧
    char_at long_string 1 = 65 := by
  rw [q_insert_tail_long _ 1 2 (by decide) (by decide), strlen_long_string]
  exact ⟨rfl, by decide, by decide, by decide, char_at_long_string 1 (by decide)⟩

/-- C14 : with enough fuel, `q_reverse` applied twice to a well-formed ring
returns both times, and the ring afterwards holds the elements in the order
they had at first, with the links and the values its nodes had at first. -/
theorem q_reverse_twice (h : Heap) (head : Nat) (l : List Nat) (fuel : Nat)
    (hr : Ring h head l) (hf : l.length < fuel) :
    ∃ h1 h2, q_reverse h head fuel = some h1 ∧ q_reverse h1 head fuel = some h2 ∧
      Ring h2 head l ∧ h2.value = h.value ∧
      ∀ x ∈ head :: l, h2.next x = h.next x ∧ h2.prev x = h.prev x := by
  obtain ⟨h1, he1, hr1, hv1, _, _⟩ := hr.q_reverse fuel hf
  obtain ⟨h2, he2, hr2, hv2, _, _⟩ := hr1.q_reverse fuel (by simpa using hf)
  rw [List.reverse_reverse] at hr2
  exact ⟨h1, h2, he1, he2, hr2, hv2.trans hv1, hr.links_eq hr2⟩

/-- C14, witness: the queue "banana", "apple", "cherry" reversed twice. -/
theorem q_reverse_twice_witness :
    (∃ h1 h2, q_reverse (queue_of [banana, apple, cherry]) 1 4 = some h1 ∧
      q_reverse h1 1 4 = some h2 ∧ Ring h2 1 [2, 3, 4] ∧
      h2.value = (queue_of [banana, apple, cherry]).value ∧
      ∀ x ∈ 1 :: [2, 3, 4], h2.next x = (queue_of [banana, apple, cherry]).next x ∧
        h2.prev x = (queue_of [banana, apple, cherry]).prev x) ∧
    ((q_reverse (queue_of [banana, apple, cherry]) 1 4).bind (fun h1 => q_reverse h1 1 4)).bind
      (fun h2 => q_strings h2 1 4) = some [banana, apple, cherry] :=
  ⟨q_reverse_twice (queue_of [banana, apple, cherry]) 1 [2, 3, 4] 4 (by decide) (by decide),
    by decide⟩

/-- C15 : `q_sort` is idempotent: with enough fuel, on a ring whose values are
already sorted it returns and leaves the nodes in the order they had; hence a
second `q_sort` leaves the nodes in the order the first one gave them. -/
theorem q_sort_idempotent (h : Heap) (head : Nat) (l : List Nat) (fuel : Nat)
    (hr : Ring h head l) (hf : l.length < fuel) :
    (l.Pairwise (fun x y => strcmp (h.value x) (h.value y) ≤ 0) →
      ∃ h', q_sort h head fuel = some h' ∧ Ring h' head l ∧ h'.value = h.value) ∧
    (∃ h1 h2 l1, q_sort h head fuel = some h1 ∧ Ring h1 head l1 ∧
      q_sort h1 head fuel = some h2 ∧ Ring h2 head l1 ∧ h2.value = h.value) := by
  have key : ∀ (g : Heap) (m : List Nat), Ring g head m → m.length < fuel →
      m.Pairwise (fun x y => strcmp (g.value x) (g.value y) ≤ 0) →
      ∃ g', q_sort g head fuel = some g' ∧ Ring g' head m ∧ g'.value = g.value := by
    intro g m hg hm hsorted
    obtain ⟨g', he, hr', hv, _⟩ := hg.q_sort fuel hm
    have hs' : m.Pairwise (fun x y => le_value g x y = true) := by
      refine hsorted.imp ?_
      intro a b hab
      simpa [le_value] using hab
    rw [List.mergeSort_of_sorted hs'] at hr'
    exact ⟨g', he, hr', hv⟩
  refine ⟨key h l hr hf, ?_⟩
  obtain ⟨h1, he1, hr1, hv1, _⟩ := hr.q_sort fuel hf
  have hs1 : (l.mergeSort (le_value h)).Pairwise
      (fun x y => strcmp (h1.value x) (h1.value y) ≤ 0) := by
    rw [hv1]
    refine (@List.sorted_mergeSort Nat (le_value h) (le_value_trans h) (le_value_total h)
      l).imp ?_
    intro a b hab
    simpa [le_value] using hab
  obtain ⟨h2, he2, hr2, hv2⟩ := key h1 _ hr1
    (by rw [(List.mergeSort_perm l _).length_eq]; exact hf) hs1
  exact ⟨h1, h2, _, he1, hr1, he2, hr2, hv2.trans hv1⟩

/-- C15, witness: the sorted queue "apple", "apple", "banana" keeps its nodes
in place, and the queue "banana", "apple", "banana", "apple" sorted twice is
as sorted once. -/
theorem q_sort_idempotent_witness :
    (∃ h', q_sort (queue_of [apple, apple, banana]) 1 4 = some h' ∧ Ring h' 1 [2, 3, 4] ∧
      h'.value = (queue_of [apple, apple, banana]).value) ∧
    (∃ h1 h2 l1, q_sort (queue_of [apple, apple, banana]) 1 4 = some h1 ∧ Ring h1 1 l1 ∧
      q_sort h1 1 4 = some h2 ∧ Ring h2 1 l1 ∧
      h2.value = (queue_of [apple, apple, banana]).value) ∧
    ((q_sort (queue_of [banana, apple, banana, apple]) 1 5).bind (fun h1 => q_sort h1 1 5)).bind
      (fun h2 => ring_nodes h2 1 5 (h2.next 1)) = some [3, 5, 2, 4] :=
  ⟨(q_sort_idempotent (queue_of [apple, apple, banana]) 1 [2, 3, 4] 4 (by decide)
      (by decide)).1 (by decide),
    (q_sort_idempotent (queue_of [apple, apple, banana]) 1 [2, 3, 4] 4 (by decide)
      (by decide)).2, by decide⟩

/-- C16 : for two disjoint `NULL`-terminated chains `a` and `b` whose values
are sorted ascending (either may be empty), with enough fuel `merge` returns
the chain of the left-biased merge of their nodes: it is sorted, it holds
exactly the nodes of `a` and `b`, it keeps the order inside `a` and inside
`b`, and it has a node of `a` before a node of `b` of equal value; only the
`next` links of these nodes are written. -/
theorem merge_spec (fuel : Nat) (h : Heap) (a b : Nat) (la lb : List Nat)
    (ha : Seg h.next a la 0) (hb : Seg h.next b lb 0) (hnd : (la ++ lb).Nodup)
    (h0 : 0 ∉ la ++ lb)
    (hsa : la.Pairwise (fun x y => strcmp (h.value x) (h.value y) ≤ 0))
    (hsb : lb.Pairwise (fun x y => strcmp (h.value x) (h.value y) ≤ 0))
    (hf : la.length + lb.length ≤ fuel) :
    ∃ r h' lm, merge fuel h a b = some (r, h') ∧ Seg h'.next r lm 0 ∧
      lm = List.merge la lb (fun x y => decide (strcmp (h.value x) (h.value y) ≤ 0)) ∧
      lm.Pairwise (fun x y => strcmp (h'.value x) (h'.value y) ≤ 0) ∧
      lm.Perm (la ++ lb) ∧ la.Sublist lm ∧ lb.Sublist lm ∧
      (∀ x ∈ la, ∀ y ∈ lb, strcmp (h.value x) (h.value y) = 0 → [x, y].Sublist lm) ∧
      h'.value = h.value ∧ h'.prev = h.prev ∧ (∀ z, z ∉ la ++ lb → h'.next z = h.next z) := by
  obtain ⟨r, h', he, hseg, hfr, hpv, hvl, _⟩ :=
    merge_eq fuel la lb h a b ha hb hnd h0 (by omega)
  have hsa' : la.Pairwise (fun x y => le_value h x y = true) := by
    refine hsa.imp ?_
    intro x y hxy
    simpa [le_value] using hxy
  have hsb' : lb.Pairwise (fun x y => le_value h x y = true) := by
    refine hsb.imp ?_
    intro x y hxy
    simpa [le_value] using hxy
  refine ⟨r, h', _, he, hseg, rfl, ?_, List.merge_perm_append (le_value h),
    sublist_merge_left _ la lb, sublist_merge_right _ la lb, ?_, hvl, hpv, hfr⟩
  · rw [hvl]
    refine (List.sorted_merge (le_value_trans h) (le_value_total h) la lb hsa' hsb').imp ?_
    intro x y hxy
    simpa [le_value] using hxy
  · intro x hx y hy hxy
    refine pair_sublist_merge (le_value h) (le_value_trans h) la lb hsa' x hx y hy ?_
    simp only [le_value, decide_eq_true_eq]
    omega

/-- C16, witness: the chains "apple", "cherry" (nodes 2, 3) and "banana",
"cherry" (nodes 4, 5) merge into the nodes 2, 4, 3, 5. -/
theorem merge_spec_witness :
    (∃ r h' lm,
      merge 4 (((queue_of [apple, cherry, banana, cherry]).setNext 3 0).setNext 5 0) 2 4 =
        some (r, h') ∧ Seg h'.next r lm 0 ∧
      lm = List.merge [2, 3] [4, 5] (fun x y => decide (strcmp
        ((((queue_of [apple, cherry, banana, cherry]).setNext 3 0).setNext 5 0).value x)
        ((((queue_of [apple, cherry, banana, cherry]).setNext 3 0).setNext 5 0).value y) ≤ 0)) ∧
      lm.Pairwise (fun x y => strcmp (h'.value x) (h'.value y) ≤ 0) ∧
      lm.Perm ([2, 3] ++ [4, 5]) ∧ ([2, 3] : List Nat).Sublist lm ∧
      ([4, 5] : List Nat).Sublist lm ∧
      (∀ x ∈ [2, 3], ∀ y ∈ [4, 5], strcmp
        ((((queue_of [apple, cherry, banana, cherry]).setNext 3 0).setNext 5 0).value x)
        ((((queue_of [apple, cherry, banana, cherry]).setNext 3 0).setNext 5 0).value y) = 0 →
        [x, y].Sublist lm) ∧
      h'.value = (((queue_of [apple, cherry, banana, cherry]).setNext 3 0).setNext 5 0).value ∧
      h'.prev = (((queue_of [apple, cherry, banana, cherry]).setNext 3 0).setNext 5 0).prev ∧
      (∀ z, z ∉ [2, 3] ++ [4, 5] → h'.next z =
        (((queue_of [apple, cherry, banana, cherry]).setNext 3 0).setNext 5 0).next z)) ∧
    (merge 4 (((queue_of [apple, cherry, banana, cherry]).setNext 3 0).setNext 5 0) 2 4).map
      (fun r => (r.1, r.2.next 2, r.2.next 4, r.2.next 3, r.2.next 5)) = some (2, 4, 3, 5, 0) :=
  ⟨merge_spec 4 (((queue_of [apple, cherry, banana, cherry]).setNext 3 0).setNext 5 0) 2 4
    [2, 3] [4, 5] (by decide) (by decide) (by decide) (by decide) (by decide) (by decide)
    (by decide), by decide⟩

/-- C17 : on a `NULL`-terminated chain of `n` distinct nodes, with fuel `n` or
more, `merge_sort` returns; a chain of `0` or `1` nodes is returned unchanged;
for `n >= 2` the slow/fast loop returns, and the cut after the node it stops on
leaves the chain of the first `(n + 1) / 2` nodes and the chain of the other
`n / 2` nodes, both non-empty and shorter than `n`. -/
theorem merge_sort_terminates (fuel : Nat) (h : Heap) (first : Nat) (l : List Nat)
    (hs : Seg h.next first l 0) (hnd : l.Nodup) (h0 : 0 ∉ l)
    (hf : l.length ≤ fuel) (hpos : 0 < fuel) :
    (∃ r h', merge_sort fuel h first = some (r, h')) ∧
    (l.length ≤ 1 → merge_sort fuel h first = some (first, h)) ∧
    (2 ≤ l.length →
      ∃ mid, merge_sort_split h fuel first (h.next first) = some mid ∧
        Seg (h.setNext mid 0).next first (l.take ((l.length + 1) / 2)) 0 ∧
        Seg (h.setNext mid 0).next (h.next mid) (l.drop ((l.length + 1) / 2)) 0 ∧
        (l.take ((l.length + 1) / 2)).length = (l.length + 1) / 2 ∧
        (l.drop ((l.length + 1) / 2)).length = l.length / 2 ∧
        0 < (l.take ((l.length + 1) / 2)).length ∧
        (l.take ((l.length + 1) / 2)).length < l.length ∧
        0 < (l.drop ((l.length + 1) / 2)).length ∧
        (l.drop ((l.length + 1) / 2)).length < l.length) := by
  refine ⟨?_, ?_, ?_⟩
  · obtain ⟨r, h', he, _⟩ := merge_sort_eq fuel l h first hs hnd h0 (by omega) hpos
    exact ⟨r, h', he⟩
  · intro hl
    cases fuel with
    | zero => omega
    | succ fuel =>
      match l, hs, h0, hl with
      | [], hs, _, _ =>
        simp only [Seg_nil] at hs
        simp [merge_sort, hs]
      | [x], hs, h0, _ =>
        simp only [Seg_cons, Seg_nil] at hs
        obtain ⟨rfl, hn⟩ := hs
        have hx : first ≠ 0 := by
          intro e
          apply h0
          simp [e]
        simp [merge_sort, hx, hn]
  · intro hl
    obtain ⟨mid, he, _, hsa, hsb⟩ := merge_sort_split_spec hs hnd h0 hl fuel hf
    have h1 : (l.take ((l.length + 1) / 2)).length = (l.length + 1) / 2 := by
      rw [List.length_take]
      omega
    have h2 : (l.drop ((l.length + 1) / 2)).length = l.length / 2 := by
      rw [List.length_drop]
      omega
    refine ⟨mid, he, hsa, hsb, h1, h2, ?_, ?_, ?_, ?_⟩ <;> omega

/-- C17, witness: a chain of five nodes is cut into three and two nodes. -/
theorem merge_sort_terminates_witness :
    ((∃ r h', merge_sort 5 ((queue_of [cherry, apple, banana, apple, cherry]).setNext 6 0) 2 =
        some (r, h')) ∧
    (([2, 3, 4, 5, 6] : List Nat).length ≤ 1 →
      merge_sort 5 ((queue_of [cherry, apple, banana, apple, cherry]).setNext 6 0) 2 =
        some (2, (queue_of [cherry, apple, banana, apple, cherry]).setNext 6 0)) ∧
    (2 ≤ ([2, 3, 4, 5, 6] : List Nat).length →
      ∃ mid, merge_sort_split ((queue_of [cherry, apple, banana, apple, cherry]).setNext 6 0) 5 2
          (((queue_of [cherry, apple, banana, apple, cherry]).setNext 6 0).next 2) = some mid ∧
        Seg ((((queue_of [cherry, apple, banana, apple, cherry]).setNext 6 0).setNext mid 0).next)
          2 (([2, 3, 4, 5, 6] : List Nat).take ((([2, 3, 4, 5, 6] : List Nat).length + 1) / 2))
          0 ∧
        Seg ((((queue_of [cherry, apple, banana, apple, cherry]).setNext 6 0).setNext mid 0).next)
          (((queue_of [cherry, apple, banana, apple, cherry]).setNext 6 0).next mid)
          (([2, 3, 4, 5, 6] : List Nat).drop ((([2, 3, 4, 5, 6] : List Nat).length + 1) / 2))
          0 ∧
        (([2, 3, 4, 5, 6] : List Nat).take
          ((([2, 3, 4, 5, 6] : List Nat).length + 1) / 2)).length =
          (([2, 3, 4, 5, 6] : List Nat).length + 1) / 2 ∧
        (([2, 3, 4, 5, 6] : List Nat).drop
          ((([2, 3, 4, 5, 6] : List Nat).length + 1) / 2)).length =
          ([2, 3, 4, 5, 6] : List Nat).length / 2 ∧
        0 < (([2, 3, 4, 5, 6] : List Nat).take
          ((([2, 3, 4, 5, 6] : List Nat).length + 1) / 2)).length ∧
        (([2, 3, 4, 5, 6] : List Nat).take
          ((([2, 3, 4, 5, 6] : List Nat).length + 1) / 2)).length <
          ([2, 3, 4, 5, 6] : List Nat).length ∧
        0 < (([2, 3, 4, 5, 6] : List Nat).drop
          ((([2, 3, 4, 5, 6] : List Nat).length + 1) / 2)).length ∧
        (([2, 3, 4, 5, 6] : List Nat).drop
          ((([2, 3, 4, 5, 6] : List Nat).length + 1) / 2)).length <
          ([2, 3, 4, 5, 6] : List Nat).length)) ∧
    merge_sort_split ((queue_of [cherry, apple, banana, apple, cherry]).setNext 6 0) 5 2 3 =
      some 4 ∧
    (merge_sort 5 ((queue_of [cherry, apple, banana, apple, cherry]).setNext 6 0) 2).map
      (fun r => (r.1, r.2.next 3, r.2.next 5, r.2.next 4, r.2.next 2, r.2.next 6)) =
      some (3, 5, 4, 2, 6, 0) :=
  ⟨merge_sort_terminates 5 ((queue_of [cherry, apple, banana, apple, cherry]).setNext 6 0) 2
    [2, 3, 4, 5, 6] (by decide) (by decide) (by decide) (by decide) (by decide),
    by decide, by decide⟩

/-- C18 : with a buffer provided and `bufsize = 0` the remove functions do
write into the buffer: on the queue holding "banana", in a buffer of bytes `7`,
they copy the six bytes of the string and its terminator to the offsets `0` to
`6` and write `0` at the offset `2^64 - 1` (`bufsize - 1` in `size_t`). -/
theorem q_remove_bufsize_zero_writes :
    (q_remove_head (queue_of [banana]) 1 (some (fun _ => 7)) 0).2.2.map
        (fun out => [out 0, out 1, out 2, out 3, out 4, out 5, out 6, out 7,
          out 18446744073709551615]) =
      some [98, 97, 110, 97, 110, 97, 0, 7, 0] ∧
    (q_remove_tail (queue_of [banana]) 1 (some (fun _ => 7)) 0).2.2.map
        (fun out => [out 0, out 1, out 2, out 3, out 4, out 5, out 6, out 7,
          out 18446744073709551615]) =
      some [98, 97, 110, 97, 110, 97, 0, 7, 0] := by
  decide

/-- C19 : on any ring, sorted or not, with enough fuel `q_delete_dup` returns
`true`, and the ring afterwards holds, in their original order and with their
values, exactly the elements that differ in value (`strcmp` not `0`) from the
element before them and from the element after them, that is the elements
outside every run of two or more adjacent equal values; on the empty ring it
changes nothing. -/
theorem q_delete_dup_runs (h : Heap) (head : Nat) (l : List Nat) (fuel : Nat)
    (hr : Ring h head l) (hf : l.length < fuel) :
    ∃ h' l', q_delete_dup h head fuel = some (true, h') ∧ Ring h' head l' ∧
      l'.Sublist l ∧ h'.value = h.value ∧
      (∀ l1 x l2, l = l1 ++ x :: l2 →
        (x ∈ l' ↔
          (∀ p, l1.getLast? = some p → strcmp (h.value p) (h.value x) ≠ 0) ∧
          (∀ s, l2.head? = some s → strcmp (h.value x) (h.value s) ≠ 0))) ∧
      (l = [] → h' = h) := by
  obtain ⟨h', he, hr', hv⟩ := hr.q_delete_dup_loop fuel hf
  refine ⟨h', _, he, hr', dedup_from_sublist _ l false, hv, ?_, ?_⟩
  · intro l1 x l2 hl
    rw [mem_dedup_from (eq_value h) l false l1 x l2 hl hr.nodup_nodes]
    simp [eq_value]
  · rintro rfl
    have := hr.q_delete_dup_nil fuel (by omega)
    rw [this] at he
    simpa using he.symm

/-- C19, witness: in the unsorted queue "apple", "apple", "banana", "apple",
"cherry", "cherry", "apple" the two runs go and the two single "apple" stay
together with "banana". -/
theorem q_delete_dup_runs_witness :
    (∃ h' l', q_delete_dup (queue_of [apple, apple, banana, apple, cherry, cherry, apple]) 1 8 =
        some (true, h') ∧ Ring h' 1 l' ∧ l'.Sublist [2, 3, 4, 5, 6, 7, 8] ∧
      h'.value = (queue_of [apple, apple, banana, apple, cherry, cherry, apple]).value ∧
      (∀ l1 x l2, [2, 3, 4, 5, 6, 7, 8] = l1 ++ x :: l2 →
        (x ∈ l' ↔
          (∀ p, l1.getLast? = some p → strcmp
            ((queue_of [apple, apple, banana, apple, cherry, cherry, apple]).value p)
            ((queue_of [apple, apple, banana, apple, cherry, cherry, apple]).value x) ≠ 0) ∧
          (∀ s, l2.head? = some s → strcmp
            ((queue_of [apple, apple, banana, apple, cherry, cherry, apple]).value x)
            ((queue_of [apple, apple, banana, apple, cherry, cherry, apple]).value s) ≠ 0))) ∧
      (([2, 3, 4, 5, 6, 7, 8] : List Nat) = [] →
        h' = queue_of [apple, apple, banana, apple, cherry, cherry, apple])) ∧
    (q_delete_dup (queue_of [apple, apple, banana, apple, cherry, cherry, apple]) 1 8).bind
      (fun r => q_strings r.2 1 8) = some [banana, apple, apple] ∧
    (q_delete_dup (queue_of [apple, banana, apple]) 1 4).bind (fun r => q_strings r.2 1 4) =
      some [apple, banana, apple] ∧
    q_delete_dup (queue_of []) 1 1 = some (true, queue_of []) :=
  ⟨q_delete_dup_runs (queue_of [apple, apple, banana, apple, cherry, cherry, apple]) 1
    [2, 3, 4, 5, 6, 7, 8] 8 (by decide) (by decide), by decide, by decide,
    @Ring.q_delete_dup_nil (queue_of []) 1 (by decide) 1 (by decide)⟩

/-- C20 : FIFO order with the strings "banana" and `s`, the string of
`2^32 + 1` bytes `A`: inserted in this order with `q_insert_tail` into an empty
queue (the allocations succeeding) and removed by two calls of
`q_remove_head`, the elements come back in the order of insertion and the
queue is empty, but the second element holds the string "A", which is not
`s`: `len` is the `int` `1` when `s` is stored. -/
theorem fifo_long_string :
    (remove_head_all 1 2 (insert_tail_all 1 (q_new Heap.empty 1).2
        [(banana, 2, List.replicate 7 85), (long_string, 3, [85, 85])])).1 =
      [(2, banana), (3, [65])] ∧
    Ring (remove_head_all 1 2 (insert_tail_all 1 (q_new Heap.empty 1).2
        [(banana, 2, List.replicate 7 85), (long_string, 3, [85, 85])])).2 1 [] ∧
    cstr long_string ≠ [65] ∧ strlen long_string = 4294967297 := by
  rw [insert_tail_all, insert_tail_all, insert_tail_all,
    q_insert_tail_long _ 1 3 (by decide) (by decide)]
  exact ⟨by decide, by decide, cstr_long_string_ne, strlen_long_string⟩

end Queue
